import Mathlib

/-!
# Verification of go-pep440-version

A shallow embedding of the PEP 440 version parser, comparison-key builder and
constraint evaluator of `rstudio/go-pep440-version` (files `version.go` and
`specifier.go`), together with proofs about the embedded definitions.

Strings are modelled as `List Char`; Go's arbitrary-precision `part.BigInt`
values (which the grammar only ever fills with non-negative decimal numerals)
are modelled as `Nat`.  The `part` package of the `go-version` dependency is
not part of this repository's sources; its ordered-value primitive is
modelled from the spec where noted.
-/

namespace Pep440

/-! ## Character utilities -/

/-- The `[0-9]` class (code points 48–57). -/
def isDigitCh (c : Char) : Bool := decide (48 ≤ c.toNat ∧ c.toNat ≤ 57)

def digitVal (c : Char) : Nat := c.toNat - '0'.toNat

def digitChar (d : Nat) : Char := Char.ofNat ('0'.toNat + d)

/-- Go's `\s` character class: space, tab, newline, vertical tab, form feed,
carriage return. -/
def isSpaceCh (c : Char) : Bool :=
  c = ' ' || c = '\t' || c = '\n' || c = '\x0b' || c = '\x0c' || c = '\r'

/-- ASCII lower-casing of a single character (code points 65–90 shifted up by
32), as `strings.ToLower` acts on the ASCII-only inputs that occur here. -/
def lowerCh (c : Char) : Char :=
  if 65 ≤ c.toNat ∧ c.toNat ≤ 90 then Char.ofNat (c.toNat + 32) else c

/-- Lower-case ASCII letter or digit: the `[a-z0-9]` class of the local-segment
grammar (used case-insensitively by the version regex); 97–122 and 48–57. -/
def isLocAl (c : Char) : Bool :=
  decide ((97 ≤ c.toNat ∧ c.toNat ≤ 122) ∨ (48 ≤ c.toNat ∧ c.toNat ≤ 57))

/-- The `[-_.]` separator class of the version grammar. -/
def isSepCh (c : Char) : Bool := c = '-' || c = '_' || c = '.'

/-! ## Decimal numerals -/

/-- Fuel-driven decimal printer (most significant digit first); `natDigitsF`
with fuel at least `n` renders `n`. -/
def natDigitsF : Nat → Nat → List Char → List Char
  | 0, _, acc => acc
  | _ + 1, 0, acc => acc
  | f + 1, n + 1, acc => natDigitsF f ((n + 1) / 10) (digitChar ((n + 1) % 10) :: acc)

/-- Decimal rendering of a natural number, as `fmt` renders the (non-negative)
`part.BigInt` values of the model. -/
def natDigits (n : Nat) : List Char :=
  if n = 0 then ['0'] else natDigitsF n n []

/-- Decimal value of a digit string (the value `part.NewBigInt` assigns to the
captured numerals; those are always plain decimal digit runs). -/
def numVal (cs : List Char) : Nat :=
  cs.foldl (fun a c => a * 10 + digitVal c) 0

/-! ## Ordered-value comparators

Modelled from the spec: the `part` package's ordered-value primitive (§4.1)
compares concrete values of the same kind directly, sentinels
`NegativeInfinity`/`Infinity` below/above everything, alpha-numeric local
tokens (`NewPreString`) below numeric ones, and the release sequence
element-wise with missing trailing elements treated as zero; local sequences
compare element-wise with a shorter sequence ranking as a proper prefix
(§4.3). -/

/-- Three-way comparison on `Nat`. -/
def cmpN (a b : Nat) : Ordering :=
  if a < b then .lt else if a = b then .eq else .gt

/-- Generic lexicographic comparison of lists: element-wise, a strict prefix
ranking below its extensions. -/
def cmpLexList {α : Type} (c : α → α → Ordering) : List α → List α → Ordering
  | [], [] => .eq
  | [], _ :: _ => .lt
  | _ :: _, [] => .gt
  | a :: as, b :: bs => (c a b).then (cmpLexList c as bs)

/-- Three-way comparison of characters by code point. -/
def charCmp (a b : Char) : Ordering := cmpN a.toNat b.toNat

/-- Lexicographic three-way comparison of character lists (ASCII order), as
`part.String` values compare. -/
def cmpChars : List Char → List Char → Ordering := cmpLexList charCmp

/-- Comparison of a sequence against an all-zero sequence of the same
length. -/
def cmpZeros : List Nat → Ordering
  | [] => .eq
  | a :: as => (cmpN a 0).then (cmpZeros as)

/-- Release-sequence comparison: element-wise, with missing trailing elements
treated as zero (spec §4.1), so unequal-length sequences compare
deterministically. -/
def cmpRel : List Nat → List Nat → Ordering
  | [], bs => (cmpZeros bs).swap
  | as, [] => cmpZeros as
  | a :: as, b :: bs => (cmpN a b).then (cmpRel as bs)

/-- One token of a parsed local segment: a numeric token, or an alphanumeric
token (`part.NewPreString`) that sorts below every numeric token. -/
inductive LocTok where
  | str (s : List Char)
  | num (n : Nat)
deriving DecidableEq, Repr

/-- Comparison of local-segment tokens: alphanumeric below numeric,
alphanumeric lexicographic, numeric numeric (spec §4.3). -/
def cmpLocTok : LocTok → LocTok → Ordering
  | .str a, .str b => cmpChars a b
  | .str _, .num _ => .lt
  | .num _, .str _ => .gt
  | .num a, .num b => cmpN a b

/-- Local-segment sequences compare element-wise; a shorter sequence compares
as a prefix, sorting before any proper extension (spec §4.3). -/
def cmpLocs : List LocTok → List LocTok → Ordering := cmpLexList cmpLocTok

/-- Key slot for the pre/post/dev letter-number pairs: a sentinel or a
concrete `(letter, number)` pair compared letter-first. -/
inductive KLN where
  | negInf
  | val (letter : List Char) (number : Nat)
  | inf
deriving DecidableEq, Repr

def cmpKLN : KLN → KLN → Ordering
  | .negInf, .negInf => .eq
  | .negInf, _ => .lt
  | _, .negInf => .gt
  | .inf, .inf => .eq
  | .inf, _ => .gt
  | _, .inf => .lt
  | .val l1 n1, .val l2 n2 => (cmpChars l1 l2).then (cmpN n1 n2)

/-- Key slot for the local segment: `NegativeInfinity` when absent, otherwise
the parsed token sequence. -/
inductive KLoc where
  | negInf
  | val (toks : List LocTok)
deriving DecidableEq, Repr

def cmpKLoc : KLoc → KLoc → Ordering
  | .negInf, .negInf => .eq
  | .negInf, .val _ => .lt
  | .val _, .negInf => .gt
  | .val a, .val b => cmpLocs a b

/-! ## The comparison key -/

/-- The 6-tuple ordering key (`type key` in version.go). -/
structure Key where
  epoch : Nat
  release : List Nat
  pre : KLN
  post : KLN
  dev : KLN
  localKey : KLoc
deriving DecidableEq, Repr

/-- `key.compare`: the six components wrapped as one composite and compared
element-wise left to right (both composites always have exactly six
elements). -/
def Key.cmp (k o : Key) : Ordering :=
  (cmpN k.epoch o.epoch).then
    ((cmpRel k.release o.release).then
      ((cmpKLN k.pre o.pre).then
        ((cmpKLN k.post o.post).then
          ((cmpKLN k.dev o.dev).then (cmpKLoc k.localKey o.localKey)))))

/-! ## Version fields -/

/-- `letterNumber`: the letter and number of a pre/post/dev segment.  A wholly
absent segment is represented by the empty letter; a present segment whose
numeric suffix is missing carries number 0 (per the spec both states compare
and render identically, and the letter alone decides nullness here since the
grammar never produces a number without a letter class). -/
structure LetterNumber where
  letter : List Char
  number : Nat
deriving DecidableEq, Repr

def LetterNumber.isNull (ln : LetterNumber) : Bool := ln.letter = []

/-- Remove trailing zeros of the release sequence (`Normalize`). -/
def dropTrailingZeros (l : List Nat) : List Nat :=
  (l.reverse.dropWhile (· = 0)).reverse

/-- Split a character list on `'.'` (like `strings.Split` with a one-character
separator: the result is never empty and keeps empty chunks). -/
def splitOnDotAux : List Char → List Char → List (List Char)
  | [], acc => [acc.reverse]
  | c :: cs, acc =>
    if c = '.' then acc.reverse :: splitOnDotAux cs []
    else splitOnDotAux cs (c :: acc)

def splitOnDot (cs : List Char) : List (List Char) := splitOnDotAux cs []

/-- A local-segment token becomes numeric when `part.NewBigInt` accepts it,
i.e. when it is a non-empty run of decimal digits; otherwise it is an
alphanumeric `NewPreString` token. -/
def locTokOf (tok : List Char) : LocTok :=
  if tok ≠ [] && tok.all isDigitCh then .num (numVal tok) else .str tok

/-- `cmpkey` (version.go): build the ordering key from the parsed fields,
normalizing the release and installing the PEP 440 sentinels. -/
def cmpkey (epoch : Nat) (release : List Nat)
    (pre post dev : LetterNumber) (localSeg : List Char) : Key :=
  { epoch := epoch
    release := dropTrailingZeros release
    pre :=
      if pre.isNull && post.isNull && !dev.isNull then .negInf
      else if pre.isNull then .inf
      else .val pre.letter pre.number
    post := if post.isNull then .negInf else .val post.letter post.number
    dev := if dev.isNull then .inf else .val dev.letter dev.number
    localKey :=
      if localSeg = [] then .negInf
      else .val ((splitOnDot localSeg).map locTokOf) }

/-- `Version`: the parsed value (version.go). -/
structure Version where
  epoch : Nat
  release : List Nat
  pre : LetterNumber
  post : LetterNumber
  dev : LetterNumber
  localSeg : List Char
  key : Key
  preReleaseIncluded : Bool
  original : List Char
deriving DecidableEq, Repr

/-! ## Rendering (`String()`, `BaseVersion()`, `Public()`) -/

def renderRelease : List Nat → List Char
  | [] => []
  | r :: rs => natDigits r ++ rs.flatMap (fun x => '.' :: natDigits x)

/-- `String()`: the canonical rendering.  (On a parsed version the release is
never empty; rendering an empty release as nothing stands in for the
out-of-bounds access Go would make.) -/
def render (v : Version) : List Char :=
  (if v.epoch > 0 then natDigits v.epoch ++ ['!'] else [])
    ++ renderRelease v.release
    ++ (if !v.pre.isNull then v.pre.letter ++ natDigits v.pre.number else [])
    ++ (if !v.post.isNull then ".post".data ++ natDigits v.post.number else [])
    ++ (if !v.dev.isNull then ".dev".data ++ natDigits v.dev.number else [])
    ++ (if v.localSeg ≠ [] then '+' :: v.localSeg else [])

/-- `BaseVersion()`: epoch and release only. -/
def Version.baseVersion (v : Version) : List Char :=
  (if v.epoch > 0 then natDigits v.epoch ++ ['!'] else [])
    ++ renderRelease v.release

/-- `Public()`: the canonical rendering up to (excluding) the first `'+'`. -/
def Version.publicStr (v : Version) : List Char :=
  (render v).takeWhile (· ≠ '+')

def Version.isPreRelease (v : Version) : Bool :=
  if v.preReleaseIncluded then false else !v.pre.isNull || !v.dev.isNull

def Version.isPostRelease (v : Version) : Bool := !v.post.isNull

/-! ## Comparison (`Compare` and friends) -/

def ordToInt : Ordering → Int
  | .lt => -1
  | .eq => 0
  | .gt => 1

/-- `Parts.Padding`: extend a release sequence with zeros up to the requested
length (no effect when already at least that long). -/
def padTo (l : List Nat) (n : Nat) : List Nat :=
  l ++ List.replicate (n - l.length) 0

/-- `Compare`: the fast path returns 0 on identical canonical strings;
otherwise the keys are compared after the release paddings of the source
(`k1` padded to `len(k2.release)`, `k2` padded to `len(k2.release)`). -/
def Version.compareI (v o : Version) : Int :=
  if render v = render o then 0
  else
    let k1 : Key := { v.key with release := padTo v.key.release o.key.release.length }
    let k2 : Key := { o.key with release := padTo o.key.release o.key.release.length }
    ordToInt (k1.cmp k2)

def Version.equal (v o : Version) : Bool := v.compareI o = 0

def Version.greaterThan (v o : Version) : Bool := v.compareI o > 0

def Version.greaterThanOrEqual (v o : Version) : Bool := v.compareI o ≥ 0

def Version.lessThan (v o : Version) : Bool := v.compareI o < 0

def Version.lessThanOrEqual (v o : Version) : Bool := v.compareI o ≤ 0

/-! ## The version parser

`Parse` matches the anchored, case-insensitive PEP 440 regular expression.
The regex engine is embedded as a list-of-successes parser: a parser maps the
remaining input to the list of all (captures, rest) continuations in the
engine's preference order (earlier alternatives and greedier repetitions
first), and a match is the head of the full-match list, which reproduces the
leftmost-preferred submatch semantics of the anchored pattern. -/

def P (α : Type) : Type := List Char → List (α × List Char)

def pret {α : Type} (a : α) : P α := fun s => [(a, s)]

def pfail {α : Type} : P α := fun _ => []

def pbind {α β : Type} (p : P α) (f : α → P β) : P β :=
  fun s => (p s).flatMap (fun ar => f ar.1 ar.2)

def pmap {α β : Type} (g : α → β) (p : P α) : P β :=
  fun s => (p s).map (fun ar => (g ar.1, ar.2))

/-- Ordered alternation: results of the first alternative take preference. -/
def palt {α : Type} (p q : P α) : P α := fun s => p s ++ q s

def pchar (pred : Char → Bool) : P Char := fun s =>
  match s with
  | [] => []
  | c :: cs => if pred c then [(c, cs)] else []

/-- Greedy `?`: the consuming alternative is preferred. -/
def popt {α : Type} (p : P α) : P (Option α) :=
  palt (pmap some p) (pret none)

/-- All splits of a greedy character-class run `pred*`, longest first. -/
def manyCh (pred : Char → Bool) : List Char → List (List Char × List Char)
  | [] => [([], [])]
  | c :: cs =>
    if pred c then
      ((manyCh pred cs).map (fun p => (c :: p.1, p.2))) ++ [([], c :: cs)]
    else [([], c :: cs)]

def pmanyCh (pred : Char → Bool) : P (List Char) := fun s => manyCh pred s

/-- Greedy `class+`: one required character then a greedy run. -/
def psome (pred : Char → Bool) : P (List Char) :=
  pbind (pchar pred) (fun c => pmap (fun r => c :: r) (pmanyCh pred))

/-- Case-insensitive literal. -/
def plitCI : List Char → P Unit
  | [] => pret ()
  | c :: cs => pbind (pchar (fun d => lowerCh d = lowerCh c)) (fun _ => plitCI cs)

/-- Greedy fueled `p*` (every use consumes at least one character per
iteration, so fuel `|input|` is exhaustive); longer repetitions first. -/
def pmany {α : Type} (p : P α) : Nat → P (List α)
  | 0 => pret []
  | f + 1 =>
    palt (pbind p (fun a => pmap (fun as => a :: as) (pmany p f))) (pret [])

def eofP : P Unit := fun s => match s with | [] => [((), [])] | _ :: _ => []

/-- Optional `[-_.]` separator. -/
def sepOpt : P (Option Char) := popt (pchar isSepCh)

/-- The raw captures of the version regex. -/
structure Raw where
  epoch : Nat
  release : List Nat
  pre : Option (List Char × Option Nat)
  post : Option (List Char × Option Nat)
  dev : Option (List Char × Option Nat)
  localSeg : List Char
deriving DecidableEq, Repr

def digits1 : P (List Char) := psome isDigitCh

/-- `(?:(?P<epoch>[0-9]+)!)?` -/
def epochStage : P (Option Nat) :=
  popt (pbind digits1 (fun d => pbind (pchar (· = '!')) (fun _ => pret (numVal d))))

/-- One `\.[0-9]+` group of the release segment. -/
def dotDigits : P (List Char) :=
  pbind (pchar (· = '.')) (fun _ => digits1)

/-- `(?P<release>[0-9]+(?:\.[0-9]+)*)` -/
def releaseStage (fuel : Nat) : P (List Nat) :=
  pbind digits1 (fun d =>
    pbind (pmany dotDigits fuel)
      (fun rest => pret (numVal d :: rest.map numVal)))

/-- `preReleaseAliases` applied to the lower-cased pre-release letter. -/
def preAlias (s : List Char) : List Char :=
  if s = "alpha".data then "a".data
  else if s = "beta".data then "b".data
  else if s = "c".data || s = "pre".data || s = "preview".data then "rc".data
  else s

/-- `(a|b|c|rc|alpha|beta|pre|preview)` in the regex's alternation order, the
captured letter already alias-normalized. -/
def preLetterAlt : P (List Char) :=
  palt (pbind (plitCI "a".data) (fun _ => pret (preAlias "a".data)))
    (palt (pbind (plitCI "b".data) (fun _ => pret (preAlias "b".data)))
      (palt (pbind (plitCI "c".data) (fun _ => pret (preAlias "c".data)))
        (palt (pbind (plitCI "rc".data) (fun _ => pret (preAlias "rc".data)))
          (palt (pbind (plitCI "alpha".data) (fun _ => pret (preAlias "alpha".data)))
            (palt (pbind (plitCI "beta".data) (fun _ => pret (preAlias "beta".data)))
              (palt (pbind (plitCI "pre".data) (fun _ => pret (preAlias "pre".data)))
                (pbind (plitCI "preview".data) (fun _ => pret (preAlias "preview".data)))))))))

/-- `(?P<pre>[-_\.]?(?P<pre_l>...)[-_\.]?(?P<pre_n>[0-9]+)?)?` -/
def preStage : P (Option (List Char × Option Nat)) :=
  popt (pbind sepOpt (fun _ =>
    pbind preLetterAlt (fun l =>
      pbind sepOpt (fun _ =>
        pbind (popt digits1) (fun n => pret (l, n.map numVal))))))

/-- `(post|rev|r)`: every alias maps to `post`. -/
def postLetterAlt : P (List Char) :=
  palt (pbind (plitCI "post".data) (fun _ => pret "post".data))
    (palt (pbind (plitCI "rev".data) (fun _ => pret "post".data))
      (pbind (plitCI "r".data) (fun _ => pret "post".data)))

/-- `(?P<post>(?:-(?P<post_n1>[0-9]+))|(?:[-_\.]?(?P<post_l>post|rev|r)[-_\.]?(?P<post_n2>[0-9]+)?))?`
— the bare `-N` form is given the implicit letter `post`. -/
def postStage : P (Option (List Char × Option Nat)) :=
  popt (palt
    (pbind (pchar (· = '-')) (fun _ =>
      pbind digits1 (fun d => pret ("post".data, some (numVal d)))))
    (pbind sepOpt (fun _ =>
      pbind postLetterAlt (fun l =>
        pbind sepOpt (fun _ =>
          pbind (popt digits1) (fun n => pret (l, n.map numVal)))))))

/-- `(?P<dev>[-_\.]?(?P<dev_l>dev)[-_\.]?(?P<dev_n>[0-9]+)?)?` -/
def devStage : P (Option (List Char × Option Nat)) :=
  popt (pbind sepOpt (fun _ =>
    pbind (plitCI "dev".data) (fun _ =>
      pbind sepOpt (fun _ =>
        pbind (popt digits1) (fun n => pret ("dev".data, n.map numVal))))))

/-- One case-insensitive `[a-z0-9]` character. -/
def isLocAlCI (c : Char) : Bool := isLocAl (lowerCh c)

/-- One `[-_.][a-z0-9]+` group of the local segment. -/
def locChunk : P (List Char) :=
  pbind (pchar isSepCh) (fun s => pmap (fun t2 => s :: t2) (psome isLocAlCI))

/-- `(?:\+(?P<local>[a-z0-9]+(?:[-_\.][a-z0-9]+)*))?` — the capture is the
matched text. -/
def localStage (fuel : Nat) : P (List Char) :=
  pmap (fun o => (o : Option (List Char)).getD [])
    (popt (pbind (pchar (· = '+')) (fun _ =>
      pbind (psome isLocAlCI) (fun t =>
        pbind (pmany locChunk fuel)
          (fun rest => pret (t ++ rest.flatMap id))))))

/-- The anchored pattern `(?i)^\s*v?...\s*$` with all captures. -/
def pipe (fuel : Nat) : P Raw :=
  pbind (pmanyCh isSpaceCh) (fun _ =>
  pbind (popt (pchar (fun c => lowerCh c = 'v'))) (fun _ =>
  pbind epochStage (fun e =>
  pbind (releaseStage fuel) (fun r =>
  pbind preStage (fun pr =>
  pbind postStage (fun po =>
  pbind devStage (fun dv =>
  pbind (localStage fuel) (fun lo =>
  pbind (pmanyCh isSpaceCh) (fun _ =>
  pbind eofP (fun _ =>
  pret { epoch := e.getD 0, release := r, pre := pr, post := po, dev := dv,
         localSeg := lo }))))))))))

/-- Turn an optional captured letter-number pair into the stored
`letterNumber` (absent segment: empty letter; missing numeric suffix: 0). -/
def lnOf (o : Option (List Char × Option Nat)) : LetterNumber :=
  match o with
  | none => { letter := [], number := 0 }
  | some (l, n) => { letter := l, number := n.getD 0 }

/-- Assemble the `Version` from the captures, computing the key once
(`Parse`'s construction of the returned value). -/
def mkVersion (raw : Raw) (orig : List Char) : Version :=
  let pre := lnOf raw.pre
  let post := lnOf raw.post
  let dev := lnOf raw.dev
  let loc := raw.localSeg.map lowerCh
  { epoch := raw.epoch
    release := raw.release
    pre := pre
    post := post
    dev := dev
    localSeg := loc
    key := cmpkey raw.epoch raw.release pre post dev loc
    preReleaseIncluded := false
    original := orig }

/-- `Parse`: `none` models the `malformed version` error. -/
def parse (cs : List Char) : Option Version :=
  match pipe cs.length cs with
  | [] => none
  | (raw, _) :: _ => some (mkVersion raw cs)

/-- `MustParse` modelled totally: the (proved unreachable in checked flows)
panic case yields a fixed junk version. -/
def junkVersion : Version :=
  { epoch := 0, release := [], pre := { letter := [], number := 0 },
    post := { letter := [], number := 0 }, dev := { letter := [], number := 0 },
    localSeg := [], key := cmpkey 0 [] ⟨[], 0⟩ ⟨[], 0⟩ ⟨[], 0⟩ [],
    preReleaseIncluded := false, original := [] }

def mustParse (cs : List Char) : Version := (parse cs).getD junkVersion

/-! ## Constraints (specifier.go) -/

/-- `strings.HasPrefix s lit` (holds when `lit` starts `s`). -/
def startsWith : List Char → List Char → Bool
  | _, [] => true
  | [], _ :: _ => false
  | c :: cs, p :: ps => c = p && startsWith cs ps

/-- `strings.HasSuffix s ".*"`. -/
def endsWithDotStar (s : List Char) : Bool := startsWith s.reverse ['*', '.']

/-- `strings.TrimSuffix s ".*"` (one occurrence). -/
def trimDotStar (s : List Char) : List Char :=
  if endsWithDotStar s then s.take (s.length - 2) else s

/-- `prefixRegexp` applied to one dot-chunk: `^([0-9]+)((?:a|b|c|rc)[0-9]+)$`
splits e.g. `12rc1` into the two implicit tokens `12`, `rc1`. -/
def preSplitChunk (chunk : List Char) : List (List Char) :=
  let d := chunk.takeWhile isDigitCh
  let r := chunk.drop d.length
  if d.isEmpty then [chunk]
  else
    match r with
    | 'r' :: 'c' :: rest =>
      if !rest.isEmpty && rest.all isDigitCh then [d, r] else [chunk]
    | c :: rest =>
      if (c = 'a' || c = 'b' || c = 'c') && !rest.isEmpty && rest.all isDigitCh then [d, r]
      else [chunk]
    | [] => [chunk]

/-- `versionSplit`: dot-split, with release/pre-release boundary chunks split
in two. -/
def versionSplit (version : List Char) : List (List Char) :=
  (splitOnDot version).flatMap preSplitChunk

def int64Max : Nat := 9223372036854775807

/-- `isDigist` (sic): whether `strconv.Atoi` accepts the token — an optional
sign, a non-empty digit run, and a value within the 64-bit int range. -/
def isDigist (s : List Char) : Bool :=
  match s with
  | '+' :: r => !r.isEmpty && r.all isDigitCh && numVal r ≤ int64Max
  | '-' :: r => !r.isEmpty && r.all isDigitCh && numVal r ≤ int64Max + 1
  | r => !r.isEmpty && r.all isDigitCh && numVal r ≤ int64Max

/-- One of `padVersion`'s Go `for` loops
(`for i := 0; i < target - len(r); i++ { r = append(r, "0") }`): the bound is
re-evaluated against the growing slice each iteration, so the loop stops as
soon as `i` reaches `target - len(r)`.  Fuel `target + 1` is exhaustive. -/
def goPadLoopF (target : Nat) : Nat → Nat → List (List Char) → List (List Char)
  | 0, _, r => r
  | f + 1, i, r =>
    if i < target - r.length then goPadLoopF target f (i + 1) (r ++ [['0']]) else r

/-- `padVersion`: filter out each side's digit tokens, take the rests (both
from `left`, as the source does), and run the two padding loops in order. -/
def padVersion (left right : List (List Char)) :
    List (List Char) × List (List Char) :=
  let leftRelease := left.filter (fun t => isDigist t)
  let rightRelease := right.filter (fun t => isDigist t)
  let leftRest := left.drop leftRelease.length
  let rightRest := left.drop rightRelease.length
  let rightRelease2 := goPadLoopF leftRelease.length (leftRelease.length + 1) 0 rightRelease
  let leftRelease2 := goPadLoopF rightRelease2.length (rightRelease2.length + 1) 0 leftRelease
  (leftRelease2 ++ leftRest, rightRelease2 ++ rightRest)

/-- `strings.Join xs "."`. -/
def joinDots : List (List Char) → List Char
  | [] => []
  | t :: ts => t ++ ts.flatMap (fun u => '.' :: u)

/-- `strings.EqualFold` on the ASCII-only strings that occur here (modelled
from the spec: case-insensitive exact string equality). -/
def eqFold (a b : List Char) : Bool := a.map lowerCh = b.map lowerCh

/-- `specifierEqual`: wildcard specs compare token sequences after
truncation and padding; plain specs compare versions, with the candidate's
local segment stripped unless the spec itself carries one. -/
def specifierEqual (prospective : Version) (spec : List Char) : Bool :=
  if endsWithDotStar spec then
    let p := mustParse prospective.publicStr
    let splitSpec := versionSplit (spec.take (spec.length - 2))
    let splitProspective0 := versionSplit (render p)
    let splitProspective :=
      if splitProspective0.length > splitSpec.length then
        splitProspective0.take splitSpec.length
      else splitProspective0
    let padded := padVersion splitSpec splitProspective
    padded.1 = padded.2
  else
    let specVersion := mustParse spec
    let prospective2 :=
      if specVersion.localSeg = [] then mustParse prospective.publicStr else prospective
    specVersion.equal prospective2

def specifierNotEqual (prospective : Version) (spec : List Char) : Bool :=
  !specifierEqual prospective spec

def specifierLessThan (prospective : Version) (spec : List Char) : Bool :=
  let s := mustParse spec
  if !prospective.lessThan s then false
  else if !s.isPreRelease && prospective.isPreRelease then
    if (mustParse prospective.baseVersion).equal (mustParse s.baseVersion) then false
    else true
  else true

def specifierGreaterThan (prospective : Version) (spec : List Char) : Bool :=
  let s := mustParse spec
  if !prospective.greaterThan s then false
  else if !s.isPostRelease && prospective.isPostRelease
      && (mustParse prospective.baseVersion).equal (mustParse s.baseVersion) then false
  else if prospective.localSeg ≠ []
      && (mustParse prospective.baseVersion).equal (mustParse s.baseVersion) then false
  else true

def specifierArbitrary (prospective : Version) (spec : List Char) : Bool :=
  eqFold (render prospective) spec

def specifierLessThanEqual (prospective : Version) (spec : List Char) : Bool :=
  (mustParse prospective.publicStr).lessThanOrEqual (mustParse spec)

def specifierGreaterThanEqual (prospective : Version) (spec : List Char) : Bool :=
  (mustParse prospective.publicStr).greaterThanOrEqual (mustParse spec)

/-- `specifierCompatible`: `~=` is `>= spec` together with `== pfx.*`, where
`pfx` joins the spec's split tokens up to (excluding) the first token that
starts with `post` or `dev`, with the final element dropped. -/
def specifierCompatible (prospective : Version) (spec : List Char) : Bool :=
  let prefixElements :=
    (versionSplit spec).takeWhile
      (fun s => !(startsWith s "post".data || startsWith s "dev".data))
  let pfx := joinDots (prefixElements.take (prefixElements.length - 1)) ++ ".*".data
  specifierGreaterThanEqual prospective spec && specifierEqual prospective pfx

inductive Op where
  | opEq | opNe | opGt | opLt | opGe | opLe | opArb | opCompat
deriving DecidableEq, Repr

/-- `specifierOperators` dispatch. -/
def applyOp : Op → Version → List Char → Bool
  | .opEq, v, c => specifierEqual v c
  | .opNe, v, c => specifierNotEqual v c
  | .opGt, v, c => specifierGreaterThan v c
  | .opLt, v, c => specifierLessThan v c
  | .opGe, v, c => specifierGreaterThanEqual v c
  | .opLe, v, c => specifierLessThanEqual v c
  | .opArb, v, c => specifierArbitrary v c
  | .opCompat, v, c => specifierCompatible v c

structure Constraint where
  version : List Char
  op : Op
  original : List Char
deriving DecidableEq, Repr

structure Constraints where
  constraints : List (List Constraint)
deriving DecidableEq, Repr

/-- `validate`: operator-specific rules checked at construction time. -/
def validate (op : Op) (version : List Char) : Except (List Char) Unit :=
  let hasWildcard := endsWithDotStar version
  let version2 := if hasWildcard then version.take (version.length - 2) else version
  match parse version2 with
  | none => .error ("version parse error".data)
  | some v =>
    match op with
    | .opEq | .opNe =>
      if hasWildcard && (!v.dev.isNull || !v.localSeg.isEmpty) then
        .error ("wildcard with dev or local".data)
      else .ok ()
    | .opCompat =>
      if hasWildcard then .error ("a wild card is not allowed".data)
      else if v.release.length < 2 then
        .error ("the compatible operator requires at least two digits".data)
      else if !v.localSeg.isEmpty then .error ("local versions cannot be specified".data)
      else .ok ()
    | _ =>
      if hasWildcard then .error ("a wild card is not allowed".data)
      else if !v.localSeg.isEmpty then .error ("local versions cannot be specified".data)
      else .ok ()

/-- `specifierRegexp`'s ordered operator alternation. -/
def opList : List (List Char × Op) :=
  [("~=".data, .opCompat), ("===".data, .opArb), ("==".data, .opEq),
   ("!=".data, .opNe), ("<=".data, .opLe), (">=".data, .opGe),
   ("<".data, .opLt), (">".data, .opGt)]

def findOpIn : List (List Char × Op) → List Char → Option (Op × List Char)
  | [], _ => none
  | (lit, o) :: rest, s =>
    if startsWith s lit then some (o, s.drop lit.length) else findOpIn rest s

/-- The anchored `^\s*(operator)\s*([^\s]*)\s*$` match: operator by first
matching alternative, then the whitespace-free version token.  (When the
remainder contains interior whitespace no operator alternative can complete
the match, so committing to the first is faithful.) -/
def matchSpecifier (c : List Char) : Option (Op × List Char) :=
  let s1 := c.dropWhile isSpaceCh
  match findOpIn opList s1 with
  | none => none
  | some (o, rest) =>
    let rest2 := rest.dropWhile isSpaceCh
    let ver := rest2.takeWhile (fun ch => !isSpaceCh ch)
    let rem := rest2.drop ver.length
    if rem.all isSpaceCh then some (o, ver) else none

/-- `newConstraint`: match the clause, validate (except for `===`), store. -/
def newConstraint (c : List Char) : Except (List Char) Constraint :=
  match matchSpecifier c with
  | none => .error ("improper constraint".data)
  | some (o, ver) =>
    if o = .opArb then .ok { version := ver, op := o, original := c }
    else
      match validate o ver with
      | .error e => .error e
      | .ok _ => .ok { version := ver, op := o, original := c }

/-- Leftmost split on a (non-empty) separator string, like `strings.Split`. -/
def splitSubF (sep : List Char) : Nat → List Char → List Char → List (List Char)
  | _, [], acc => [acc.reverse]
  | 0, s, acc => [acc.reverse ++ s]
  | f + 1, c :: cs, acc =>
    if startsWith (c :: cs) sep then
      acc.reverse :: splitSubF sep f ((c :: cs).drop sep.length) []
    else splitSubF sep f cs (c :: acc)

def splitSub (sep s : List Char) : List (List Char) := splitSubF sep s.length s []

/-- `NewConstraints`: `||`-groups of `,`-clauses, failing on the first bad
clause. -/
def newConstraints (v : List Char) : Except (List Char) Constraints :=
  match (splitSub "||".data v).mapM (fun vv => (splitSub ",".data vv).mapM newConstraint) with
  | .error e => .error e
  | .ok css => .ok { constraints := css }

def Constraint.checkC (c : Constraint) (v : Version) : Bool :=
  applyOp c.op v c.version

def andCheck (v : Version) (cs : List Constraint) : Bool :=
  cs.all (fun c => c.checkC v)

/-- `Constraints.Check`: true iff some AND-group matches entirely. -/
def check (cs : Constraints) (v : Version) : Bool :=
  cs.constraints.any (fun g => andCheck v g)

/-- Evaluate a constraint expression against a version string; `none` when
either side fails to build. -/
def checkStr (c v : String) : Option Bool :=
  match newConstraints c.data, parse v.data with
  | .ok cs, some ver => some (check cs ver)
  | _, _ => none

/-! ## Comparator laws

The laws a three-way comparator must satisfy for the derived relations to
form a total (pre)order: reflexivity, antisymmetric swap, transitivity of
`lt`, and congruence of `eq`. -/

structure LawfulCmp {α : Type} (cmp : α → α → Ordering) : Prop where
  refl : ∀ a, cmp a a = .eq
  swap : ∀ a b, cmp a b = (cmp b a).swap
  lt_trans : ∀ a b c, cmp a b = .lt → cmp b c = .lt → cmp a c = .lt
  eq_left : ∀ a b c, cmp a b = .eq → cmp b c = cmp a c

/-! ## Proof-layer predicates, claim-side models and instrumented evaluation -/

def FirstIs {α : Type} (p : P α) (s : List Char) (a : α) (r : List Char) : Prop :=
  ∃ t, p s = (a, r) :: t

/-- `rest` does not begin with a `pred` character. -/
def HeadNot (pred : Char → Bool) (rest : List Char) : Prop :=
  ∀ r rs, rest = r :: rs → pred r = false

/-- After the release segment the input must neither begin with a digit nor
with a dot-digit group. -/
def RelStop (rest : List Char) : Prop :=
  dotDigits rest = [] ∧ HeadNot isDigitCh rest

/-- The input shapes on which the pre-release letter alternation can make no
progress: end of input, a dot, a plus, a `dev` marker, or a `post` marker. -/
def PreFail (s : List Char) : Prop :=
  s = [] ∨ (∃ tl, s = '.' :: tl) ∨ (∃ tl, s = '+' :: tl)
    ∨ (∃ tl, s = 'd' :: tl) ∨ (∃ tl, s = 'p' :: 'o' :: tl)

/-- Canonical shapes that can follow the dev segment. -/
def ShapeA4 (s : List Char) : Prop :=
  s = [] ∨ ∃ tl, s = '+' :: tl

/-- Canonical shapes that can follow the post segment. -/
def ShapeA3 (s : List Char) : Prop :=
  ShapeA4 s ∨ ∃ tl, s = '.' :: 'd' :: 'e' :: 'v' :: tl

/-- Canonical shapes that can follow the pre segment. -/
def ShapeA2 (s : List Char) : Prop :=
  ShapeA3 s ∨ ∃ tl, s = '.' :: 'p' :: 'o' :: 's' :: 't' :: tl

/-- Canonical shapes that can follow the release segment. -/
def ShapeAR (s : List Char) : Prop :=
  ShapeA2 s ∨ (∃ tl, s = 'a' :: tl) ∨ (∃ tl, s = 'b' :: tl)
    ∨ ∃ tl, s = 'r' :: 'c' :: tl

/-- The flattened text of the separator-token chunks of a local segment. -/
def locFlat (chs : List (Char × List Char)) : List Char :=
  chs.flatMap (fun p => p.1 :: p.2)

def LocChunksWf (chs : List (Char × List Char)) : Prop :=
  ∀ p ∈ chs, isSepCh p.1 = true ∧ p.2 ≠ [] ∧ p.2.all isLocAl = true

/-- A well-formed (lower-case) local segment: a token, then separator-token
chunks. -/
def LocWf (loc : List Char) : Prop :=
  ∃ t0 chs, loc = t0 ++ locFlat chs ∧ t0 ≠ [] ∧ t0.all isLocAl = true ∧ LocChunksWf chs

/-- The raw capture a stored letter-number pair came from. -/
def lnRawOf (ln : LetterNumber) : Option (List Char × Option Nat) :=
  if ln.letter = [] then none else some (ln.letter, some ln.number)

def rawOf (v : Version) : Raw :=
  { epoch := v.epoch, release := v.release, pre := lnRawOf v.pre,
    post := lnRawOf v.post, dev := lnRawOf v.dev, localSeg := v.localSeg }

/-- The structural invariant every value returned by `parse` satisfies. -/
structure WfV (v : Version) : Prop where
  relNe : v.release ≠ []
  preW : (v.pre.letter = [] ∧ v.pre.number = 0) ∨ v.pre.letter = "a".data
    ∨ v.pre.letter = "b".data ∨ v.pre.letter = "rc".data
  postW : (v.post.letter = [] ∧ v.post.number = 0) ∨ v.post.letter = "post".data
  devW : (v.dev.letter = [] ∧ v.dev.number = 0) ∨ v.dev.letter = "dev".data
  locW : v.localSeg = [] ∨ LocWf v.localSeg
  keyW : v.key = cmpkey v.epoch v.release v.pre v.post v.dev v.localSeg
  priW : v.preReleaseIncluded = false

/-- The structural facts that hold of every capture of the whole pattern. -/
def RawWf (raw : Raw) : Prop :=
  raw.release ≠ []
    ∧ (∀ l n, raw.pre = some (l, n) → l = "a".data ∨ l = "b".data ∨ l = "rc".data)
    ∧ (∀ l n, raw.post = some (l, n) → l = "post".data)
    ∧ (∀ l n, raw.dev = some (l, n) → l = "dev".data)
    ∧ (raw.localSeg.map lowerCh = [] ∨ LocWf (raw.localSeg.map lowerCh))

/-- Comparison as the spec describes it: on distinct canonical strings both
release sequences are padded with zeros to the longer of the two lengths
before the component compare. -/
def compareSpecC2 (v o : Version) : Int :=
  if render v = render o then 0
  else
    let n := max v.key.release.length o.key.release.length
    ordToInt (Key.cmp { v.key with release := padTo v.key.release n }
      { o.key with release := padTo o.key.release n })

/-- The `~=` prefix as the spec words it: the split tokens up to the first
`post`/`dev` token, with the final remaining token dropped, rejoined with a
trailing `.*`. -/
def specPrefixC5 (spec : List Char) : List Char :=
  joinDots ((versionSplit spec).takeWhile
      (fun s => !(startsWith s "post".data || startsWith s "dev".data))).dropLast
    ++ ".*".data

def exceptToOption {e a : Type} : Except e a → Option a
  | .ok x => some x
  | .error _ => none

/-- One padding loop of the claim's description: append exactly the length
difference. -/
def padVersionSpecC6 (left right : List (List Char)) :
    List (List Char) × List (List Char) :=
  let leftRelease := left.filter (fun t => isDigist t)
  let rightRelease := right.filter (fun t => isDigist t)
  let leftRest := left.drop leftRelease.length
  let rightRest := right.drop rightRelease.length
  let rightRelease2 := rightRelease
    ++ List.replicate (leftRelease.length - rightRelease.length) ['0']
  let leftRelease2 := leftRelease
    ++ List.replicate (rightRelease.length - leftRelease.length) ['0']
  (leftRelease2 ++ leftRest, rightRelease2 ++ rightRest)

/-- Wildcard matching as the claim words it: strip the candidate's local
segment, tokenize both sides, truncate the candidate, zero-pad the shorter
numeric-only leading portion fully, each operand keeping its own trailing
rest, then compare element-wise. -/
def specEqualWildSpecC6 (v : Version) (spec : List Char) : Bool :=
  let p := mustParse v.publicStr
  let splitSpec := versionSplit (spec.take (spec.length - 2))
  let splitProspective0 := versionSplit (render p)
  let splitProspective :=
    if splitProspective0.length > splitSpec.length then
      splitProspective0.take splitSpec.length
    else splitProspective0
  let padded := padVersionSpecC6 splitSpec splitProspective
  padded.1 = padded.2

/-- `padVersion` as it actually behaves: each Go loop re-evaluates its bound
against the growing slice, so only half the intended zeros (rounded up) are
appended, and both rests are sliced from `left`. -/
def padVersionA (left right : List (List Char)) :
    List (List Char) × List (List Char) :=
  let leftRelease := left.filter (fun t => isDigist t)
  let rightRelease := right.filter (fun t => isDigist t)
  let leftRest := left.drop leftRelease.length
  let rightRest := left.drop rightRelease.length
  let rightRelease2 := rightRelease
    ++ List.replicate ((leftRelease.length - rightRelease.length + 1) / 2) ['0']
  let leftRelease2 := leftRelease
    ++ List.replicate ((rightRelease2.length - leftRelease.length + 1) / 2) ['0']
  (leftRelease2 ++ leftRest, rightRelease2 ++ rightRest)

/-- `specifierEqual`'s wildcard branch with the padding in closed form. -/
def specEqualWildA (v : Version) (spec : List Char) : Bool :=
  let p := mustParse v.publicStr
  let splitSpec := versionSplit (spec.take (spec.length - 2))
  let splitProspective0 := versionSplit (render p)
  let splitProspective :=
    if splitProspective0.length > splitSpec.length then
      splitProspective0.take splitSpec.length
    else splitProspective0
  let padded := padVersionA splitSpec splitProspective
  padded.1 = padded.2

/-- The version with its local segment removed (the value `Public()` denotes). -/
def stripLocal (v : Version) : Version :=
  { v with
    localSeg := []
    key := cmpkey v.epoch v.release v.pre v.post v.dev [] }

/-- The base version as a `Version` (the value `BaseVersion()` renders). -/
def baseOf (v : Version) : Version :=
  { epoch := v.epoch, release := v.release,
    pre := ⟨[], 0⟩, post := ⟨[], 0⟩, dev := ⟨[], 0⟩, localSeg := [],
    key := cmpkey v.epoch v.release ⟨[], 0⟩ ⟨[], 0⟩ ⟨[], 0⟩ [],
    preReleaseIncluded := false, original := [] }

/-- The rendering up to (excluding) the local chunk. -/
def headParts (v : Version) : List Char :=
  (if v.epoch > 0 then natDigits v.epoch ++ ['!'] else [])
    ++ renderRelease v.release
    ++ (if !v.pre.isNull then v.pre.letter ++ natDigits v.pre.number else [])
    ++ (if !v.post.isNull then ".post".data ++ natDigits v.post.number else [])
    ++ (if !v.dev.isNull then ".dev".data ++ natDigits v.dev.number else [])

/-- The first five slots of the key comparison (everything except the local
slot). -/
def cmpHead5 (k o : Key) : Ordering :=
  (cmpN k.epoch o.epoch).then
    ((cmpRel k.release o.release).then
      ((cmpKLN k.pre o.pre).then
        ((cmpKLN k.post o.post).then (cmpKLN k.dev o.dev))))

/-- `<` as the claim words it: strict comparison on the public
(local-stripped) candidate, with the pre-release/base-version exclusion. -/
def specLessThanSpecC7 (v : Version) (spec : List Char) : Bool :=
  let s := mustParse spec
  if !(mustParse v.publicStr).lessThan s then false
  else if !s.isPreRelease && v.isPreRelease then
    if (mustParse v.baseVersion).equal (mustParse s.baseVersion) then false
    else true
  else true

/-- `>` as the claim words it: strict comparison on the public candidate,
with the post-release and local-segment exclusions. -/
def specGreaterThanSpecC7 (v : Version) (spec : List Char) : Bool :=
  let s := mustParse spec
  if !(mustParse v.publicStr).greaterThan s then false
  else if !s.isPostRelease && v.isPostRelease
      && (mustParse v.baseVersion).equal (mustParse s.baseVersion) then false
  else if v.localSeg ≠ []
      && (mustParse v.baseVersion).equal (mustParse s.baseVersion) then false
  else true

def padVersionOpt (left right : List (List Char)) :
    Option (List (List Char) × List (List Char)) :=
  if (right.filter (fun t => isDigist t)).length ≤ left.length then
    some (padVersion left right)
  else none

def specifierEqualOpt (prospective : Version) (spec : List Char) : Option Bool :=
  if endsWithDotStar spec then
    (parse prospective.publicStr).bind (fun p =>
      let splitSpec := versionSplit (spec.take (spec.length - 2))
      let splitProspective0 := versionSplit (render p)
      let splitProspective :=
        if splitProspective0.length > splitSpec.length then
          splitProspective0.take splitSpec.length
        else splitProspective0
      (padVersionOpt splitSpec splitProspective).map (fun padded =>
        decide (padded.1 = padded.2)))
  else
    (parse spec).bind (fun specVersion =>
      (if specVersion.localSeg = [] then parse prospective.publicStr
       else some prospective).map (fun p2 => specVersion.equal p2))

def specifierNotEqualOpt (prospective : Version) (spec : List Char) : Option Bool :=
  (specifierEqualOpt prospective spec).map (fun b => !b)

def baseEqOpt (v s : Version) : Option Bool :=
  (parse v.baseVersion).bind (fun bv =>
    (parse s.baseVersion).map (fun bs => bv.equal bs))

def specifierLessThanOpt (prospective : Version) (spec : List Char) : Option Bool :=
  (parse spec).bind (fun s =>
    if !prospective.lessThan s then some false
    else if !s.isPreRelease && prospective.isPreRelease then
      (baseEqOpt prospective s).map (fun be => if be then false else true)
    else some true)

def specifierGreaterThanOpt (prospective : Version) (spec : List Char) : Option Bool :=
  (parse spec).bind (fun s =>
    if !prospective.greaterThan s then some false
    else
      (if !s.isPostRelease && prospective.isPostRelease then baseEqOpt prospective s
       else some false).bind (fun e1 =>
        if e1 then some false
        else
          (if prospective.localSeg ≠ [] then baseEqOpt prospective s
           else some false).map (fun e2 => if e2 then false else true)))

def specifierArbitraryOpt (prospective : Version) (spec : List Char) : Option Bool :=
  some (specifierArbitrary prospective spec)

def specifierLessThanEqualOpt (prospective : Version) (spec : List Char) :
    Option Bool :=
  (parse prospective.publicStr).bind (fun p =>
    (parse spec).map (fun s => p.lessThanOrEqual s))

def specifierGreaterThanEqualOpt (prospective : Version) (spec : List Char) :
    Option Bool :=
  (parse prospective.publicStr).bind (fun p =>
    (parse spec).map (fun s => p.greaterThanOrEqual s))

def specifierCompatibleOpt (prospective : Version) (spec : List Char) :
    Option Bool :=
  let prefixElements :=
    (versionSplit spec).takeWhile
      (fun s => !(startsWith s "post".data || startsWith s "dev".data))
  if prefixElements.isEmpty then none
  else
    let pfx := joinDots (prefixElements.take (prefixElements.length - 1)) ++ ".*".data
    (specifierGreaterThanEqualOpt prospective spec).bind (fun b1 =>
      (specifierEqualOpt prospective pfx).map (fun b2 => b1 && b2))

def applyOpOpt : Op → Version → List Char → Option Bool
  | .opEq, v, c => specifierEqualOpt v c
  | .opNe, v, c => specifierNotEqualOpt v c
  | .opGt, v, c => specifierGreaterThanOpt v c
  | .opLt, v, c => specifierLessThanOpt v c
  | .opGe, v, c => specifierGreaterThanEqualOpt v c
  | .opLe, v, c => specifierLessThanEqualOpt v c
  | .opArb, v, c => specifierArbitraryOpt v c
  | .opCompat, v, c => specifierCompatibleOpt v c

def Constraint.checkCOpt (c : Constraint) (v : Version) : Option Bool :=
  applyOpOpt c.op v c.version

def andCheckOpt (v : Version) : List Constraint → Option Bool
  | [] => some true
  | c :: cs => (c.checkCOpt v).bind (fun b =>
      if b then andCheckOpt v cs else some false)

def orCheckOpt (v : Version) : List (List Constraint) → Option Bool
  | [] => some false
  | g :: gs => (andCheckOpt v g).bind (fun b =>
      if b then some true else orCheckOpt v gs)

/-- `Constraints.Check` with every panic site instrumented. -/
def checkOpt (cs : Constraints) (v : Version) : Option Bool :=
  orCheckOpt v cs.constraints

theorem LawfulCmp.eq_symm {α : Type} {cmp : α → α → Ordering} (h : LawfulCmp cmp)
    {x y : α} (hxy : cmp x y = .eq) : cmp y x = .eq := by
  have hs := h.swap x y
  rw [hxy] at hs
  cases hyx : cmp y x
  · rw [hyx] at hs; simp [Ordering.swap] at hs
  · rfl
  · rw [hyx] at hs; simp [Ordering.swap] at hs

theorem LawfulCmp.eq_right {α : Type} {cmp : α → α → Ordering} (h : LawfulCmp cmp)
    {x y : α} (z : α) (hxy : cmp x y = .eq) : cmp z x = cmp z y := by
  calc cmp z x = (cmp x z).swap := by rw [h.swap z x]
    _ = (cmp y z).swap := by rw [h.eq_left x y z hxy]
    _ = cmp z y := (h.swap z y).symm

theorem Ordering.then_eq_eq {o1 o2 : Ordering} :
    o1.then o2 = .eq ↔ o1 = .eq ∧ o2 = .eq := by
  cases o1 <;> simp [Ordering.then]

theorem Ordering.then_eq_lt {o1 o2 : Ordering} :
    o1.then o2 = .lt ↔ o1 = .lt ∨ (o1 = .eq ∧ o2 = .lt) := by
  cases o1 <;> simp [Ordering.then]

theorem Ordering.swap_then (o1 o2 : Ordering) :
    (o1.then o2).swap = o1.swap.then o2.swap := by
  cases o1 <;> simp [Ordering.then, Ordering.swap]

theorem cmpN_eq_lt {a b : Nat} : cmpN a b = .lt ↔ a < b := by
  unfold cmpN; split_ifs <;> simp_all

theorem cmpN_eq_eq {a b : Nat} : cmpN a b = .eq ↔ a = b := by
  unfold cmpN; split_ifs <;> simp_all <;> omega

theorem cmpN_eq_gt {a b : Nat} : cmpN a b = .gt ↔ b < a := by
  unfold cmpN; split_ifs <;> simp_all <;> omega

theorem lawfulCmpN : LawfulCmp cmpN := by
  constructor
  · intro a; simp [cmpN]
  · intro a b
    unfold cmpN
    rcases Nat.lt_trichotomy a b with h | h | h
    · rw [if_pos h, if_neg (by omega), if_neg (by omega)]; rfl
    · subst h; rw [if_neg (by omega), if_pos rfl]; rfl
    · rw [if_neg (by omega), if_neg (by omega), if_pos h]; rfl
  · intro a b c h1 h2; rw [cmpN_eq_lt] at *; omega
  · intro a b c h; rw [cmpN_eq_eq] at h; subst h; rfl

theorem LawfulCmp.comap {α β : Type} {c : β → β → Ordering} (h : LawfulCmp c)
    (p : α → β) : LawfulCmp (fun a b => c (p a) (p b)) := by
  constructor
  · intro a; exact h.refl _
  · intro a b; exact h.swap _ _
  · intro a b c h1 h2; exact h.lt_trans _ _ _ h1 h2
  · intro a b c h1; exact h.eq_left _ _ _ h1

theorem LawfulCmp.lex {α : Type} {f g : α → α → Ordering}
    (hf : LawfulCmp f) (hg : LawfulCmp g) :
    LawfulCmp (fun a b => (f a b).then (g a b)) := by
  constructor
  · intro a; rw [hf.refl, hg.refl]; rfl
  · intro a b; rw [hf.swap, hg.swap, Ordering.swap_then]
  · intro a b c h1 h2
    rw [Ordering.then_eq_lt] at h1 h2 ⊢
    rcases h1 with h1 | ⟨h1e, h1g⟩
    · rcases h2 with h2 | ⟨h2e, h2g⟩
      · exact Or.inl (hf.lt_trans _ _ _ h1 h2)
      · left
        have e : f a b = f a c := hf.eq_right a h2e
        rw [← e]; exact h1
    · rcases h2 with h2 | ⟨h2e, h2g⟩
      · left
        have e : f b c = f a c := hf.eq_left _ _ _ h1e
        rw [← e]; exact h2
      · right
        refine ⟨?_, hg.lt_trans _ _ _ h1g h2g⟩
        have e : f b c = f a c := hf.eq_left _ _ _ h1e
        rw [← e]; exact h2e
  · intro a b c h1
    rw [Ordering.then_eq_eq] at h1
    have e1 : f b c = f a c := hf.eq_left _ _ _ h1.1
    have e2 : g b c = g a c := hg.eq_left _ _ _ h1.2
    rw [← e1, ← e2]

theorem lawfulCmpLexList {α : Type} {ce : α → α → Ordering} (hc : LawfulCmp ce) :
    LawfulCmp (cmpLexList ce) := by
  constructor
  · intro a
    induction a with
    | nil => rfl
    | cons x xs ih => simp [cmpLexList, hc.refl, ih, Ordering.then]
  · intro a b
    induction a generalizing b with
    | nil => cases b <;> simp [cmpLexList, Ordering.swap]
    | cons x xs ih =>
      cases b with
      | nil => simp [cmpLexList, Ordering.swap]
      | cons y ys => simp [cmpLexList, Ordering.swap_then, ← hc.swap, ← ih]
  · intro a b d h1 h2
    induction a generalizing b d with
    | nil =>
      cases b with
      | nil => simp [cmpLexList] at h1
      | cons y ys =>
        cases d with
        | nil => simp [cmpLexList] at h2
        | cons z zs => simp [cmpLexList]
    | cons x xs ih =>
      cases b with
      | nil => simp [cmpLexList] at h1
      | cons y ys =>
        cases d with
        | nil => simp [cmpLexList] at h2
        | cons z zs =>
          simp only [cmpLexList, Ordering.then_eq_lt] at h1 h2 ⊢
          rcases h1 with h1 | ⟨h1e, h1g⟩
          · rcases h2 with h2 | ⟨h2e, h2g⟩
            · exact Or.inl (hc.lt_trans _ _ _ h1 h2)
            · left
              have e : ce x y = ce x z := hc.eq_right x h2e
              rw [← e]; exact h1
          · rcases h2 with h2 | ⟨h2e, h2g⟩
            · left
              have e : ce y z = ce x z := hc.eq_left _ _ _ h1e
              rw [← e]; exact h2
            · right
              have e : ce y z = ce x z := hc.eq_left _ _ _ h1e
              exact ⟨by rw [← e]; exact h2e, ih _ _ h1g h2g⟩
  · intro a b d h1
    induction a generalizing b d with
    | nil =>
      cases b with
      | nil => rfl
      | cons y ys => simp [cmpLexList] at h1
    | cons x xs ih =>
      cases b with
      | nil => simp [cmpLexList] at h1
      | cons y ys =>
        simp only [cmpLexList, Ordering.then_eq_eq] at h1
        cases d with
        | nil => simp [cmpLexList]
        | cons z zs =>
          simp only [cmpLexList]
          have e : ce y z = ce x z := hc.eq_left _ _ _ h1.1
          rw [← e, ← ih _ _ h1.2]

theorem lawfulCharCmp : LawfulCmp charCmp := lawfulCmpN.comap Char.toNat

theorem lawfulCmpChars : LawfulCmp cmpChars := lawfulCmpLexList lawfulCharCmp

theorem lawfulCmpLocTok : LawfulCmp cmpLocTok := by
  constructor
  · intro a; cases a <;> simp [cmpLocTok, lawfulCmpChars.refl, lawfulCmpN.refl]
  · intro a b
    cases a <;> cases b
    · exact lawfulCmpChars.swap _ _
    · rfl
    · rfl
    · exact lawfulCmpN.swap _ _
  · intro a b c h1 h2
    cases a <;> cases b <;> cases c <;> simp_all [cmpLocTok]
    · exact lawfulCmpChars.lt_trans _ _ _ h1 h2
    · exact lawfulCmpN.lt_trans _ _ _ h1 h2
  · intro a b c h1
    cases a <;> cases b <;> cases c <;> simp_all [cmpLocTok]
    · exact lawfulCmpChars.eq_left _ _ _ h1
    · exact lawfulCmpN.eq_left _ _ _ h1

theorem lawfulCmpLocs : LawfulCmp cmpLocs := lawfulCmpLexList lawfulCmpLocTok

/-! ### Zero-extension: `cmpRel` as padded lexicographic comparison -/

theorem padTo_nil (n : Nat) : padTo [] n = List.replicate n 0 := by
  simp [padTo]

theorem padTo_cons (x : Nat) (xs : List Nat) (m : Nat) :
    padTo (x :: xs) (m + 1) = x :: padTo xs m := by
  simp [padTo, Nat.succ_sub_succ]

theorem cmpRel_nil_nil : cmpRel [] [] = .eq := rfl

theorem cmpRel_nil_left : ∀ bs : List Nat, cmpRel [] bs = (cmpZeros bs).swap := by
  intro bs
  cases bs <;> rfl

theorem cmpRel_nil_cons (y : Nat) (ys : List Nat) :
    cmpRel [] (y :: ys) = (cmpN 0 y).then (cmpRel [] ys) := by
  rw [cmpRel_nil_left, cmpRel_nil_left]
  show ((cmpN y 0).then (cmpZeros ys)).swap = _
  rw [Ordering.swap_then, ← lawfulCmpN.swap]

theorem cmpRel_nil_right : ∀ as : List Nat, cmpRel as [] = cmpZeros as := by
  intro as
  cases as <;> rfl

theorem cmpRel_cons_nil (x : Nat) (xs : List Nat) :
    cmpRel (x :: xs) [] = (cmpN x 0).then (cmpRel xs []) := by
  rw [cmpRel_nil_right, cmpRel_nil_right]
  rfl

theorem cmpRel_cons_cons (x y : Nat) (xs ys : List Nat) :
    cmpRel (x :: xs) (y :: ys) = (cmpN x y).then (cmpRel xs ys) := rfl

theorem cmpRel_eq_pad : ∀ (n : Nat) (a b : List Nat), a.length ≤ n → b.length ≤ n →
    cmpRel a b = cmpLexList cmpN (padTo a n) (padTo b n) := by
  intro n
  induction n with
  | zero =>
    intro a b ha hb
    have ha' : a = [] := List.eq_nil_of_length_eq_zero (Nat.le_zero.mp ha)
    have hb' : b = [] := List.eq_nil_of_length_eq_zero (Nat.le_zero.mp hb)
    subst ha'; subst hb'
    simp [padTo, cmpRel_nil_nil, cmpLexList]
  | succ m ih =>
    intro a b ha hb
    cases a with
    | nil =>
      cases b with
      | nil => exact ((lawfulCmpLexList lawfulCmpN).refl (padTo [] (m + 1))).symm
      | cons y ys =>
        rw [cmpRel_nil_cons, padTo_nil, List.replicate_succ, padTo_cons]
        simp only [cmpLexList]
        rw [← padTo_nil, ih [] ys (by simp) (by simpa using hb)]
    | cons x xs =>
      cases b with
      | nil =>
        rw [cmpRel_cons_nil, padTo_cons, padTo_nil, List.replicate_succ]
        simp only [cmpLexList]
        rw [← padTo_nil, ih xs [] (by simpa using ha) (by simp)]
      | cons y ys =>
        rw [cmpRel_cons_cons, padTo_cons, padTo_cons]
        simp only [cmpLexList]
        rw [ih xs ys (by simpa using ha) (by simpa using hb)]

theorem lawfulCmpRel : LawfulCmp cmpRel := by
  have L := lawfulCmpLexList lawfulCmpN
  constructor
  · intro a
    rw [cmpRel_eq_pad a.length a a le_rfl le_rfl]
    exact L.refl _
  · intro a b
    rw [cmpRel_eq_pad (max a.length b.length) a b (le_max_left _ _) (le_max_right _ _),
      cmpRel_eq_pad (max a.length b.length) b a (le_max_right _ _) (le_max_left _ _)]
    exact L.swap _ _
  · intro a b c h1 h2
    have n := max a.length (max b.length c.length)
    rw [cmpRel_eq_pad (max a.length (max b.length c.length)) a b
      (le_max_left _ _) (le_trans (le_max_left _ _) (le_max_right _ _))] at h1
    rw [cmpRel_eq_pad (max a.length (max b.length c.length)) b c
      (le_trans (le_max_left _ _) (le_max_right _ _))
      (le_trans (le_max_right _ _) (le_max_right _ _))] at h2
    rw [cmpRel_eq_pad (max a.length (max b.length c.length)) a c
      (le_max_left _ _) (le_trans (le_max_right _ _) (le_max_right _ _))]
    exact L.lt_trans _ _ _ h1 h2
  · intro a b c h1
    rw [cmpRel_eq_pad (max a.length (max b.length c.length)) a b
      (le_max_left _ _) (le_trans (le_max_left _ _) (le_max_right _ _))] at h1
    rw [cmpRel_eq_pad (max a.length (max b.length c.length)) b c
      (le_trans (le_max_left _ _) (le_max_right _ _))
      (le_trans (le_max_right _ _) (le_max_right _ _))]
    rw [cmpRel_eq_pad (max a.length (max b.length c.length)) a c
      (le_max_left _ _) (le_trans (le_max_right _ _) (le_max_right _ _))]
    exact L.eq_left _ _ _ h1

theorem padTo_append_zeros (a : List Nat) (k n : Nat) (h : a.length + k ≤ n) :
    padTo (a ++ List.replicate k 0) n = padTo a n := by
  simp only [padTo, List.length_append, List.length_replicate, List.append_assoc]
  congr 1
  rw [← List.replicate_add]
  congr 1
  omega

theorem cmpRel_append_zeros (a b : List Nat) (j k : Nat) :
    cmpRel (a ++ List.replicate j 0) (b ++ List.replicate k 0) = cmpRel a b := by
  have hn : (a ++ List.replicate j 0).length ≤ a.length + j + (b.length + k) := by
    rw [List.length_append, List.length_replicate]; omega
  have hm : (b ++ List.replicate k 0).length ≤ a.length + j + (b.length + k) := by
    rw [List.length_append, List.length_replicate]; omega
  rw [cmpRel_eq_pad (a.length + j + (b.length + k)) _ _ hn hm,
    padTo_append_zeros a j _ (by omega), padTo_append_zeros b k _ (by omega),
    ← cmpRel_eq_pad (a.length + j + (b.length + k)) a b (by omega) (by omega)]

theorem lawfulCmpLNpair :
    LawfulCmp (fun p q : List Char × Nat => (cmpChars p.1 q.1).then (cmpN p.2 q.2)) :=
  (lawfulCmpChars.comap Prod.fst).lex (lawfulCmpN.comap Prod.snd)

theorem lawfulCmpKLN : LawfulCmp cmpKLN := by
  constructor
  · intro a
    cases a
    · rfl
    · exact lawfulCmpLNpair.refl (_, _)
    · rfl
  · intro a b
    cases a <;> cases b <;> try rfl
    exact lawfulCmpLNpair.swap (_, _) (_, _)
  · intro a b c h1 h2
    cases a <;> cases b <;> cases c <;> simp_all [cmpKLN]
    exact lawfulCmpLNpair.lt_trans (_, _) (_, _) (_, _) h1 h2
  · intro a b c h1
    cases a <;> cases b <;> cases c <;> simp_all [cmpKLN]
    exact lawfulCmpLNpair.eq_left (_, _) (_, _) (_, _) h1

theorem lawfulCmpKLoc : LawfulCmp cmpKLoc := by
  constructor
  · intro a
    cases a
    · rfl
    · exact lawfulCmpLocs.refl _
  · intro a b
    cases a <;> cases b <;> try rfl
    exact lawfulCmpLocs.swap _ _
  · intro a b c h1 h2
    cases a <;> cases b <;> cases c <;> simp_all [cmpKLoc]
    exact lawfulCmpLocs.lt_trans _ _ _ h1 h2
  · intro a b c h1
    cases a <;> cases b <;> cases c <;> simp_all [cmpKLoc]
    exact lawfulCmpLocs.eq_left _ _ _ h1

/-! ## Decimal round trip -/

theorem natDigitsF_zero (g : Nat) (acc : List Char) : natDigitsF g 0 acc = acc := by
  cases g <;> rfl

theorem natDigitsF_acc : ∀ (f n : Nat) (acc : List Char),
    natDigitsF f n acc = natDigitsF f n [] ++ acc := by
  intro f
  induction f with
  | zero => intro n acc; rfl
  | succ g ih =>
    intro n acc
    cases n with
    | zero => rfl
    | succ m =>
      show natDigitsF g ((m + 1) / 10) (digitChar ((m + 1) % 10) :: acc)
        = natDigitsF g ((m + 1) / 10) [digitChar ((m + 1) % 10)] ++ acc
      rw [ih ((m + 1) / 10) (digitChar ((m + 1) % 10) :: acc),
        ih ((m + 1) / 10) [digitChar ((m + 1) % 10)]]
      simp

theorem natDigitsF_fuel : ∀ (f g n : Nat), n ≤ f → n ≤ g →
    natDigitsF f n [] = natDigitsF g n [] := by
  intro f
  induction f with
  | zero =>
    intro g n hf _
    have : n = 0 := Nat.le_zero.mp hf
    subst this
    rw [natDigitsF_zero, natDigitsF_zero]
  | succ f' ih =>
    intro g n hf hg
    cases n with
    | zero => rw [natDigitsF_zero, natDigitsF_zero]
    | succ m =>
      cases g with
      | zero => omega
      | succ g' =>
        show natDigitsF f' ((m + 1) / 10) [digitChar ((m + 1) % 10)]
          = natDigitsF g' ((m + 1) / 10) [digitChar ((m + 1) % 10)]
        rw [natDigitsF_acc f', natDigitsF_acc g', ih g' ((m + 1) / 10) (by omega) (by omega)]

/-- Peeling the last digit off the decimal rendering. -/
theorem natDigits_step (n : Nat) (h : 0 < n) :
    natDigits n = (if n < 10 then [] else natDigits (n / 10)) ++ [digitChar (n % 10)] := by
  cases n with
  | zero => omega
  | succ m =>
    rw [natDigits, if_neg (by omega)]
    show natDigitsF m ((m + 1) / 10) [digitChar ((m + 1) % 10)] = _
    rw [natDigitsF_acc]
    by_cases h10 : m + 1 < 10
    · rw [if_pos h10]
      have : (m + 1) / 10 = 0 := by omega
      rw [this, natDigitsF_zero]
    · rw [if_neg h10, natDigits, if_neg (by omega)]
      rw [natDigitsF_fuel m ((m + 1) / 10) ((m + 1) / 10) (by omega) le_rfl]

theorem digitChar_facts : ∀ d, d < 10 →
    (isDigitCh (digitChar d) = true ∧ digitVal (digitChar d) = d) := by decide

theorem numVal_append_one (xs : List Char) (c : Char) :
    numVal (xs ++ [c]) = numVal xs * 10 + digitVal c := by
  unfold numVal
  rw [List.foldl_append]
  rfl

theorem natDigits_facts : ∀ n : Nat,
    natDigits n ≠ [] ∧ (natDigits n).all isDigitCh = true ∧ numVal (natDigits n) = n := by
  intro n
  induction n using Nat.strong_induction_on with
  | _ n ih =>
    rcases Nat.eq_zero_or_pos n with h0 | hpos
    · subst h0; refine ⟨by decide, by decide, by decide⟩
    · rw [natDigits_step n hpos]
      have hd := digitChar_facts (n % 10) (by omega)
      by_cases h10 : n < 10
      · rw [if_pos h10]
        refine ⟨by simp, ?_, ?_⟩
        · simpa using hd.1
        · simp only [List.nil_append, numVal, List.foldl]
          show 0 * 10 + digitVal (digitChar (n % 10)) = n
          rw [hd.2]; omega
      · rw [if_neg h10]
        have hq := ih (n / 10) (by omega)
        refine ⟨by simp, ?_, ?_⟩
        · rw [List.all_append, hq.2.1]
          simpa using hd.1
        · rw [numVal_append_one, hq.2.2, hd.2]
          omega

/-! ## First-result reasoning for the list-of-successes parsers

`FirstIs p s a r` says the preferred (first) result of `p` on `s` has capture
`a` and remainder `r`; combined with non-emptiness of the downstream
continuations this pins down the head of the full match list. -/

theorem firstIs_pret {α : Type} (a : α) (s : List Char) : FirstIs (pret a) s a s :=
  ⟨[], rfl⟩

theorem firstIs_pbind {α β : Type} {p : P α} {f : α → P β} {s r r2 : List Char}
    {a : α} {b : β} (h1 : FirstIs p s a r) (h2 : FirstIs (f a) r b r2) :
    FirstIs (pbind p f) s b r2 := by
  obtain ⟨t1, ht1⟩ := h1
  obtain ⟨t2, ht2⟩ := h2
  refine ⟨t2 ++ t1.flatMap (fun ar => f ar.1 ar.2), ?_⟩
  simp [pbind, ht1, ht2]

theorem firstIs_pmap {α β : Type} {p : P α} {g : α → β} {s r : List Char} {a : α}
    (h : FirstIs p s a r) : FirstIs (pmap g p) s (g a) r := by
  obtain ⟨t, ht⟩ := h
  exact ⟨t.map (fun ar => (g ar.1, ar.2)), by simp [pmap, ht]⟩

theorem firstIs_palt_left {α : Type} {p q : P α} {s r : List Char} {a : α}
    (h : FirstIs p s a r) : FirstIs (palt p q) s a r := by
  obtain ⟨t, ht⟩ := h
  exact ⟨t ++ q s, by simp [palt, ht]⟩

theorem firstIs_palt_right {α : Type} {p q : P α} {s r : List Char} {a : α}
    (hp : p s = []) (h : FirstIs q s a r) : FirstIs (palt p q) s a r := by
  obtain ⟨t, ht⟩ := h
  exact ⟨t, by simp [palt, hp, ht]⟩

theorem pchar_nil (pred : Char → Bool) : pchar pred [] = [] := rfl

theorem pchar_fail {pred : Char → Bool} {c : Char} (cs : List Char)
    (h : pred c = false) : pchar pred (c :: cs) = [] := by
  simp [pchar, h]

theorem firstIs_pchar {pred : Char → Bool} {c : Char} (cs : List Char)
    (h : pred c = true) : FirstIs (pchar pred) (c :: cs) c cs :=
  ⟨[], by simp [pchar, h]⟩

theorem pbind_empty {α β : Type} {p : P α} (f : α → P β) {s : List Char}
    (hp : p s = []) : pbind p f s = [] := by
  simp [pbind, hp]

theorem pbind_empty_all {α β : Type} {p : P α} {f : α → P β} {s : List Char}
    (h : ∀ a r, (a, r) ∈ p s → f a r = []) : pbind p f s = [] := by
  simp only [pbind, List.flatMap_eq_nil_iff]
  intro ar har
  exact h ar.1 ar.2 har

theorem popt_none {α : Type} {p : P α} {s : List Char} (hp : p s = []) :
    popt p s = [(none, s)] := by
  simp [popt, palt, pmap, pret, hp]

theorem firstIs_popt_some {α : Type} {p : P α} {s r : List Char} {a : α}
    (h : FirstIs p s a r) : FirstIs (popt p) s (some a) r :=
  firstIs_palt_left (firstIs_pmap h)

theorem firstIs_popt_none {α : Type} {p : P α} {s : List Char} (hp : p s = []) :
    FirstIs (popt p) s none s :=
  ⟨[], popt_none hp⟩

theorem pmany_stop {α : Type} {p : P α} {s : List Char} (hp : p s = []) :
    ∀ f, pmany p f s = [([], s)] := by
  intro f
  cases f with
  | zero => rfl
  | succ g => simp [pmany, palt, pbind, pret, hp]

theorem firstIs_pmany_stop {α : Type} {p : P α} {s : List Char} (hp : p s = [])
    (f : Nat) : FirstIs (pmany p f) s [] s :=
  ⟨[], pmany_stop hp f⟩

theorem firstIs_pmany_cons {α : Type} {p : P α} {s r r2 : List Char} {a : α}
    {as : List α} {f : Nat} (h1 : FirstIs p s a r)
    (h2 : FirstIs (pmany p f) r as r2) : FirstIs (pmany p (f + 1)) s (a :: as) r2 := by
  show FirstIs (palt _ _) s (a :: as) r2
  exact firstIs_palt_left (firstIs_pbind h1 (firstIs_pmap h2))

theorem firstIs_eof : FirstIs eofP [] () [] := ⟨[], rfl⟩

/-! ### Character-run parsers on well-shaped input -/

theorem headNot_nil (pred : Char → Bool) : HeadNot pred [] := by
  intro r rs h
  cases h

theorem headNot_cons {pred : Char → Bool} {r : Char} (rs : List Char)
    (h : pred r = false) : HeadNot pred (r :: rs) := by
  intro x xs hx
  cases hx
  exact h

theorem manyCh_members {pred : Char → Bool} : ∀ (s : List Char)
    (q : List Char × List Char), q ∈ manyCh pred s →
    q.1 ++ q.2 = s ∧ q.1.all pred = true := by
  intro s
  induction s with
  | nil =>
    intro q hq
    simp [manyCh] at hq
    subst hq
    exact ⟨rfl, rfl⟩
  | cons c cs ih =>
    intro q hq
    simp only [manyCh] at hq
    by_cases hc : pred c
    · rw [if_pos hc] at hq
      rcases List.mem_append.mp hq with hq1 | hq2
      · obtain ⟨q', hq', hmap⟩ := List.mem_map.mp hq1
        obtain ⟨he, ha⟩ := ih q' hq'
        subst hmap
        refine ⟨by simp [← he], ?_⟩
        simp only [List.all_cons, ha, hc]
        rfl
      · simp at hq2
        subst hq2
        exact ⟨rfl, rfl⟩
    · rw [if_neg hc] at hq
      simp at hq
      subst hq
      exact ⟨rfl, rfl⟩

theorem manyCh_first {pred : Char → Bool} : ∀ (run rest : List Char),
    run.all pred = true → HeadNot pred rest →
    ∃ t, manyCh pred (run ++ rest) = (run, rest) :: t := by
  intro run
  induction run with
  | nil =>
    intro rest _ hrest
    cases rest with
    | nil => exact ⟨[], rfl⟩
    | cons r rs =>
      refine ⟨[], ?_⟩
      simp [manyCh, hrest r rs rfl]
  | cons c run' ih =>
    intro rest hall hrest
    simp only [List.all_cons, Bool.and_eq_true] at hall
    obtain ⟨t', ht'⟩ := ih rest hall.2 hrest
    refine ⟨t'.map (fun q => (c :: q.1, q.2)) ++ [([], c :: (run' ++ rest))], ?_⟩
    simp only [List.cons_append, manyCh, if_pos hall.1, List.append_eq]
    rw [ht']
    simp

theorem firstIs_pmanyCh {pred : Char → Bool} {run rest : List Char}
    (hall : run.all pred = true) (hrest : HeadNot pred rest) :
    FirstIs (pmanyCh pred) (run ++ rest) run rest :=
  manyCh_first run rest hall hrest

theorem firstIs_psome {pred : Char → Bool} {c : Char} {run' rest : List Char}
    (hc : pred c = true) (hall : run'.all pred = true) (hrest : HeadNot pred rest) :
    FirstIs (psome pred) (c :: (run' ++ rest)) (c :: run') rest := by
  unfold psome
  exact firstIs_pbind (firstIs_pchar _ hc) (firstIs_pmap (firstIs_pmanyCh hall hrest))

theorem psome_fail {pred : Char → Bool} {s : List Char} (h : HeadNot pred s) :
    psome pred s = [] := by
  unfold psome
  cases s with
  | nil => rfl
  | cons c cs => exact pbind_empty _ (pchar_fail cs (h c cs rfl))

/-! ### Case-insensitive literals -/

theorem plitCI_nil_input (c : Char) (cs : List Char) : plitCI (c :: cs) [] = [] := rfl

theorem plitCI_fail1 {c d : Char} (cs ds : List Char) (h : lowerCh d ≠ lowerCh c) :
    plitCI (c :: cs) (d :: ds) = [] := by
  exact pbind_empty _ (pchar_fail ds (by simp [h]))

theorem plitCI_step {c d : Char} (cs ds : List Char) (h : lowerCh d = lowerCh c) :
    plitCI (c :: cs) (d :: ds) = plitCI cs ds := by
  show pbind (pchar fun e => lowerCh e = lowerCh c) (fun _ => plitCI cs) (d :: ds) = _
  rw [pbind]
  have hc : pchar (fun e => lowerCh e = lowerCh c) (d :: ds) = [(d, ds)] := by
    simp [pchar, h]
  rw [hc]
  simp

theorem firstIs_plitCI : ∀ (lit rest : List Char), FirstIs (plitCI lit) (lit ++ rest) () rest := by
  intro lit
  induction lit with
  | nil => intro rest; exact firstIs_pret () rest
  | cons c cs ih =>
    intro rest
    show FirstIs (pbind (pchar _) _) (c :: (cs ++ rest)) () rest
    exact firstIs_pbind (firstIs_pchar _ (by simp)) (ih rest)

/-! ### Character-class facts -/

theorem ne_of_toNat_ne {c d : Char} (h : c.toNat ≠ d.toNat) : c ≠ d :=
  fun he => h (congrArg Char.toNat he)

theorem isDigitCh_toNat {c : Char} (h : isDigitCh c = true) :
    48 ≤ c.toNat ∧ c.toNat ≤ 57 := by
  simpa [isDigitCh] using h

/-- A decimal digit belongs to no other character class used by the
grammar. -/
theorem digit_facts {c : Char} (h : isDigitCh c = true) :
    isSpaceCh c = false ∧ isSepCh c = false ∧ (decide (c = '!') = false)
      ∧ (decide (c = '-') = false) ∧ (decide (c = '+') = false)
      ∧ (decide (c = '.') = false) ∧ (decide (lowerCh c = 'v') = false)
      ∧ lowerCh c = c ∧ isLocAl c = true := by
  obtain ⟨h1, h2⟩ := isDigitCh_toNat h
  have hne : ∀ d : Char, (48 ≤ d.toNat → d.toNat ≤ 57 → False) → c ≠ d :=
    fun d hd hEq => hd (hEq ▸ h1) (hEq ▸ h2)
  have hlower : lowerCh c = c := by
    unfold lowerCh
    rw [if_neg (by omega)]
  refine ⟨?_, ?_, ?_, ?_, ?_, ?_, ?_, hlower, ?_⟩
  · simp only [isSpaceCh, Bool.or_eq_false_iff, decide_eq_false_iff_not]
    exact ⟨⟨⟨⟨⟨hne ' ' (by decide), hne '\t' (by decide)⟩, hne '\n' (by decide)⟩,
      hne '\x0b' (by decide)⟩, hne '\x0c' (by decide)⟩, hne '\r' (by decide)⟩
  · simp only [isSepCh, Bool.or_eq_false_iff, decide_eq_false_iff_not]
    exact ⟨⟨hne '-' (by decide), hne '_' (by decide)⟩, hne '.' (by decide)⟩
  · simp only [decide_eq_false_iff_not]
    exact hne '!' (by decide)
  · simp only [decide_eq_false_iff_not]
    exact hne '-' (by decide)
  · simp only [decide_eq_false_iff_not]
    exact hne '+' (by decide)
  · simp only [decide_eq_false_iff_not]
    exact hne '.' (by decide)
  · rw [hlower]
    simp only [decide_eq_false_iff_not]
    exact hne 'v' (by decide)
  · simp only [isLocAl, decide_eq_true_eq]
    omega

theorem isLocAl_lower_fixed {c : Char} (h : isLocAl c = true) : lowerCh c = c := by
  simp only [isLocAl, decide_eq_true_eq] at h
  unfold lowerCh
  rw [if_neg (by omega)]

theorem isLocAl_locAlCI {c : Char} (h : isLocAl c = true) : isLocAlCI c = true := by
  unfold isLocAlCI
  rw [isLocAl_lower_fixed h]
  exact h

theorem isLocAlCI_lower {c : Char} (h : isLocAlCI c = true) :
    isLocAl (lowerCh c) = true := h

theorem isSepCh_cases {c : Char} (h : isSepCh c = true) :
    c = '-' ∨ c = '_' ∨ c = '.' := by
  simp only [isSepCh, Bool.or_eq_true, decide_eq_true_eq] at h
  tauto

theorem sep_not_locAlCI {c : Char} (h : isSepCh c = true) : isLocAlCI c = false := by
  rcases isSepCh_cases h with rfl | rfl | rfl <;> decide

theorem sep_lower_fixed {c : Char} (h : isSepCh c = true) : lowerCh c = c := by
  rcases isSepCh_cases h with rfl | rfl | rfl <;> decide

/-! ### Splitting a digit run off a well-shaped input -/

theorem append_pred_split {pred : Char → Bool} : ∀ {a : List Char}
    {r ds rest : List Char}, a ++ r = ds ++ rest → a.all pred = true →
    ds.all pred = true → HeadNot pred rest →
    ∃ suf, ds = a ++ suf ∧ r = suf ++ rest := by
  intro a
  induction a with
  | nil =>
    intro r ds rest he _ _ _
    exact ⟨ds, rfl, by simpa using he⟩
  | cons c cs ih =>
    intro r ds rest he hall hds hrest
    simp only [List.all_cons, Bool.and_eq_true] at hall
    cases ds with
    | nil =>
      simp only [List.nil_append] at he
      exfalso
      have : pred c = false := hrest c (cs ++ r) (by simpa using he.symm)
      rw [hall.1] at this
      cases this
    | cons d dt =>
      simp only [List.cons_append, List.cons.injEq] at he
      obtain ⟨rfl, he2⟩ := he
      simp only [List.all_cons, Bool.and_eq_true] at hds
      obtain ⟨suf, h1, h2⟩ := ih he2 hall.2 hds.2 hrest
      exact ⟨suf, by rw [List.cons_append, h1], h2⟩

theorem digits1_members {s : List Char} {q : List Char × List Char}
    (hq : q ∈ digits1 s) : q.1 ≠ [] ∧ q.1.all isDigitCh = true ∧ q.1 ++ q.2 = s := by
  unfold digits1 psome at hq
  cases s with
  | nil => simp [pbind, pchar] at hq
  | cons c cs =>
    simp only [pbind, pchar] at hq
    by_cases hc : isDigitCh c
    · rw [if_pos hc] at hq
      simp only [List.flatMap_cons, List.flatMap_nil, List.append_nil, pmap, pmanyCh,
        List.mem_map] at hq
      obtain ⟨q', hq', rfl⟩ := hq
      obtain ⟨he, ha⟩ := manyCh_members cs q' hq'
      refine ⟨by simp, ?_, by simpa using he⟩
      simp only [List.all_cons, hc, ha]
      rfl
    · rw [if_neg hc] at hq
      simp at hq

theorem firstIs_digits1 {ds rest : List Char} (hne : ds ≠ [])
    (hall : ds.all isDigitCh = true) (hrest : HeadNot isDigitCh rest) :
    FirstIs digits1 (ds ++ rest) ds rest := by
  cases ds with
  | nil => cases hne rfl
  | cons c cs =>
    simp only [List.all_cons, Bool.and_eq_true] at hall
    rw [List.cons_append]
    exact firstIs_psome hall.1 hall.2 hrest

/-! ### Stage lemmas on canonically shaped input -/

theorem pchar_empty_of_headNot {pred : Char → Bool} {s : List Char}
    (h : HeadNot pred s) : pchar pred s = [] := by
  cases s with
  | nil => rfl
  | cons c cs => exact pchar_fail cs (h c cs rfl)

theorem firstIs_epochStage_some {e : Nat} {rest : List Char} :
    FirstIs epochStage (natDigits e ++ '!' :: rest) (some e) rest := by
  have hfacts := natDigits_facts e
  have h1 : FirstIs epochStage (natDigits e ++ '!' :: rest)
      (some (numVal (natDigits e))) rest := by
    apply firstIs_popt_some
    refine firstIs_pbind
      (firstIs_digits1 hfacts.1 hfacts.2.1 (headNot_cons rest (by decide))) ?_
    exact firstIs_pbind (firstIs_pchar rest (by decide)) (firstIs_pret _ _)
  rw [hfacts.2.2] at h1
  exact h1

theorem epochStage_none {ds rest : List Char}
    (hall : ds.all isDigitCh = true) (hd : HeadNot isDigitCh rest)
    (hbang : ∀ x xs, rest = x :: xs → x ≠ '!') :
    epochStage (ds ++ rest) = [(none, ds ++ rest)] := by
  apply popt_none
  apply pbind_empty_all
  intro a r hmem
  apply pbind_empty
  obtain ⟨hane, haall, haeq⟩ := digits1_members hmem
  obtain ⟨suf, hds, hr⟩ := append_pred_split haeq haall hall hd
  apply pchar_empty_of_headNot
  intro x xs hx
  subst hr
  cases suf with
  | nil =>
    simp only [List.nil_append] at hx
    simp only [decide_eq_false_iff_not]
    exact hbang x xs hx
  | cons u us =>
    simp only [List.cons_append, List.cons.injEq] at hx
    have hu : isDigitCh u = true := by
      have hmem2 : u ∈ ds := by
        rw [hds]
        exact List.mem_append_right a (List.mem_cons_self u us)
      exact List.all_eq_true.mp hall u hmem2
    rw [← hx.1]
    exact (digit_facts hu).2.2.1

theorem headNot_relTail (rs : List Nat) (rest : List Char)
    (hrest : HeadNot isDigitCh rest) :
    HeadNot isDigitCh (rs.flatMap (fun x => '.' :: natDigits x) ++ rest) := by
  cases rs with
  | nil => simpa using hrest
  | cons y ys =>
    intro r rl h
    simp only [List.flatMap_cons, List.cons_append, List.cons.injEq] at h
    rw [← h.1]
    decide

theorem firstIs_relTail : ∀ (rs : List Nat) (rest : List Char) (fuel : Nat),
    rs.length ≤ fuel → RelStop rest →
    FirstIs (pmany dotDigits fuel)
      (rs.flatMap (fun x => '.' :: natDigits x) ++ rest) (rs.map natDigits) rest := by
  intro rs
  induction rs with
  | nil =>
    intro rest fuel _ hstop
    simpa using firstIs_pmany_stop hstop.1 fuel
  | cons x rs' ih =>
    intro rest fuel hf hstop
    cases fuel with
    | zero => simp at hf
    | succ f =>
      simp only [List.flatMap_cons, List.map_cons, List.cons_append, List.append_assoc]
      apply firstIs_pmany_cons
        (r := rs'.flatMap (fun y => '.' :: natDigits y) ++ rest)
      · unfold dotDigits
        refine firstIs_pbind (firstIs_pchar _ (by decide)) ?_
        exact firstIs_digits1 (natDigits_facts x).1 (natDigits_facts x).2.1
          (headNot_relTail rs' rest hstop.2)
      · exact ih rest f (by simpa using Nat.lt_succ_iff.mp (Nat.lt_of_lt_of_le (by simp) hf)) hstop

theorem firstIs_releaseStage {rel : List Nat} {rest : List Char} {fuel : Nat}
    (hne : rel ≠ []) (hf : rel.length ≤ fuel) (hstop : RelStop rest) :
    FirstIs (releaseStage fuel) (renderRelease rel ++ rest) rel rest := by
  cases rel with
  | nil => cases hne rfl
  | cons r0 rs =>
    unfold releaseStage renderRelease
    rw [List.append_assoc]
    have hr0 := natDigits_facts r0
    refine firstIs_pbind (firstIs_digits1 hr0.1 hr0.2.1
      (headNot_relTail rs rest hstop.2)) ?_
    have htail := firstIs_relTail rs rest fuel (by simp at hf; omega) hstop
    refine firstIs_pbind htail ?_
    have hval : numVal (natDigits r0) :: (rs.map natDigits).map numVal = r0 :: rs := by
      rw [hr0.2.2, List.map_map]
      congr 1
      calc rs.map (numVal ∘ natDigits) = rs.map id := by
            apply List.map_congr_left
            intro a _
            exact (natDigits_facts a).2.2
        _ = rs := List.map_id rs
    rw [← hval]
    exact firstIs_pret _ _

theorem firstIs_psome_run {pred : Char → Bool} {run rest : List Char} (hne : run ≠ [])
    (hall : run.all pred = true) (hrest : HeadNot pred rest) :
    FirstIs (psome pred) (run ++ rest) run rest := by
  cases run with
  | nil => cases hne rfl
  | cons c cs =>
    simp only [List.all_cons, Bool.and_eq_true] at hall
    rw [List.cons_append]
    exact firstIs_psome hall.1 hall.2 hrest

theorem palt_empty {α : Type} {p q : P α} {s : List Char} (hp : p s = [])
    (hq : q s = []) : palt p q s = [] := by
  simp [palt, hp, hq]

theorem pbind_two {α β : Type} {p : P α} {f : α → P β} {s r1 r2 : List Char}
    {a1 a2 : α} (h : p s = [(a1, r1), (a2, r2)]) :
    pbind p f s = f a1 r1 ++ f a2 r2 := by
  simp [pbind, h]

theorem pbind_one {α β : Type} {p : P α} {f : α → P β} {s r1 : List Char}
    {a1 : α} (h : p s = [(a1, r1)]) : pbind p f s = f a1 r1 := by
  simp [pbind, h]

theorem headNot_of_digit_head {ds rest : List Char} (hne : ds ≠ [])
    (hall : ds.all isDigitCh = true) {pred : Char → Bool}
    (hpred : ∀ c, isDigitCh c = true → pred c = false) :
    HeadNot pred (ds ++ rest) := by
  cases ds with
  | nil => cases hne rfl
  | cons c cs =>
    intro x xs hx
    rw [List.cons_append] at hx
    cases hx
    simp only [List.all_cons, Bool.and_eq_true] at hall
    exact hpred _ hall.1

theorem sepOpt_dot {tl : List Char} :
    sepOpt ('.' :: tl) = [(some '.', tl), (none, '.' :: tl)] := by
  simp [sepOpt, popt, palt, pmap, pret, pchar, isSepCh]

theorem firstIs_sepOpt_none {s : List Char} (h : HeadNot isSepCh s) :
    FirstIs sepOpt s none s :=
  firstIs_popt_none (pchar_empty_of_headNot h)

theorem sepOpt_not_sep {s : List Char} (h : HeadNot isSepCh s) :
    sepOpt s = [(none, s)] :=
  popt_none (pchar_empty_of_headNot h)

/-! ### The pre/post/dev letter alternations on canonical input -/

theorem plitCI_fail2 {c1 c2 d1 d2 : Char} (cs ds : List Char)
    (h1 : lowerCh d1 = lowerCh c1) (h2 : lowerCh d2 ≠ lowerCh c2) :
    plitCI (c1 :: c2 :: cs) (d1 :: d2 :: ds) = [] := by
  rw [plitCI_step _ _ h1]
  exact plitCI_fail1 _ _ h2

theorem firstIs_preLetter_a (rest : List Char) :
    FirstIs preLetterAlt ('a' :: rest) "a".data rest := by
  have h : FirstIs preLetterAlt ('a' :: rest) (preAlias "a".data) rest := by
    unfold preLetterAlt
    apply firstIs_palt_left
    have hlit : FirstIs (plitCI "a".data) ('a' :: rest) () rest := by
      simpa using firstIs_plitCI "a".data rest
    exact firstIs_pbind hlit (firstIs_pret _ _)
  have h2 : preAlias "a".data = "a".data := by decide
  rwa [h2] at h

theorem firstIs_preLetter_b (rest : List Char) :
    FirstIs preLetterAlt ('b' :: rest) "b".data rest := by
  have h : FirstIs preLetterAlt ('b' :: rest) (preAlias "b".data) rest := by
    unfold preLetterAlt
    apply firstIs_palt_right
    · exact pbind_empty _ (plitCI_fail1 _ _ (by decide))
    apply firstIs_palt_left
    have hlit : FirstIs (plitCI "b".data) ('b' :: rest) () rest := by
      simpa using firstIs_plitCI "b".data rest
    exact firstIs_pbind hlit (firstIs_pret _ _)
  have h2 : preAlias "b".data = "b".data := by decide
  rwa [h2] at h

theorem firstIs_preLetter_rc (rest : List Char) :
    FirstIs preLetterAlt ('r' :: 'c' :: rest) "rc".data rest := by
  have h : FirstIs preLetterAlt ('r' :: 'c' :: rest) (preAlias "rc".data) rest := by
    unfold preLetterAlt
    apply firstIs_palt_right
    · exact pbind_empty _ (plitCI_fail1 _ _ (by decide))
    apply firstIs_palt_right
    · exact pbind_empty _ (plitCI_fail1 _ _ (by decide))
    apply firstIs_palt_right
    · exact pbind_empty _ (plitCI_fail1 _ _ (by decide))
    apply firstIs_palt_left
    have hlit : FirstIs (plitCI "rc".data) ('r' :: 'c' :: rest) () rest := by
      simpa using firstIs_plitCI "rc".data rest
    exact firstIs_pbind hlit (firstIs_pret _ _)
  have h2 : preAlias "rc".data = "rc".data := by decide
  rwa [h2] at h

theorem preLetterAlt_empty {s : List Char} (h : PreFail s) : preLetterAlt s = [] := by
  unfold preLetterAlt
  rcases h with rfl | ⟨tl, rfl⟩ | ⟨tl, rfl⟩ | ⟨tl, rfl⟩ | ⟨tl, rfl⟩
  · refine palt_empty (pbind_empty _ rfl) (palt_empty (pbind_empty _ rfl)
      (palt_empty (pbind_empty _ rfl) (palt_empty (pbind_empty _ rfl)
        (palt_empty (pbind_empty _ rfl) (palt_empty (pbind_empty _ rfl)
          (palt_empty (pbind_empty _ rfl) (pbind_empty _ rfl)))))))
  · refine palt_empty (pbind_empty _ (plitCI_fail1 _ _ (by decide)))
      (palt_empty (pbind_empty _ (plitCI_fail1 _ _ (by decide)))
        (palt_empty (pbind_empty _ (plitCI_fail1 _ _ (by decide)))
          (palt_empty (pbind_empty _ (plitCI_fail1 _ _ (by decide)))
            (palt_empty (pbind_empty _ (plitCI_fail1 _ _ (by decide)))
              (palt_empty (pbind_empty _ (plitCI_fail1 _ _ (by decide)))
                (palt_empty (pbind_empty _ (plitCI_fail1 _ _ (by decide)))
                  (pbind_empty _ (plitCI_fail1 _ _ (by decide)))))))))
  · refine palt_empty (pbind_empty _ (plitCI_fail1 _ _ (by decide)))
      (palt_empty (pbind_empty _ (plitCI_fail1 _ _ (by decide)))
        (palt_empty (pbind_empty _ (plitCI_fail1 _ _ (by decide)))
          (palt_empty (pbind_empty _ (plitCI_fail1 _ _ (by decide)))
            (palt_empty (pbind_empty _ (plitCI_fail1 _ _ (by decide)))
              (palt_empty (pbind_empty _ (plitCI_fail1 _ _ (by decide)))
                (palt_empty (pbind_empty _ (plitCI_fail1 _ _ (by decide)))
                  (pbind_empty _ (plitCI_fail1 _ _ (by decide)))))))))
  · refine palt_empty (pbind_empty _ (plitCI_fail1 _ _ (by decide)))
      (palt_empty (pbind_empty _ (plitCI_fail1 _ _ (by decide)))
        (palt_empty (pbind_empty _ (plitCI_fail1 _ _ (by decide)))
          (palt_empty (pbind_empty _ (plitCI_fail1 _ _ (by decide)))
            (palt_empty (pbind_empty _ (plitCI_fail1 _ _ (by decide)))
              (palt_empty (pbind_empty _ (plitCI_fail1 _ _ (by decide)))
                (palt_empty (pbind_empty _ (plitCI_fail1 _ _ (by decide)))
                  (pbind_empty _ (plitCI_fail1 _ _ (by decide)))))))))
  · refine palt_empty (pbind_empty _ (plitCI_fail1 _ _ (by decide)))
      (palt_empty (pbind_empty _ (plitCI_fail1 _ _ (by decide)))
        (palt_empty (pbind_empty _ (plitCI_fail1 _ _ (by decide)))
          (palt_empty (pbind_empty _ (plitCI_fail1 _ _ (by decide)))
            (palt_empty (pbind_empty _ (plitCI_fail1 _ _ (by decide)))
              (palt_empty (pbind_empty _ (plitCI_fail1 _ _ (by decide)))
                (palt_empty (pbind_empty _ (plitCI_fail2 _ _ (by decide) (by decide)))
                  (pbind_empty _ (plitCI_fail2 _ _ (by decide) (by decide)))))))))

theorem postLetterAlt_empty_d {tl : List Char} : postLetterAlt ('d' :: tl) = [] := by
  unfold postLetterAlt
  exact palt_empty (pbind_empty _ (plitCI_fail1 _ _ (by decide)))
    (palt_empty (pbind_empty _ (plitCI_fail1 _ _ (by decide)))
      (pbind_empty _ (plitCI_fail1 _ _ (by decide))))

theorem postLetterAlt_empty_shape {s : List Char}
    (h : s = [] ∨ (∃ tl, s = '.' :: tl) ∨ ∃ tl, s = '+' :: tl) :
    postLetterAlt s = [] := by
  unfold postLetterAlt
  rcases h with rfl | ⟨tl, rfl⟩ | ⟨tl, rfl⟩
  · exact palt_empty (pbind_empty _ rfl)
      (palt_empty (pbind_empty _ rfl) (pbind_empty _ rfl))
  · exact palt_empty (pbind_empty _ (plitCI_fail1 _ _ (by decide)))
      (palt_empty (pbind_empty _ (plitCI_fail1 _ _ (by decide)))
        (pbind_empty _ (plitCI_fail1 _ _ (by decide))))
  · exact palt_empty (pbind_empty _ (plitCI_fail1 _ _ (by decide)))
      (palt_empty (pbind_empty _ (plitCI_fail1 _ _ (by decide)))
        (pbind_empty _ (plitCI_fail1 _ _ (by decide))))

theorem firstIs_postLetter (rest : List Char) :
    FirstIs postLetterAlt ('p' :: 'o' :: 's' :: 't' :: rest) "post".data rest := by
  unfold postLetterAlt
  apply firstIs_palt_left
  have hlit : FirstIs (plitCI "post".data) ('p' :: 'o' :: 's' :: 't' :: rest) () rest := by
    simpa using firstIs_plitCI "post".data rest
  exact firstIs_pbind hlit (firstIs_pret _ _)

/-! ### Pre/post/dev stage lemmas -/

theorem shapeA2_cases {s : List Char} (h : ShapeA2 s) :
    s = [] ∨ (∃ tl, s = '+' :: tl) ∨ (∃ tl, s = '.' :: 'd' :: 'e' :: 'v' :: tl)
      ∨ ∃ tl, s = '.' :: 'p' :: 'o' :: 's' :: 't' :: tl := by
  unfold ShapeA2 ShapeA3 ShapeA4 at h
  tauto

theorem shapeAR_cases {s : List Char} (h : ShapeAR s) :
    s = [] ∨ (∃ tl, s = '+' :: tl) ∨ (∃ tl, s = '.' :: 'd' :: 'e' :: 'v' :: tl)
      ∨ (∃ tl, s = '.' :: 'p' :: 'o' :: 's' :: 't' :: tl)
      ∨ (∃ tl, s = 'a' :: tl) ∨ (∃ tl, s = 'b' :: tl)
      ∨ ∃ tl, s = 'r' :: 'c' :: tl := by
  unfold ShapeAR ShapeA2 ShapeA3 ShapeA4 at h
  tauto

theorem shapeA2_headNotDigit {s : List Char} (h : ShapeA2 s) :
    HeadNot isDigitCh s := by
  rcases shapeA2_cases h with rfl | ⟨tl, rfl⟩ | ⟨tl, rfl⟩ | ⟨tl, rfl⟩
  · exact headNot_nil _
  · exact headNot_cons _ (by decide)
  · exact headNot_cons _ (by decide)
  · exact headNot_cons _ (by decide)

theorem shapeAR_relStop {s : List Char} (h : ShapeAR s) : RelStop s := by
  rcases shapeAR_cases h with rfl | ⟨tl, rfl⟩ | ⟨tl, rfl⟩ | ⟨tl, rfl⟩ | ⟨tl, rfl⟩
    | ⟨tl, rfl⟩ | ⟨tl, rfl⟩
  · exact ⟨rfl, headNot_nil _⟩
  · exact ⟨pbind_empty _ (pchar_fail _ (by decide)), headNot_cons _ (by decide)⟩
  · refine ⟨?_, headNot_cons _ (by decide)⟩
    unfold dotDigits
    rw [pbind_one (show pchar (fun x => decide (x = '.')) ('.' :: 'd' :: 'e' :: 'v' :: tl)
      = [('.', 'd' :: 'e' :: 'v' :: tl)] by simp [pchar])]
    exact psome_fail (headNot_cons _ (by decide))
  · refine ⟨?_, headNot_cons _ (by decide)⟩
    unfold dotDigits
    rw [pbind_one (show pchar (fun x => decide (x = '.')) ('.' :: 'p' :: 'o' :: 's' :: 't' :: tl)
      = [('.', 'p' :: 'o' :: 's' :: 't' :: tl)] by simp [pchar])]
    exact psome_fail (headNot_cons _ (by decide))
  · exact ⟨pbind_empty _ (pchar_fail _ (by decide)), headNot_cons _ (by decide)⟩
  · exact ⟨pbind_empty _ (pchar_fail _ (by decide)), headNot_cons _ (by decide)⟩
  · exact ⟨pbind_empty _ (pchar_fail _ (by decide)), headNot_cons _ (by decide)⟩

theorem shapeAR_bang {s : List Char} (h : ShapeAR s) :
    ∀ x xs, s = x :: xs → x ≠ '!' := by
  rcases shapeAR_cases h with rfl | ⟨tl, rfl⟩ | ⟨tl, rfl⟩ | ⟨tl, rfl⟩ | ⟨tl, rfl⟩
    | ⟨tl, rfl⟩ | ⟨tl, rfl⟩ <;> intro x xs hx
  · cases hx
  all_goals (injection hx with h1 _; subst h1; decide)

theorem shapeA3_cases {s : List Char} (h : ShapeA3 s) :
    s = [] ∨ (∃ tl, s = '+' :: tl) ∨ ∃ tl, s = '.' :: 'd' :: 'e' :: 'v' :: tl := by
  unfold ShapeA3 ShapeA4 at h
  tauto

theorem preStage_none {s : List Char} (hshape : ShapeA2 s) :
    preStage s = [(none, s)] := by
  apply popt_none
  rcases shapeA2_cases hshape with rfl | ⟨tl, rfl⟩ | ⟨tl, rfl⟩ | ⟨tl, rfl⟩
  · rw [pbind_one (sepOpt_not_sep (headNot_nil _))]
    exact pbind_empty _ (preLetterAlt_empty (Or.inl rfl))
  · rw [pbind_one (sepOpt_not_sep (headNot_cons _ (by decide)))]
    exact pbind_empty _ (preLetterAlt_empty (Or.inr (Or.inr (Or.inl ⟨tl, rfl⟩))))
  · rw [pbind_two sepOpt_dot]
    rw [pbind_empty _ (preLetterAlt_empty (Or.inr (Or.inr (Or.inr (Or.inl ⟨_, rfl⟩)))))]
    rw [pbind_empty _ (preLetterAlt_empty (Or.inr (Or.inl ⟨_, rfl⟩)))]
    rfl
  · rw [pbind_two sepOpt_dot]
    rw [pbind_empty _ (preLetterAlt_empty (Or.inr (Or.inr (Or.inr (Or.inr ⟨_, rfl⟩)))))]
    rw [pbind_empty _ (preLetterAlt_empty (Or.inr (Or.inl ⟨_, rfl⟩)))]
    rfl

theorem postStage_none {s : List Char} (hshape : ShapeA3 s) :
    postStage s = [(none, s)] := by
  apply popt_none
  apply palt_empty
  · rcases shapeA3_cases hshape with rfl | ⟨tl, rfl⟩ | ⟨tl, rfl⟩
    · rfl
    · exact pbind_empty _ (pchar_fail _ (by decide))
    · exact pbind_empty _ (pchar_fail _ (by decide))
  · rcases shapeA3_cases hshape with rfl | ⟨tl, rfl⟩ | ⟨tl, rfl⟩
    · rw [pbind_one (sepOpt_not_sep (headNot_nil _))]
      exact pbind_empty _ (postLetterAlt_empty_shape (Or.inl rfl))
    · rw [pbind_one (sepOpt_not_sep (headNot_cons _ (by decide)))]
      exact pbind_empty _ (postLetterAlt_empty_shape (Or.inr (Or.inr ⟨tl, rfl⟩)))
    · rw [pbind_two sepOpt_dot]
      rw [pbind_empty _ postLetterAlt_empty_d]
      rw [pbind_empty _ (postLetterAlt_empty_shape (Or.inr (Or.inl ⟨_, rfl⟩)))]
      rfl

theorem devStage_none {s : List Char} (hshape : ShapeA4 s) :
    devStage s = [(none, s)] := by
  apply popt_none
  rcases hshape with rfl | ⟨tl, rfl⟩
  · rw [pbind_one (sepOpt_not_sep (headNot_nil _))]
    exact pbind_empty _ rfl
  · rw [pbind_one (sepOpt_not_sep (headNot_cons _ (by decide)))]
    exact pbind_empty _ (plitCI_fail1 _ _ (by decide))

theorem firstIs_preStage_some {l : List Char} {n : Nat} {rest : List Char}
    (hl : l = "a".data ∨ l = "b".data ∨ l = "rc".data)
    (hrest : HeadNot isDigitCh rest) :
    FirstIs preStage (l ++ (natDigits n ++ rest)) (some (l, some n)) rest := by
  have hn := natDigits_facts n
  have hval : FirstIs preStage (l ++ (natDigits n ++ rest))
      (some (l, some (numVal (natDigits n)))) rest := by
    apply firstIs_popt_some
    have hsep1 : FirstIs sepOpt (l ++ (natDigits n ++ rest)) none
        (l ++ (natDigits n ++ rest)) := by
      apply firstIs_sepOpt_none
      rcases hl with rfl | rfl | rfl <;> exact headNot_cons _ (by decide)
    refine firstIs_pbind hsep1 ?_
    have hletter : FirstIs preLetterAlt (l ++ (natDigits n ++ rest)) l
        (natDigits n ++ rest) := by
      rcases hl with rfl | rfl | rfl
      · exact firstIs_preLetter_a _
      · exact firstIs_preLetter_b _
      · exact firstIs_preLetter_rc _
    refine firstIs_pbind hletter ?_
    refine firstIs_pbind (firstIs_sepOpt_none (headNot_of_digit_head hn.1 hn.2.1
      (fun c hc => (digit_facts hc).2.1))) ?_
    refine firstIs_pbind (firstIs_popt_some (firstIs_digits1 hn.1 hn.2.1 hrest)) ?_
    exact firstIs_pret _ _
  rw [hn.2.2] at hval
  exact hval

theorem firstIs_postStage_some {n : Nat} {rest : List Char}
    (hrest : HeadNot isDigitCh rest) :
    FirstIs postStage ('.' :: 'p' :: 'o' :: 's' :: 't' :: (natDigits n ++ rest))
      (some ("post".data, some n)) rest := by
  have hn := natDigits_facts n
  have hval : FirstIs postStage ('.' :: 'p' :: 'o' :: 's' :: 't' :: (natDigits n ++ rest))
      (some ("post".data, some (numVal (natDigits n)))) rest := by
    apply firstIs_popt_some
    apply firstIs_palt_right
    · exact pbind_empty _ (pchar_fail _ (by decide))
    refine firstIs_pbind (firstIs_popt_some (firstIs_pchar _ (by decide))) ?_
    refine firstIs_pbind (firstIs_postLetter _) ?_
    refine firstIs_pbind (firstIs_sepOpt_none (headNot_of_digit_head hn.1 hn.2.1
      (fun c hc => (digit_facts hc).2.1))) ?_
    refine firstIs_pbind (firstIs_popt_some (firstIs_digits1 hn.1 hn.2.1 hrest)) ?_
    exact firstIs_pret _ _
  rw [hn.2.2] at hval
  exact hval

theorem firstIs_devStage_some {n : Nat} {rest : List Char}
    (hrest : HeadNot isDigitCh rest) :
    FirstIs devStage ('.' :: 'd' :: 'e' :: 'v' :: (natDigits n ++ rest))
      (some ("dev".data, some n)) rest := by
  have hn := natDigits_facts n
  have hval : FirstIs devStage ('.' :: 'd' :: 'e' :: 'v' :: (natDigits n ++ rest))
      (some ("dev".data, some (numVal (natDigits n)))) rest := by
    apply firstIs_popt_some
    refine firstIs_pbind (firstIs_popt_some (firstIs_pchar _ (by decide))) ?_
    have hdev : FirstIs (plitCI "dev".data) ('d' :: 'e' :: 'v' :: (natDigits n ++ rest))
        () (natDigits n ++ rest) := by
      simpa using firstIs_plitCI "dev".data (natDigits n ++ rest)
    refine firstIs_pbind hdev ?_
    refine firstIs_pbind (firstIs_sepOpt_none (headNot_of_digit_head hn.1 hn.2.1
      (fun c hc => (digit_facts hc).2.1))) ?_
    refine firstIs_pbind (firstIs_popt_some (firstIs_digits1 hn.1 hn.2.1 hrest)) ?_
    exact firstIs_pret _ _
  rw [hn.2.2] at hval
  exact hval

/-! ### Local segment stage -/

theorem all_locAlCI_of_locAl {t : List Char} (h : t.all isLocAl = true) :
    t.all isLocAlCI = true := by
  rw [List.all_eq_true] at h ⊢
  intro c hc
  exact isLocAl_locAlCI (h c hc)

theorem headNot_locFlat (chs : List (Char × List Char)) (h : LocChunksWf chs) :
    HeadNot isLocAlCI (locFlat chs) := by
  cases chs with
  | nil => exact headNot_nil _
  | cons p ps =>
    intro x xs hx
    simp only [locFlat, List.flatMap_cons, List.cons_append, List.cons.injEq] at hx
    rw [← hx.1]
    exact sep_not_locAlCI (h p (List.mem_cons_self p ps)).1

theorem firstIs_locChunks : ∀ (chs : List (Char × List Char)) (fuel : Nat),
    chs.length ≤ fuel → LocChunksWf chs →
    FirstIs (pmany locChunk fuel) (locFlat chs) (chs.map (fun p => p.1 :: p.2)) [] := by
  intro chs
  induction chs with
  | nil =>
    intro fuel _ _
    have h0 : locChunk ([] : List Char) = [] := rfl
    simpa [locFlat] using firstIs_pmany_stop h0 fuel
  | cons p ps ih =>
    intro fuel hf hwf
    cases fuel with
    | zero => simp at hf
    | succ f =>
      obtain ⟨hsep, hne, hall⟩ := hwf p (List.mem_cons_self p ps)
      have hflat : locFlat (p :: ps) = p.1 :: (p.2 ++ locFlat ps) := by
        simp [locFlat]
      rw [hflat, List.map_cons]
      apply firstIs_pmany_cons (r := locFlat ps)
      · unfold locChunk
        refine firstIs_pbind (firstIs_pchar _ hsep) ?_
        apply firstIs_pmap
        exact firstIs_psome_run hne (all_locAlCI_of_locAl hall)
          (headNot_locFlat ps (fun q hq => hwf q (List.mem_cons_of_mem p hq)))
      · exact ih f (by simpa using Nat.lt_succ_iff.mp (Nat.lt_of_lt_of_le (by simp) hf))
          (fun q hq => hwf q (List.mem_cons_of_mem p hq))

theorem flatMap_id_map (chs : List (Char × List Char)) :
    ((chs.map (fun p => p.1 :: p.2)).flatMap id) = locFlat chs := by
  induction chs with
  | nil => rfl
  | cons p ps ih => simp [locFlat, List.flatMap_cons] at ih ⊢; exact ih

theorem firstIs_localStage_some {t0 : List Char} {chs : List (Char × List Char)}
    {fuel : Nat} (hne : t0 ≠ []) (hall : t0.all isLocAl = true)
    (hchs : LocChunksWf chs) (hf : chs.length ≤ fuel) :
    FirstIs (localStage fuel) ('+' :: (t0 ++ locFlat chs)) (t0 ++ locFlat chs) [] := by
  unfold localStage
  have hinner : FirstIs (popt (pbind (pchar (· = '+')) (fun _ =>
      pbind (psome isLocAlCI) (fun t =>
        pbind (pmany locChunk fuel) (fun rest => pret (t ++ rest.flatMap id))))))
      ('+' :: (t0 ++ locFlat chs)) (some (t0 ++ locFlat chs)) [] := by
    apply firstIs_popt_some
    refine firstIs_pbind (firstIs_pchar _ (by decide)) ?_
    refine firstIs_pbind (firstIs_psome_run hne (all_locAlCI_of_locAl hall)
      (headNot_locFlat chs hchs)) ?_
    refine firstIs_pbind (firstIs_locChunks chs fuel hf hchs) ?_
    rw [flatMap_id_map]
    exact firstIs_pret _ _
  exact firstIs_pmap hinner

theorem localStage_nil (fuel : Nat) : localStage fuel [] = [([], [])] := rfl

/-! ### Leading stages -/

theorem manyCh_not_head {pred : Char → Bool} {s : List Char} (h : HeadNot pred s) :
    pmanyCh pred s = [([], s)] := by
  cases s with
  | nil => rfl
  | cons c cs =>
    show manyCh pred (c :: cs) = _
    unfold manyCh
    rw [if_neg (by rw [h c cs rfl]; exact Bool.false_ne_true)]

theorem digits_head {ds : List Char} (hne : ds ≠ []) (hall : ds.all isDigitCh = true) :
    ∃ c cs, ds = c :: cs ∧ isDigitCh c = true := by
  cases ds with
  | nil => cases hne rfl
  | cons c cs =>
    simp only [List.all_cons, Bool.and_eq_true] at hall
    exact ⟨c, cs, rfl, hall.1⟩

theorem shapeA3_headNotDigit {s : List Char} (h : ShapeA3 s) :
    HeadNot isDigitCh s := by
  rcases shapeA3_cases h with rfl | ⟨tl, rfl⟩ | ⟨tl, rfl⟩
  · exact headNot_nil _
  · exact headNot_cons _ (by decide)
  · exact headNot_cons _ (by decide)

theorem shapeA4_headNotDigit {s : List Char} (h : ShapeA4 s) :
    HeadNot isDigitCh s := by
  rcases h with rfl | ⟨tl, rfl⟩
  · exact headNot_nil _
  · exact headNot_cons _ (by decide)

theorem bang_relTail (rs : List Nat) (rest : List Char)
    (hrest : ∀ x xs, rest = x :: xs → x ≠ '!') :
    ∀ x xs, rs.flatMap (fun y => '.' :: natDigits y) ++ rest = x :: xs → x ≠ '!' := by
  cases rs with
  | nil => simpa using hrest
  | cons y ys =>
    intro x xs hx
    simp only [List.flatMap_cons, List.cons_append, List.cons.injEq] at hx
    rw [← hx.1]
    decide

/-! ### Well-formedness of parsed versions, and the reparse theorem -/

theorem lnOf_lnRawOf {ln : LetterNumber} (h : ln.letter = [] → ln.number = 0) :
    lnOf (lnRawOf ln) = ln := by
  unfold lnOf lnRawOf
  by_cases hl : ln.letter = []
  · rw [if_pos hl]
    have hn := h hl
    cases ln with
    | mk l n =>
      simp only at hl hn
      subst hl
      subst hn
      rfl
  · rw [if_neg hl]
    rfl

theorem map_lowerCh_all_locAl {t : List Char} (h : t.all isLocAl = true) :
    t.map lowerCh = t := by
  induction t with
  | nil => rfl
  | cons c cs ih =>
    simp only [List.all_cons, Bool.and_eq_true] at h
    simp [isLocAl_lower_fixed h.1, ih h.2]

theorem map_lowerCh_locFlat {chs : List (Char × List Char)} (h : LocChunksWf chs) :
    (locFlat chs).map lowerCh = locFlat chs := by
  induction chs with
  | nil => rfl
  | cons p ps ih =>
    obtain ⟨hsep, _, hall⟩ := h p (List.mem_cons_self p ps)
    simp only [locFlat, List.flatMap_cons, List.map_append, List.map_cons]
    rw [sep_lower_fixed hsep, map_lowerCh_all_locAl hall]
    have := ih (fun q hq => h q (List.mem_cons_of_mem p hq))
    simp only [locFlat] at this
    rw [this]

theorem map_lowerCh_locWf {loc : List Char} (h : loc = [] ∨ LocWf loc) :
    loc.map lowerCh = loc := by
  rcases h with rfl | ⟨t0, chs, rfl, _, hall, hchs⟩
  · rfl
  · rw [List.map_append, map_lowerCh_all_locAl hall, map_lowerCh_locFlat hchs]

theorem mkVersion_rawOf (v : Version) (h : WfV v) (orig : List Char) :
    mkVersion (rawOf v) orig = { v with original := orig } := by
  have hpre : lnOf (lnRawOf v.pre) = v.pre := by
    apply lnOf_lnRawOf
    intro hl
    rcases h.preW with ⟨_, hn⟩ | hw | hw | hw
    · exact hn
    · rw [hw] at hl; cases hl
    · rw [hw] at hl; cases hl
    · rw [hw] at hl; cases hl
  have hpost : lnOf (lnRawOf v.post) = v.post := by
    apply lnOf_lnRawOf
    intro hl
    rcases h.postW with ⟨_, hn⟩ | hw
    · exact hn
    · rw [hw] at hl; cases hl
  have hdev : lnOf (lnRawOf v.dev) = v.dev := by
    apply lnOf_lnRawOf
    intro hl
    rcases h.devW with ⟨_, hn⟩ | hw
    · exact hn
    · rw [hw] at hl; cases hl
  have hloc : v.localSeg.map lowerCh = v.localSeg := map_lowerCh_locWf h.locW
  simp only [mkVersion, rawOf, hpre, hpost, hdev, hloc]
  rw [h.keyW, h.priW]

theorem renderRelease_length (rel : List Nat) :
    rel.length ≤ (renderRelease rel).length := by
  cases rel with
  | nil => simp [renderRelease]
  | cons r rs =>
    simp only [renderRelease, List.length_append, List.length_cons]
    have h1 : 1 ≤ (natDigits r).length := by
      cases hh : natDigits r with
      | nil => cases (natDigits_facts r).1 hh
      | cons _ _ => simp
    have h2 : rs.length ≤ (rs.flatMap fun x => '.' :: natDigits x).length := by
      induction rs with
      | nil => simp
      | cons y ys ih =>
        simp only [List.flatMap_cons, List.length_append, List.length_cons] at ih ⊢
        omega
    omega

theorem locFlat_length (chs : List (Char × List Char)) :
    chs.length ≤ (locFlat chs).length := by
  induction chs with
  | nil => simp [locFlat]
  | cons p ps ih =>
    simp only [locFlat, List.flatMap_cons, List.length_append, List.length_cons] at ih ⊢
    omega

/-- The preferred run of the whole anchored pattern on a canonical rendering
captures exactly the version's own fields. -/
theorem pipe_firstIs (v : Version) (h : WfV v) (fuel : Nat)
    (hf1 : v.release.length ≤ fuel) (hf2 : v.localSeg.length ≤ fuel) :
    FirstIs (pipe fuel) (render v) (rawOf v) [] := by
  -- the local stage
  set A4 : List Char := if v.localSeg ≠ [] then '+' :: v.localSeg else [] with hA4def
  have hA4 : ShapeA4 A4 ∧ FirstIs (localStage fuel) A4 v.localSeg [] := by
    rcases h.locW with hnil | ⟨t0, chs, hflat, hne, hall, hchs⟩
    · rw [hA4def, hnil]
      exact ⟨Or.inl rfl, ⟨[], localStage_nil fuel⟩⟩
    · have hlocne : v.localSeg ≠ [] := by
        rw [hflat]
        intro hx
        exact hne (List.append_eq_nil.mp hx).1
      rw [hA4def, if_pos hlocne]
      constructor
      · exact Or.inr ⟨v.localSeg, rfl⟩
      · have hcl : chs.length ≤ fuel := by
          have h1 := locFlat_length chs
          have h2 : (locFlat chs).length ≤ v.localSeg.length := by
            rw [hflat]; simp
          omega
        have := firstIs_localStage_some hne hall hchs hcl
        rw [← hflat] at this
        exact this
  -- the dev stage
  set A3 : List Char :=
    (if !v.dev.isNull then ".dev".data ++ natDigits v.dev.number else []) ++ A4 with hA3def
  have hA3 : ShapeA3 A3 ∧ FirstIs devStage A3 (lnRawOf v.dev) A4 := by
    by_cases hdl : v.dev.letter = []
    · have : v.dev.isNull = true := by simp [LetterNumber.isNull, hdl]
      rw [hA3def, this]
      simp only [Bool.not_true, if_neg (by simp : ¬(false = true)), List.nil_append]
      refine ⟨Or.inl hA4.1, ?_⟩
      rw [show lnRawOf v.dev = none from by simp [lnRawOf, hdl]]
      exact ⟨[], devStage_none hA4.1⟩
    · have hw : v.dev.letter = "dev".data := by
        rcases h.devW with ⟨hl, _⟩ | hw
        · cases hdl hl
        · exact hw
      have : v.dev.isNull = false := by simp [LetterNumber.isNull, hdl]
      rw [hA3def, this]
      simp only [Bool.not_false, if_pos rfl]
      constructor
      · exact Or.inr ⟨natDigits v.dev.number ++ A4, by simp [String.data]⟩
      · rw [show lnRawOf v.dev = some (v.dev.letter, some v.dev.number) from
          by simp [lnRawOf, hdl], hw]
        have := firstIs_devStage_some (n := v.dev.number)
          (shapeA4_headNotDigit hA4.1)
        simpa [String.data] using this
  -- the post stage
  set A2 : List Char :=
    (if !v.post.isNull then ".post".data ++ natDigits v.post.number else []) ++ A3 with hA2def
  have hA2 : ShapeA2 A2 ∧ FirstIs postStage A2 (lnRawOf v.post) A3 := by
    by_cases hpl : v.post.letter = []
    · have hn : v.post.isNull = true := by simp [LetterNumber.isNull, hpl]
      rw [hA2def, hn]
      simp only [Bool.not_true, if_neg (by simp : ¬(false = true)), List.nil_append]
      refine ⟨Or.inl hA3.1, ?_⟩
      rw [show lnRawOf v.post = none from by simp [lnRawOf, hpl]]
      exact ⟨[], postStage_none hA3.1⟩
    · have hw : v.post.letter = "post".data := by
        rcases h.postW with ⟨hl, _⟩ | hw
        · cases hpl hl
        · exact hw
      have hn : v.post.isNull = false := by simp [LetterNumber.isNull, hpl]
      rw [hA2def, hn]
      simp only [Bool.not_false, if_pos rfl]
      constructor
      · exact Or.inr ⟨natDigits v.post.number ++ A3, by simp [String.data]⟩
      · rw [show lnRawOf v.post = some (v.post.letter, some v.post.number) from
          by simp [lnRawOf, hpl], hw]
        have := firstIs_postStage_some (n := v.post.number)
          (shapeA3_headNotDigit hA3.1)
        simpa [String.data] using this
  -- the pre stage
  set AR : List Char :=
    (if !v.pre.isNull then v.pre.letter ++ natDigits v.pre.number else []) ++ A2 with hARdef
  have hAR : ShapeAR AR ∧ FirstIs preStage AR (lnRawOf v.pre) A2 := by
    by_cases hpl : v.pre.letter = []
    · have hn : v.pre.isNull = true := by simp [LetterNumber.isNull, hpl]
      rw [hARdef, hn]
      simp only [Bool.not_true, if_neg (by simp : ¬(false = true)), List.nil_append]
      refine ⟨Or.inl hA2.1, ?_⟩
      rw [show lnRawOf v.pre = none from by simp [lnRawOf, hpl]]
      exact ⟨[], preStage_none hA2.1⟩
    · have hw : v.pre.letter = "a".data ∨ v.pre.letter = "b".data
          ∨ v.pre.letter = "rc".data := by
        rcases h.preW with ⟨hl, _⟩ | hw | hw | hw
        · cases hpl hl
        · exact Or.inl hw
        · exact Or.inr (Or.inl hw)
        · exact Or.inr (Or.inr hw)
      have hn : v.pre.isNull = false := by simp [LetterNumber.isNull, hpl]
      rw [hARdef, hn]
      rw [if_pos (by decide : (!(false : Bool)) = true)]
      constructor
      · rcases hw with hw | hw | hw <;> rw [hw]
        · exact Or.inr (Or.inl ⟨natDigits v.pre.number ++ A2, by simp [String.data]⟩)
        · exact Or.inr (Or.inr (Or.inl ⟨natDigits v.pre.number ++ A2, by simp [String.data]⟩))
        · exact Or.inr (Or.inr (Or.inr ⟨natDigits v.pre.number ++ A2, by simp [String.data]⟩))
      · rw [show lnRawOf v.pre = some (v.pre.letter, some v.pre.number) from
          by simp [lnRawOf, hpl]]
        rw [List.append_assoc]
        exact firstIs_preStage_some hw (shapeA2_headNotDigit hA2.1)
  -- the release stage
  set R : List Char := renderRelease v.release ++ AR with hRdef
  have hRel : FirstIs (releaseStage fuel) R v.release AR :=
    firstIs_releaseStage h.relNe hf1 (shapeAR_relStop hAR.1)
  -- the epoch stage
  set EP : List Char := if v.epoch > 0 then natDigits v.epoch ++ ['!'] else [] with hEPdef
  set eOpt : Option Nat := if v.epoch > 0 then some v.epoch else none with heOptdef
  have hEp : FirstIs epochStage (EP ++ R) eOpt R := by
    by_cases hpos : v.epoch > 0
    · rw [hEPdef, heOptdef, if_pos hpos, if_pos hpos, List.append_assoc,
        List.singleton_append]
      exact firstIs_epochStage_some
    · rw [hEPdef, heOptdef, if_neg hpos, if_neg hpos, List.nil_append]
      cases hrel : v.release with
      | nil => cases h.relNe hrel
      | cons r0 rs =>
        have hr0 := natDigits_facts r0
        have heq : R = natDigits r0 ++ (rs.flatMap (fun x => '.' :: natDigits x) ++ AR) := by
          rw [hRdef, hrel]
          simp [renderRelease, List.append_assoc]
        rw [heq]
        exact ⟨[], epochStage_none hr0.2.1
          (headNot_relTail rs AR (shapeAR_relStop hAR.1).2)
          (bang_relTail rs AR (shapeAR_bang hAR.1)) ▸ by rw [← heq]⟩
  have hEpVal : eOpt.getD 0 = v.epoch := by
    rw [heOptdef]
    by_cases hpos : v.epoch > 0
    · rw [if_pos hpos]; rfl
    · rw [if_neg hpos]
      simp
      omega
  -- the leading whitespace and `v?` stages
  have hhead : ∃ ds0 rest0, EP ++ R = ds0 ++ rest0 ∧ ds0 ≠ [] ∧ ds0.all isDigitCh = true := by
    by_cases hpos : v.epoch > 0
    · refine ⟨natDigits v.epoch, '!' :: R, ?_, (natDigits_facts v.epoch).1,
        (natDigits_facts v.epoch).2.1⟩
      rw [hEPdef, if_pos hpos, List.append_assoc, List.singleton_append]
    · cases hrel : v.release with
      | nil => cases h.relNe hrel
      | cons r0 rs =>
        refine ⟨natDigits r0, rs.flatMap (fun x => '.' :: natDigits x) ++ AR, ?_,
          (natDigits_facts r0).1, (natDigits_facts r0).2.1⟩
        rw [hEPdef, if_neg hpos, List.nil_append, hRdef, hrel]
        simp [renderRelease, List.append_assoc]
  obtain ⟨ds0, rest0, hsplit, hne0, hall0⟩ := hhead
  have hws : FirstIs (pmanyCh isSpaceCh) (EP ++ R) [] (EP ++ R) := by
    refine ⟨[], ?_⟩
    rw [hsplit]
    exact manyCh_not_head (headNot_of_digit_head hne0 hall0
      (fun c hc => (digit_facts hc).1))
  have hv : FirstIs (popt (pchar (fun c => lowerCh c = 'v'))) (EP ++ R) none (EP ++ R) := by
    apply firstIs_popt_none
    rw [hsplit]
    exact pchar_empty_of_headNot (headNot_of_digit_head hne0 hall0
      (fun c hc => (digit_facts hc).2.2.2.2.2.2.1))
  -- the trailing whitespace and anchor
  have hws2 : FirstIs (pmanyCh isSpaceCh) ([] : List Char) [] [] := ⟨[], rfl⟩
  -- assembling the whole pattern
  have hrv : render v = EP ++ R := by
    rw [render, hRdef, hARdef, hA2def, hA3def, hA4def, hEPdef]
    simp [List.append_assoc]
  have hchain : FirstIs (pipe fuel) (render v)
      { epoch := eOpt.getD 0, release := v.release, pre := lnRawOf v.pre,
        post := lnRawOf v.post, dev := lnRawOf v.dev, localSeg := v.localSeg } [] := by
    unfold pipe
    rw [hrv]
    refine firstIs_pbind hws ?_
    refine firstIs_pbind hv ?_
    refine firstIs_pbind hEp ?_
    refine firstIs_pbind hRel ?_
    refine firstIs_pbind hAR.2 ?_
    refine firstIs_pbind hA2.2 ?_
    refine firstIs_pbind hA3.2 ?_
    refine firstIs_pbind hA4.2 ?_
    refine firstIs_pbind hws2 ?_
    exact firstIs_pbind firstIs_eof (firstIs_pret _ _)
  rw [hEpVal] at hchain
  exact hchain

theorem render_length_rel (v : Version) : v.release.length ≤ (render v).length := by
  have h := renderRelease_length v.release
  simp only [render, List.length_append]
  omega

theorem render_length_loc (v : Version) : v.localSeg.length ≤ (render v).length := by
  simp only [render, List.length_append]
  by_cases hl : v.localSeg ≠ []
  · rw [if_pos hl]
    simp only [List.length_cons]
    omega
  · rw [if_neg hl]
    push_neg at hl
    rw [hl]
    simp

/-- Reparsing a canonical rendering succeeds and recovers the same version,
up to the recorded original text. -/
theorem parse_render (v : Version) (h : WfV v) :
    parse (render v) = some { v with original := render v } := by
  obtain ⟨t, ht⟩ := pipe_firstIs v h (render v).length (render_length_rel v)
    (render_length_loc v)
  unfold parse
  rw [ht]
  show some (mkVersion (rawOf v) (render v)) = _
  rw [mkVersion_rawOf v h]

/-! ### Every parsed version is well-formed -/

theorem mem_pbind {α β : Type} {p : P α} {f : α → P β} {s : List Char}
    {b : β} {r2 : List Char} (h : (b, r2) ∈ pbind p f s) :
    ∃ a r, (a, r) ∈ p s ∧ (b, r2) ∈ f a r := by
  simp only [pbind, List.mem_flatMap] at h
  obtain ⟨ar, har, hb⟩ := h
  exact ⟨ar.1, ar.2, har, hb⟩

theorem mem_pret {α : Type} {a b : α} {s r : List Char} (h : (b, r) ∈ pret a s) :
    b = a ∧ r = s := by
  simp only [pret, List.mem_singleton, Prod.mk.injEq] at h
  exact h

theorem mem_palt {α : Type} {p q : P α} {s : List Char} {x : α × List Char}
    (h : x ∈ palt p q s) : x ∈ p s ∨ x ∈ q s := by
  simpa [palt] using h

theorem mem_pmap {α β : Type} {p : P α} {g : α → β} {s : List Char} {b : β}
    {r : List Char} (h : (b, r) ∈ pmap g p s) : ∃ a, (a, r) ∈ p s ∧ b = g a := by
  simp only [pmap, List.mem_map, Prod.mk.injEq] at h
  obtain ⟨ar, har, hb, hr⟩ := h
  obtain ⟨a0, r0⟩ := ar
  have hr2 : r0 = r := hr
  subst hr2
  exact ⟨a0, har, hb.symm⟩

theorem mem_popt {α : Type} {p : P α} {s : List Char} {o : Option α}
    {r : List Char} (h : (o, r) ∈ popt p s) :
    (∃ a, o = some a ∧ (a, r) ∈ p s) ∨ (o = none ∧ r = s) := by
  rcases mem_palt h with h1 | h2
  · obtain ⟨a, ha, hb⟩ := mem_pmap h1
    exact Or.inl ⟨a, hb, ha⟩
  · exact Or.inr (mem_pret h2)

theorem mem_pchar {pred : Char → Bool} {s : List Char} {c : Char} {r : List Char}
    (h : (c, r) ∈ pchar pred s) : pred c = true ∧ s = c :: r := by
  cases s with
  | nil => rw [pchar_nil] at h; cases h
  | cons d ds =>
    show pred c = true ∧ d :: ds = c :: r
    have h2 : (c, r) ∈ if pred d then [(d, ds)] else [] := h
    by_cases hd : pred d
    · rw [if_pos hd] at h2
      simp only [List.mem_singleton, Prod.mk.injEq] at h2
      obtain ⟨rfl, rfl⟩ := h2
      exact ⟨hd, rfl⟩
    · rw [if_neg hd] at h2
      cases h2

theorem psome_members {pred : Char → Bool} {s : List Char} {a r : List Char}
    (h : (a, r) ∈ psome pred s) : a ≠ [] ∧ a.all pred = true := by
  unfold psome at h
  obtain ⟨c, r1, hc, h⟩ := mem_pbind h
  obtain ⟨a2, ha2, heq⟩ := mem_pmap h
  obtain ⟨hcp, _⟩ := mem_pchar hc
  obtain ⟨_, ha2all⟩ := manyCh_members r1 _ ha2
  subst heq
  refine ⟨by simp, ?_⟩
  rw [List.all_cons, hcp, ha2all]
  rfl

theorem pmany_members {α : Type} {p : P α} {Q : α → Prop}
    (hp : ∀ s a r, (a, r) ∈ p s → Q a) :
    ∀ (f : Nat) (s : List Char) (as : List α) (r : List Char),
      (as, r) ∈ pmany p f s → ∀ a ∈ as, Q a := by
  intro f
  induction f with
  | zero =>
    intro s as r h a ha
    obtain ⟨h1, _⟩ := mem_pret h
    rw [h1] at ha
    cases ha
  | succ g ih =>
    intro s as r h a ha
    rcases mem_palt h with h1 | h2
    · obtain ⟨a0, r0, ha0, h1⟩ := mem_pbind h1
      obtain ⟨as', has', heq⟩ := mem_pmap h1
      rw [heq] at ha
      rcases List.mem_cons.mp ha with rfl | hmem
      · exact hp _ _ _ ha0
      · exact ih _ _ _ has' a hmem
    · obtain ⟨h1, _⟩ := mem_pret h2
      rw [h1] at ha
      cases ha

theorem releaseStage_members {fuel : Nat} {s : List Char} {rel : List Nat}
    {r : List Char} (h : (rel, r) ∈ releaseStage fuel s) : rel ≠ [] := by
  unfold releaseStage at h
  obtain ⟨d, r1, _, h⟩ := mem_pbind h
  obtain ⟨rest, r2, _, h⟩ := mem_pbind h
  obtain ⟨h1, _⟩ := mem_pret h
  rw [h1]
  simp

theorem preLetterAlt_members {s : List Char} {l : List Char} {r : List Char}
    (h : (l, r) ∈ preLetterAlt s) :
    l = "a".data ∨ l = "b".data ∨ l = "rc".data := by
  unfold preLetterAlt at h
  have step : ∀ (lit val : List Char) (h2 : (l, r) ∈ pbind (plitCI lit)
      (fun _ => pret val) s), l = val := by
    intro lit val h2
    obtain ⟨_, r1, _, h2⟩ := mem_pbind h2
    exact (mem_pret h2).1
  rcases mem_palt h with h1 | h
  · exact Or.inl (by rw [step _ _ h1]; decide)
  rcases mem_palt h with h1 | h
  · exact Or.inr (Or.inl (by rw [step _ _ h1]; decide))
  rcases mem_palt h with h1 | h
  · exact Or.inr (Or.inr (by rw [step _ _ h1]; decide))
  rcases mem_palt h with h1 | h
  · exact Or.inr (Or.inr (by rw [step _ _ h1]; decide))
  rcases mem_palt h with h1 | h
  · exact Or.inl (by rw [step _ _ h1]; decide)
  rcases mem_palt h with h1 | h
  · exact Or.inr (Or.inl (by rw [step _ _ h1]; decide))
  rcases mem_palt h with h1 | h
  · exact Or.inr (Or.inr (by rw [step _ _ h1]; decide))
  · exact Or.inr (Or.inr (by rw [step _ _ h]; decide))

theorem preStage_members {s : List Char} {o : Option (List Char × Option Nat)}
    {r : List Char} (h : (o, r) ∈ preStage s) :
    ∀ l n, o = some (l, n) → l = "a".data ∨ l = "b".data ∨ l = "rc".data := by
  intro l n ho
  subst ho
  unfold preStage at h
  rcases mem_popt h with ⟨x, hx, hmem⟩ | ⟨hx, _⟩
  · obtain ⟨_, r1, _, hmem⟩ := mem_pbind hmem
    obtain ⟨l', r2, hl', hmem⟩ := mem_pbind hmem
    obtain ⟨_, r3, _, hmem⟩ := mem_pbind hmem
    obtain ⟨nd, r4, _, hmem⟩ := mem_pbind hmem
    obtain ⟨h1, _⟩ := mem_pret hmem
    rw [h1] at hx
    injection hx with hx
    injection hx with hxl hxn
    rw [hxl]
    exact preLetterAlt_members hl'
  · cases hx

theorem postLetterAlt_members {s : List Char} {l : List Char} {r : List Char}
    (h : (l, r) ∈ postLetterAlt s) : l = "post".data := by
  unfold postLetterAlt at h
  have step : ∀ (lit val : List Char) (h2 : (l, r) ∈ pbind (plitCI lit)
      (fun _ => pret val) s), l = val := by
    intro lit val h2
    obtain ⟨_, r1, _, h2⟩ := mem_pbind h2
    exact (mem_pret h2).1
  rcases mem_palt h with h1 | h
  · exact step _ _ h1
  rcases mem_palt h with h1 | h
  · exact step _ _ h1
  · exact step _ _ h

theorem postStage_members {s : List Char} {o : Option (List Char × Option Nat)}
    {r : List Char} (h : (o, r) ∈ postStage s) :
    ∀ l n, o = some (l, n) → l = "post".data := by
  intro l n ho
  subst ho
  unfold postStage at h
  rcases mem_popt h with ⟨x, hx, hmem⟩ | ⟨hx, _⟩
  · rcases mem_palt hmem with h1 | h1
    · obtain ⟨_, r1, _, h1⟩ := mem_pbind h1
      obtain ⟨d, r2, _, h1⟩ := mem_pbind h1
      obtain ⟨h2, _⟩ := mem_pret h1
      rw [h2] at hx
      injection hx with hx
      injection hx with hxl hxn
    · obtain ⟨_, r1, _, h1⟩ := mem_pbind h1
      obtain ⟨l', r2, hl', h1⟩ := mem_pbind h1
      obtain ⟨_, r3, _, h1⟩ := mem_pbind h1
      obtain ⟨nd, r4, _, h1⟩ := mem_pbind h1
      obtain ⟨h2, _⟩ := mem_pret h1
      rw [h2] at hx
      injection hx with hx
      injection hx with hxl hxn
      rw [hxl]
      exact postLetterAlt_members hl'
  · cases hx

theorem devStage_members {s : List Char} {o : Option (List Char × Option Nat)}
    {r : List Char} (h : (o, r) ∈ devStage s) :
    ∀ l n, o = some (l, n) → l = "dev".data := by
  intro l n ho
  subst ho
  unfold devStage at h
  rcases mem_popt h with ⟨x, hx, hmem⟩ | ⟨hx, _⟩
  · obtain ⟨_, r1, _, hmem⟩ := mem_pbind hmem
    obtain ⟨_, r2, _, hmem⟩ := mem_pbind hmem
    obtain ⟨_, r3, _, hmem⟩ := mem_pbind hmem
    obtain ⟨nd, r4, _, hmem⟩ := mem_pbind hmem
    obtain ⟨h2, _⟩ := mem_pret hmem
    rw [h2] at hx
    injection hx with hx
    injection hx with hxl hxn
  · cases hx

theorem locWf_from_chunks : ∀ (rest : List (List Char)),
    (∀ x ∈ rest, ∃ sc t2, x = sc :: t2 ∧ isSepCh sc = true ∧ t2 ≠ []
      ∧ t2.all isLocAlCI = true) →
    ∃ chs, (rest.flatMap id).map lowerCh = locFlat chs ∧ LocChunksWf chs := by
  intro rest
  induction rest with
  | nil => exact fun _ => ⟨[], rfl, fun q hq => absurd hq (List.not_mem_nil q)⟩
  | cons x rest' ih =>
    intro hx
    obtain ⟨sc, t2, rfl, hsep, hne, hall⟩ := hx _ (List.mem_cons_self _ _)
    obtain ⟨chs', hflat', hwf'⟩ := ih (fun y hy => hx y (List.mem_cons_of_mem _ hy))
    refine ⟨(sc, t2.map lowerCh) :: chs', ?_, ?_⟩
    · simp only [List.flatMap_cons, id, List.map_append, List.map_cons, locFlat]
      rw [sep_lower_fixed hsep]
      simp only [locFlat] at hflat'
      rw [hflat']
    · intro q hq
      rcases List.mem_cons.mp hq with rfl | hq2
      · refine ⟨hsep, by simpa using hne, ?_⟩
        rw [List.all_eq_true] at hall ⊢
        intro c hc
        obtain ⟨d, hd, rfl⟩ := List.mem_map.mp hc
        exact isLocAlCI_lower (hall d hd)
      · exact hwf' q hq2

theorem localStage_members {fuel : Nat} {s : List Char} {lo : List Char}
    {r : List Char} (h : (lo, r) ∈ localStage fuel s) :
    lo.map lowerCh = [] ∨ LocWf (lo.map lowerCh) := by
  unfold localStage at h
  obtain ⟨o, ho, heq⟩ := mem_pmap h
  rcases mem_popt ho with ⟨x, hx, hmem⟩ | ⟨hx, _⟩
  · obtain ⟨_, r1, _, hmem⟩ := mem_pbind hmem
    obtain ⟨t, r2, ht, hmem⟩ := mem_pbind hmem
    obtain ⟨rest, r3, hrest, hmem⟩ := mem_pbind hmem
    obtain ⟨h2, _⟩ := mem_pret hmem
    obtain ⟨htne, htall⟩ := psome_members ht
    have hrestinv := pmany_members (Q := fun x => ∃ sc t2, x = sc :: t2
      ∧ isSepCh sc = true ∧ t2 ≠ [] ∧ t2.all isLocAlCI = true)
      (by
        intro s' a' r' ha'
        unfold locChunk at ha'
        obtain ⟨sc, rr1, hsc, ha'⟩ := mem_pbind ha'
        obtain ⟨t2, ht2, heq2⟩ := mem_pmap ha'
        obtain ⟨hscp, _⟩ := mem_pchar hsc
        obtain ⟨ht2ne, ht2all⟩ := psome_members ht2
        exact ⟨sc, t2, heq2, hscp, ht2ne, ht2all⟩)
      fuel _ _ _ hrest
    obtain ⟨chs, hflat, hwf⟩ := locWf_from_chunks rest hrestinv
    right
    rw [heq, hx, h2]
    show LocWf ((t ++ rest.flatMap id).map lowerCh)
    rw [List.map_append, hflat]
    refine ⟨t.map lowerCh, chs, rfl, by simpa using htne, ?_, hwf⟩
    rw [List.all_eq_true]
    intro c hc
    obtain ⟨d, hd, rfl⟩ := List.mem_map.mp hc
    exact isLocAlCI_lower (List.all_eq_true.mp htall d hd)
  · left
    rw [heq, hx]
    rfl

theorem pipe_members {fuel : Nat} {s : List Char} {raw : Raw} {r : List Char}
    (h : (raw, r) ∈ pipe fuel s) : RawWf raw := by
  unfold pipe at h
  obtain ⟨_, r1, _, h⟩ := mem_pbind h
  obtain ⟨_, r2, _, h⟩ := mem_pbind h
  obtain ⟨e, r3, _, h⟩ := mem_pbind h
  obtain ⟨rel, r4, hrel, h⟩ := mem_pbind h
  obtain ⟨pr, r5, hpr, h⟩ := mem_pbind h
  obtain ⟨po, r6, hpo, h⟩ := mem_pbind h
  obtain ⟨dv, r7, hdv, h⟩ := mem_pbind h
  obtain ⟨lo, r8, hlo, h⟩ := mem_pbind h
  obtain ⟨_, r9, _, h⟩ := mem_pbind h
  obtain ⟨_, r10, _, h⟩ := mem_pbind h
  obtain ⟨h1, _⟩ := mem_pret h
  rw [h1]
  exact ⟨releaseStage_members hrel, preStage_members hpr, postStage_members hpo,
    devStage_members hdv, localStage_members hlo⟩

theorem lnOf_raw_wf {o : Option (List Char × Option Nat)} {S : List Char → Prop}
    (h : ∀ l n, o = some (l, n) → S l) :
    ((lnOf o).letter = [] ∧ (lnOf o).number = 0) ∨ S (lnOf o).letter := by
  cases o with
  | none => exact Or.inl ⟨rfl, rfl⟩
  | some ln =>
    obtain ⟨l, n⟩ := ln
    exact Or.inr (h l n rfl)

theorem parse_wf {s : List Char} {v : Version} (h : parse s = some v) : WfV v := by
  unfold parse at h
  cases hp : pipe s.length s with
  | nil => rw [hp] at h; cases h
  | cons head t =>
    obtain ⟨raw0, r0⟩ := head
    rw [hp] at h
    injection h with h
    have hmem : (raw0, r0) ∈ pipe s.length s := by
      rw [hp]; exact List.mem_cons_self _ _
    obtain ⟨hrel, hpre, hpost, hdev, hloc⟩ := pipe_members hmem
    rw [← h]
    refine ⟨hrel, ?_, ?_, ?_, hloc, rfl, rfl⟩
    · have := lnOf_raw_wf (S := fun l => l = "a".data ∨ l = "b".data
        ∨ l = "rc".data) hpre
      tauto
    · exact lnOf_raw_wf (S := fun l => l = "post".data) hpost
    · exact lnOf_raw_wf (S := fun l => l = "dev".data) hdev

theorem lawfulKeyCmp : LawfulCmp Key.cmp :=
  (lawfulCmpN.comap Key.epoch).lex
    ((lawfulCmpRel.comap Key.release).lex
      ((lawfulCmpKLN.comap Key.pre).lex
        ((lawfulCmpKLN.comap Key.post).lex
          ((lawfulCmpKLN.comap Key.dev).lex (lawfulCmpKLoc.comap Key.localKey)))))

/-! ### `Compare` agrees with the unpadded key comparison -/

theorem keyCmp_pad (k o : Key) (n : Nat) :
    Key.cmp { k with release := padTo k.release n }
      { o with release := padTo o.release n } = Key.cmp k o := by
  show (cmpN k.epoch o.epoch).then
    ((cmpRel (padTo k.release n) (padTo o.release n)).then
      ((cmpKLN k.pre o.pre).then
        ((cmpKLN k.post o.post).then
          ((cmpKLN k.dev o.dev).then (cmpKLoc k.localKey o.localKey))))) = Key.cmp k o
  unfold padTo
  rw [cmpRel_append_zeros]
  rfl

theorem compareI_eq_key {v o : Version} (hv : WfV v) (ho : WfV o) :
    v.compareI o = ordToInt (Key.cmp v.key o.key) := by
  unfold Version.compareI
  by_cases h : render v = render o
  · rw [if_pos h]
    have hp := parse_render v hv
    rw [h, parse_render o ho] at hp
    injection hp with hp
    have hk0 := congrArg Version.key hp
    have hk : o.key = v.key := hk0
    rw [hk, lawfulKeyCmp.refl]
    rfl
  · rw [if_neg h]
    show ordToInt (Key.cmp
      { v.key with release := padTo v.key.release o.key.release.length }
      { o.key with release := padTo o.key.release o.key.release.length }) = _
    rw [keyCmp_pad]

/-! ## The claims -/

/-- C1: versions obtained from successful `Parse` are totally ordered by
`Compare`: exactly one of `LessThan`, `Equal`, `GreaterThan` holds of any
pair, and `LessThan` is transitive. -/
theorem claim_C1 (sa sb sc : List Char) (a b c : Version)
    (ha : parse sa = some a) (hb : parse sb = some b) (hc : parse sc = some c) :
    ((a.lessThan b = true ∧ a.equal b = false ∧ a.greaterThan b = false)
      ∨ (a.lessThan b = false ∧ a.equal b = true ∧ a.greaterThan b = false)
      ∨ (a.lessThan b = false ∧ a.equal b = false ∧ a.greaterThan b = true))
    ∧ (a.lessThan b = true → b.lessThan c = true → a.lessThan c = true) := by
  have hab := compareI_eq_key (parse_wf ha) (parse_wf hb)
  have hbc := compareI_eq_key (parse_wf hb) (parse_wf hc)
  have hac := compareI_eq_key (parse_wf ha) (parse_wf hc)
  constructor
  · cases hord : Key.cmp a.key b.key
    · exact Or.inl (by
        refine ⟨?_, ?_, ?_⟩ <;>
          simp [Version.lessThan, Version.equal, Version.greaterThan, hab, hord,
            ordToInt])
    · exact Or.inr (Or.inl (by
        refine ⟨?_, ?_, ?_⟩ <;>
          simp [Version.lessThan, Version.equal, Version.greaterThan, hab, hord,
            ordToInt]))
    · exact Or.inr (Or.inr (by
        refine ⟨?_, ?_, ?_⟩ <;>
          simp [Version.lessThan, Version.equal, Version.greaterThan, hab, hord,
            ordToInt]))
  · intro h1 h2
    have g1 : Key.cmp a.key b.key = .lt := by
      cases hord : Key.cmp a.key b.key
      · rfl
      · simp [Version.lessThan, hab, hord, ordToInt] at h1
      · simp [Version.lessThan, hab, hord, ordToInt] at h1
    have g2 : Key.cmp b.key c.key = .lt := by
      cases hord : Key.cmp b.key c.key
      · rfl
      · simp [Version.lessThan, hbc, hord, ordToInt] at h2
      · simp [Version.lessThan, hbc, hord, ordToInt] at h2
    have g3 := lawfulKeyCmp.lt_trans _ _ _ g1 g2
    simp [Version.lessThan, hac, g3, ordToInt]

theorem claim_C1_witness :
    (mustParse "1.0".data).lessThan (mustParse "3.0".data) = true :=
  (claim_C1 "1.0".data "2.0".data "3.0".data
      (mustParse "1.0".data) (mustParse "2.0".data) (mustParse "3.0".data)
      rfl rfl rfl).2 (by decide) (by decide)

/-- C2: `Compare` returns 0 on identical canonical strings (so equality is
insensitive to the original text), and otherwise agrees with comparing the
keys after padding both release sequences to the longer length. -/
theorem claim_C2 :
    (∀ v o : Version, v.compareI o = compareSpecC2 v o)
    ∧ (∀ v o : Version, render v = render o → v.compareI o = 0) := by
  constructor
  · intro v o
    unfold Version.compareI compareSpecC2
    by_cases h : render v = render o
    · rw [if_pos h, if_pos h]
    · rw [if_neg h, if_neg h]
      show ordToInt (Key.cmp
        { v.key with release := padTo v.key.release o.key.release.length }
        { o.key with release := padTo o.key.release o.key.release.length })
        = ordToInt (Key.cmp
        { v.key with release := (padTo v.key.release
            (max v.key.release.length o.key.release.length)) }
        { o.key with release := (padTo o.key.release
            (max v.key.release.length o.key.release.length)) })
      rw [keyCmp_pad, keyCmp_pad]
  · intro v o h
    unfold Version.compareI
    rw [if_pos h]

theorem claim_C2_witness : junkVersion.compareI junkVersion = 0 :=
  claim_C2.2 junkVersion junkVersion rfl

/-- C3: the nine listed versions all parse and form a strictly ascending
`LessThan` chain, and `cmpkey` installs the sentinels as described: null pre
with null post and non-null dev becomes NegativeInfinity, any other null pre
becomes Infinity, null post becomes NegativeInfinity, null dev becomes
Infinity. -/
theorem claim_C3 :
    ((parse "1.0.dev1".data).isSome = true
      ∧ (parse "1.0a1".data).isSome = true
      ∧ (parse "1.0a1.post1.dev1".data).isSome = true
      ∧ (parse "1.0a1.post1".data).isSome = true
      ∧ (parse "1.0b1".data).isSome = true
      ∧ (parse "1.0rc1".data).isSome = true
      ∧ (parse "1.0".data).isSome = true
      ∧ (parse "1.0.post1".data).isSome = true
      ∧ (parse "1.1.dev1".data).isSome = true)
    ∧ ((mustParse "1.0.dev1".data).lessThan (mustParse "1.0a1".data) = true
      ∧ (mustParse "1.0a1".data).lessThan (mustParse "1.0a1.post1.dev1".data) = true
      ∧ (mustParse "1.0a1.post1.dev1".data).lessThan (mustParse "1.0a1.post1".data) = true
      ∧ (mustParse "1.0a1.post1".data).lessThan (mustParse "1.0b1".data) = true
      ∧ (mustParse "1.0b1".data).lessThan (mustParse "1.0rc1".data) = true
      ∧ (mustParse "1.0rc1".data).lessThan (mustParse "1.0".data) = true
      ∧ (mustParse "1.0".data).lessThan (mustParse "1.0.post1".data) = true
      ∧ (mustParse "1.0.post1".data).lessThan (mustParse "1.1.dev1".data) = true)
    ∧ (∀ (e : Nat) (rel : List Nat) (pre post dev : LetterNumber) (loc : List Char),
        (pre.isNull = true → post.isNull = true → dev.isNull = false →
          (cmpkey e rel pre post dev loc).pre = KLN.negInf)
        ∧ (pre.isNull = true → (post.isNull = false ∨ dev.isNull = true) →
          (cmpkey e rel pre post dev loc).pre = KLN.inf)
        ∧ (post.isNull = true → (cmpkey e rel pre post dev loc).post = KLN.negInf)
        ∧ (dev.isNull = true → (cmpkey e rel pre post dev loc).dev = KLN.inf)) := by
  refine ⟨by decide, by decide, ?_⟩
  intro e rel pre post dev loc
  refine ⟨?_, ?_, ?_, ?_⟩
  · intro h1 h2 h3
    show (if pre.isNull && post.isNull && !dev.isNull then KLN.negInf
      else if pre.isNull then KLN.inf else KLN.val pre.letter pre.number)
      = KLN.negInf
    simp [h1, h2, h3]
  · intro h1 h2
    show (if pre.isNull && post.isNull && !dev.isNull then KLN.negInf
      else if pre.isNull then KLN.inf else KLN.val pre.letter pre.number)
      = KLN.inf
    rcases h2 with h2 | h2 <;> simp [h1, h2]
  · intro h1
    show (if post.isNull then KLN.negInf else KLN.val post.letter post.number)
      = KLN.negInf
    simp [h1]
  · intro h1
    show (if dev.isNull then KLN.inf else KLN.val dev.letter dev.number) = KLN.inf
    simp [h1]

theorem claim_C3_witness :
    (cmpkey 0 [1] ⟨[], 0⟩ ⟨[], 0⟩ ⟨"dev".data, 1⟩ []).pre = KLN.negInf :=
  ((claim_C3.2.2 0 [1] ⟨[], 0⟩ ⟨[], 0⟩ ⟨"dev".data, 1⟩ []).1 (by decide)
    (by decide) (by decide))

/-- C4: canonicalization is idempotent — whenever `Parse` accepts a string,
yielding `v`, parsing `v.String()` succeeds and renders back to the same
canonical string. -/
theorem claim_C4 (s : List Char) (v : Version) (h : parse s = some v) :
    ∃ w, parse (render v) = some w ∧ render w = render v := by
  have hw := parse_wf h
  exact ⟨_, parse_render v hw, rfl⟩

theorem claim_C4_witness :
    ∃ w, parse (render (mustParse "1.0a1".data)) = some w
      ∧ render w = render (mustParse "1.0a1".data) :=
  claim_C4 "1.0a1".data (mustParse "1.0a1".data) rfl

/-- C8: a `===` clause matches exactly on case-insensitive equality of the
candidate's canonical rendering with the clause's version text, and such
clauses bypass validation at construction (an unparsable version text is
accepted). -/
theorem claim_C8 :
    (∀ (v : Version) (spec : List Char),
      specifierArbitrary v spec = true ↔ (render v).map lowerCh = spec.map lowerCh)
    ∧ newConstraint "===abc".data
        = Except.ok { version := "abc".data, op := Op.opArb, original := "===abc".data }
    ∧ parse "abc".data = none := by
  refine ⟨?_, rfl, rfl⟩
  intro v spec
  show (decide ((render v).map lowerCh = spec.map lowerCh) = true) ↔ _
  exact decide_eq_true_iff

/-- C9: `NewConstraints("~=2")` fails, and in general `validate` rejects a
`~=` clause whose version parses with fewer than two release components, so
constraint construction fails before any `Constraints` value is built. -/
theorem claim_C9 :
    (∃ e, newConstraints "~=2".data = Except.error e)
    ∧ (∀ (ver : List Char) (v : Version), endsWithDotStar ver = false →
        parse ver = some v → v.release.length < 2 →
        ∃ e, validate Op.opCompat ver = Except.error e) := by
  constructor
  · exact ⟨_, rfl⟩
  · intro ver v h1 h2 h3
    have hval : validate Op.opCompat ver
        = Except.error ("the compatible operator requires at least two digits".data) := by
      show (match parse (if endsWithDotStar ver then ver.take (ver.length - 2)
          else ver) with
        | none => Except.error ("version parse error".data)
        | some v =>
          if endsWithDotStar ver then
            Except.error ("a wild card is not allowed".data)
          else if v.release.length < 2 then
            Except.error ("the compatible operator requires at least two digits".data)
          else if !v.localSeg.isEmpty then
            Except.error ("local versions cannot be specified".data)
          else Except.ok ())
        = Except.error ("the compatible operator requires at least two digits".data)
      rw [h1]
      simp only [Bool.false_eq_true, if_false, h2]
      rw [if_pos h3]
    exact ⟨_, hval⟩

theorem claim_C9_witness :
    ∃ e, validate Op.opCompat "2".data = Except.error e :=
  claim_C9.2 "2".data (mustParse "2".data) (by decide) (by decide) (by decide)

/-! ### The compatible operator (C5) -/

theorem ok_of_toOption {e a : Type} {x : Except e a} {y : a}
    (h : exceptToOption x = some y) : x = Except.ok y := by
  cases x with
  | ok z => injection h with h; rw [h]
  | error _ => cases h

theorem compatible_decomp (v : Version) (spec : List Char) :
    specifierCompatible v spec
      = (specifierGreaterThanEqual v spec && specifierEqual v (specPrefixC5 spec)) := by
  unfold specifierCompatible specPrefixC5
  rw [List.dropLast_eq_take]

theorem checkC5_eq (v : Version) :
    check ⟨[[⟨"2.2".data, Op.opCompat, "~=2.2".data⟩]]⟩ v
      = check ⟨[[⟨"2.2".data, Op.opGe, ">=2.2".data⟩,
          ⟨"2.*".data, Op.opEq, "==2.*".data⟩]]⟩ v := by
  have e1 : check ⟨[[⟨"2.2".data, Op.opCompat, "~=2.2".data⟩]]⟩ v
      = ((specifierCompatible v "2.2".data && true) || false) := rfl
  have e2 : check ⟨[[⟨"2.2".data, Op.opGe, ">=2.2".data⟩,
        ⟨"2.*".data, Op.opEq, "==2.*".data⟩]]⟩ v
      = ((specifierGreaterThanEqual v "2.2".data
          && (specifierEqual v "2.*".data && true)) || false) := rfl
  rw [e1, e2]
  rw [compatible_decomp]
  have hpfx : specPrefixC5 "2.2".data = "2.*".data := rfl
  rw [hpfx]
  cases specifierGreaterThanEqual v "2.2".data <;>
    cases specifierEqual v "2.*".data <;> rfl

/-- C5: `Check` of `~=2.2` coincides with `Check` of `>=2.2,==2.*` on every
version, and in general a `~=` clause is the conjunction of `>= spec` and
`== prefix.*` where the prefix drops post/dev tokens and the final remaining
token. -/
theorem claim_C5 :
    (∃ cs1 cs2, newConstraints "~=2.2".data = Except.ok cs1
      ∧ newConstraints ">=2.2,==2.*".data = Except.ok cs2
      ∧ ∀ v : Version, check cs1 v = check cs2 v)
    ∧ (∀ (v : Version) (spec : List Char),
        specifierCompatible v spec
          = (specifierGreaterThanEqual v spec
              && specifierEqual v (specPrefixC5 spec))) :=
  ⟨⟨⟨[[⟨"2.2".data, Op.opCompat, "~=2.2".data⟩]]⟩,
    ⟨[[⟨"2.2".data, Op.opGe, ">=2.2".data⟩, ⟨"2.*".data, Op.opEq, "==2.*".data⟩]]⟩,
    ok_of_toOption (by decide), ok_of_toOption (by decide), checkC5_eq⟩,
    fun v spec => compatible_decomp v spec⟩

/-! ### Wildcard equality (C6) -/

theorem goPadLoopF_closed : ∀ (f i : Nat) (r : List (List Char)) (target : Nat),
    target ≤ i + r.length + 2 * f →
    goPadLoopF target f i r
      = r ++ List.replicate ((target - (i + r.length) + 1) / 2) ['0'] := by
  intro f
  induction f with
  | zero =>
    intro i r target h
    show r = _
    have hd : target - (i + r.length) = 0 := by omega
    rw [hd]
    simp
  | succ g ih =>
    intro i r target h
    show (if i < target - r.length then goPadLoopF target g (i + 1) (r ++ [['0']])
      else r) = _
    by_cases hc : i < target - r.length
    · rw [if_pos hc,
        ih (i + 1) (r ++ [['0']]) target (by simp; omega)]
      rw [List.append_assoc]
      congr 1
      show ['0'] :: List.replicate _ ['0'] = _
      have hlen : (r ++ [['0']]).length = r.length + 1 := by simp
      rw [hlen]
      rw [show (target - (i + r.length) + 1) / 2
          = (target - (i + 1 + (r.length + 1)) + 1) / 2 + 1 by omega]
      rw [List.replicate_succ]
    · rw [if_neg hc]
      have hd : target - (i + r.length) = 0 := by omega
      rw [hd]
      simp

theorem padVersion_eq_amended (left right : List (List Char)) :
    padVersion left right = padVersionA left right := by
  simp only [padVersion, padVersionA]
  rw [goPadLoopF_closed _ 0 _ _ (by omega),
    goPadLoopF_closed _ 0 _ _ (by omega)]
  simp

/-- C6 (amended): a wildcard `==X.Y.*` clause matches iff the token
sequences agree after the padding `padVersion` actually performs: the
numeric-only leading portion of the shorter side receives only half the
length difference in zeros (rounded up), and BOTH trailing rests are sliced
from the spec side. -/
theorem claim_C6 (v : Version) (spec : List Char)
    (h : endsWithDotStar spec = true) :
    specifierEqual v spec = specEqualWildA v spec := by
  unfold specifierEqual specEqualWildA
  rw [if_pos h]
  simp only [padVersion_eq_amended]

theorem claim_C6_witness :
    specifierEqual (mustParse "2.1".data) "2.1.*".data
      = specEqualWildA (mustParse "2.1".data) "2.1.*".data :=
  claim_C6 (mustParse "2.1".data) "2.1.*".data rfl

/-- C6 counterexample: at spec `==2.0.0.0.*` and candidate `2` the claim's
described matcher succeeds but `specifierEqual` returns false. -/
theorem claim_C6_counterexample :
    endsWithDotStar "2.0.0.0.*".data = true
    ∧ specEqualWildSpecC6 (mustParse "2".data) "2.0.0.0.*".data = true
    ∧ specifierEqual (mustParse "2".data) "2.0.0.0.*".data = false := by
  refine ⟨rfl, rfl, rfl⟩

/-! ### Public and base reparses (C7, C10)

`Public()` is the rendering with the local chunk cut off, and `BaseVersion()`
is the rendering of epoch and release alone; both re-parse. -/

theorem wfV_withOriginal {v : Version} (h : WfV v) (o : List Char) :
    WfV { v with original := o } :=
  ⟨h.relNe, h.preW, h.postW, h.devW, h.locW, h.keyW, h.priW⟩

theorem wfV_stripLocal {v : Version} (h : WfV v) : WfV (stripLocal v) :=
  ⟨h.relNe, h.preW, h.postW, h.devW, Or.inl rfl, rfl, h.priW⟩

theorem wfV_baseOf {v : Version} (h : WfV v) : WfV (baseOf v) :=
  ⟨h.relNe, Or.inl ⟨rfl, rfl⟩, Or.inl ⟨rfl, rfl⟩, Or.inl ⟨rfl, rfl⟩,
    Or.inl rfl, rfl, rfl⟩

theorem mustParse_of_parse {c : List Char} {s : Version} (h : parse c = some s) :
    mustParse c = s := by
  unfold mustParse
  rw [h]
  rfl

theorem takeWhile_append_all {p : Char → Bool} :
    ∀ (l r : List Char), l.all p = true →
      (l ++ r).takeWhile p = l ++ r.takeWhile p := by
  intro l
  induction l with
  | nil => intro r _; rfl
  | cons c cs ih =>
    intro r hall
    rw [List.all_cons, Bool.and_eq_true] at hall
    show List.takeWhile p (c :: (cs ++ r)) = _
    rw [List.takeWhile_cons, if_pos hall.1, ih r hall.2]
    rfl

theorem all_noPlus_of_digits {l : List Char} (h : l.all isDigitCh = true) :
    l.all (fun c => decide (c ≠ '+')) = true := by
  rw [List.all_eq_true] at h ⊢
  intro c hc
  have hd := (digit_facts (h c hc)).2.2.2.2.1
  simp only [decide_eq_false_iff_not] at hd
  simpa using hd

theorem renderRelease_noPlus (rel : List Nat) :
    (renderRelease rel).all (fun c => decide (c ≠ '+')) = true := by
  cases rel with
  | nil => rfl
  | cons r rs =>
    show (natDigits r ++ rs.flatMap (fun x => '.' :: natDigits x)).all _ = true
    rw [List.all_append, Bool.and_eq_true]
    refine ⟨all_noPlus_of_digits (natDigits_facts r).2.1, ?_⟩
    rw [List.all_eq_true]
    intro c hc
    rw [List.mem_flatMap] at hc
    obtain ⟨x, hx, hcx⟩ := hc
    rcases List.mem_cons.mp hcx with rfl | hcd
    · decide
    · exact List.all_eq_true.mp (all_noPlus_of_digits (natDigits_facts x).2.1) c hcd

theorem isNull_false_of_not {ln : LetterNumber} (h : ¬(ln.isNull = true)) :
    ln.isNull = false := by
  cases hb : ln.isNull
  · rfl
  · exact absurd hb h

theorem headParts_noPlus {v : Version} (h : WfV v) :
    (headParts v).all (fun c => decide (c ≠ '+')) = true := by
  unfold headParts
  simp only [List.all_append, Bool.and_eq_true]
  refine ⟨⟨⟨⟨?_, ?_⟩, ?_⟩, ?_⟩, ?_⟩
  · by_cases he : v.epoch > 0
    · rw [if_pos he, List.all_append, Bool.and_eq_true]
      exact ⟨all_noPlus_of_digits (natDigits_facts _).2.1, by decide⟩
    · rw [if_neg he]
      rfl
  · exact renderRelease_noPlus v.release
  · by_cases hp : v.pre.isNull = true
    · rw [hp]
      rfl
    · have hl : v.pre.letter = "a".data ∨ v.pre.letter = "b".data
          ∨ v.pre.letter = "rc".data := by
        rcases h.preW with ⟨h1, _⟩ | h1 | h1 | h1
        · exact absurd (by simp [LetterNumber.isNull, h1]) hp
        · exact Or.inl h1
        · exact Or.inr (Or.inl h1)
        · exact Or.inr (Or.inr h1)
      rw [isNull_false_of_not hp]
      show ((v.pre.letter ++ natDigits v.pre.number).all
        fun c => decide (c ≠ '+')) = true
      rw [List.all_append, Bool.and_eq_true]
      refine ⟨?_, all_noPlus_of_digits (natDigits_facts _).2.1⟩
      rcases hl with h1 | h1 | h1 <;> rw [h1] <;> decide
  · by_cases hp : v.post.isNull = true
    · rw [hp]
      rfl
    · rw [isNull_false_of_not hp]
      show ((".post".data ++ natDigits v.post.number).all
        fun c => decide (c ≠ '+')) = true
      rw [List.all_append, Bool.and_eq_true]
      exact ⟨by decide, all_noPlus_of_digits (natDigits_facts _).2.1⟩
  · by_cases hp : v.dev.isNull = true
    · rw [hp]
      rfl
    · rw [isNull_false_of_not hp]
      show ((".dev".data ++ natDigits v.dev.number).all
        fun c => decide (c ≠ '+')) = true
      rw [List.all_append, Bool.and_eq_true]
      exact ⟨by decide, all_noPlus_of_digits (natDigits_facts _).2.1⟩

theorem render_split (v : Version) :
    render v = headParts v
      ++ (if v.localSeg ≠ [] then '+' :: v.localSeg else []) := rfl

theorem render_stripLocal (v : Version) :
    render (stripLocal v) = headParts v := by
  show headParts v ++ ([] : List Char) = headParts v
  exact List.append_nil _

theorem publicStr_strip {v : Version} (h : WfV v) :
    v.publicStr = render (stripLocal v) := by
  show (render v).takeWhile (fun c => decide (c ≠ '+')) = _
  rw [render_split, takeWhile_append_all _ _ (headParts_noPlus h),
    render_stripLocal]
  by_cases hl : v.localSeg = []
  · rw [if_neg (by simp [hl])]
    simp
  · rw [if_pos hl, List.takeWhile_cons, if_neg (by decide)]
    simp

theorem mustParse_publicStr {v : Version} (h : WfV v) :
    mustParse v.publicStr = { stripLocal v with original := v.publicStr } := by
  unfold mustParse
  rw [publicStr_strip h, parse_render _ (wfV_stripLocal h)]
  rfl

theorem baseVersion_render {v : Version} :
    render (baseOf v) = v.baseVersion := by
  show (if v.epoch > 0 then natDigits v.epoch ++ ['!'] else [])
      ++ renderRelease v.release ++ [] ++ [] ++ [] ++ [] = v.baseVersion
  simp [Version.baseVersion]

theorem mustParse_baseVersion {v : Version} (h : WfV v) :
    mustParse v.baseVersion = { baseOf v with original := v.baseVersion } := by
  unfold mustParse
  rw [← baseVersion_render, parse_render _ (wfV_baseOf h)]
  rfl

theorem then_assoc (a b c : Ordering) : (a.then b).then c = a.then (b.then c) := by
  cases a <;> rfl

theorem keyCmp_decomp (k o : Key) :
    Key.cmp k o = (cmpHead5 k o).then (cmpKLoc k.localKey o.localKey) := by
  unfold Key.cmp cmpHead5
  rw [then_assoc, then_assoc, then_assoc, then_assoc]

theorem key_localKey {v : Version} (h : WfV v) :
    v.key.localKey = (if v.localSeg = [] then KLoc.negInf
      else KLoc.val ((splitOnDot v.localSeg).map locTokOf)) := by
  rw [h.keyW]
  rfl

theorem key_epoch {v : Version} (h : WfV v) : v.key.epoch = v.epoch := by
  rw [h.keyW]
  rfl

theorem key_release {v : Version} (h : WfV v) :
    v.key.release = dropTrailingZeros v.release := by
  rw [h.keyW]
  rfl

theorem key_post {v : Version} (h : WfV v) :
    v.key.post = (if v.post.isNull then KLN.negInf
      else KLN.val v.post.letter v.post.number) := by
  rw [h.keyW]
  rfl

theorem stripLocal_key_localKey (v : Version) :
    (stripLocal v).key.localKey = KLoc.negInf := rfl

theorem cmpHead5_strip_left {v : Version} (hv : WfV v) (o : Key) :
    cmpHead5 (stripLocal v).key o = cmpHead5 v.key o := by
  rw [hv.keyW]
  rfl

theorem keyCmp_strip_left {v s : Version} (hv : WfV v) (hs : WfV s)
    (hsl : s.localSeg = []) :
    Key.cmp (stripLocal v).key s.key = cmpHead5 v.key s.key := by
  rw [keyCmp_decomp, stripLocal_key_localKey, key_localKey hs, if_pos hsl,
    cmpHead5_strip_left hv]
  cases cmpHead5 v.key s.key <;> rfl

theorem lessThan_eq_decide {a b : Version} (ha : WfV a) (hb : WfV b) :
    a.lessThan b = decide (Key.cmp a.key b.key = .lt) := by
  unfold Version.lessThan
  rw [compareI_eq_key ha hb]
  cases Key.cmp a.key b.key <;> rfl

theorem greaterThan_eq_decide {a b : Version} (ha : WfV a) (hb : WfV b) :
    a.greaterThan b = decide (Key.cmp a.key b.key = .gt) := by
  unfold Version.greaterThan
  rw [compareI_eq_key ha hb]
  cases Key.cmp a.key b.key <;> rfl

theorem equal_eq_decide {a b : Version} (ha : WfV a) (hb : WfV b) :
    a.equal b = decide (Key.cmp a.key b.key = .eq) := by
  unfold Version.equal
  rw [compareI_eq_key ha hb]
  cases Key.cmp a.key b.key <;> rfl

theorem strip_lessThan {v s : Version} (hv : WfV v) (hs : WfV s)
    (hsl : s.localSeg = []) :
    (mustParse v.publicStr).lessThan s = v.lessThan s := by
  rw [mustParse_publicStr hv]
  have hw : WfV { stripLocal v with original := v.publicStr } :=
    wfV_withOriginal (wfV_stripLocal hv) _
  rw [lessThan_eq_decide hw hs, lessThan_eq_decide hv hs]
  have hk : ({ stripLocal v with original := v.publicStr } : Version).key
      = (stripLocal v).key := rfl
  rw [hk, keyCmp_strip_left hv hs hsl, keyCmp_decomp v.key s.key,
    key_localKey hs, if_pos hsl]
  cases hH : cmpHead5 v.key s.key
  · rfl
  · cases hx : v.key.localKey <;> rfl
  · rfl

theorem strip_greaterThan_decide {v s : Version} (hv : WfV v) (hs : WfV s)
    (hsl : s.localSeg = []) :
    (mustParse v.publicStr).greaterThan s
      = decide (cmpHead5 v.key s.key = .gt) := by
  rw [mustParse_publicStr hv]
  rw [greaterThan_eq_decide (wfV_withOriginal (wfV_stripLocal hv) _) hs]
  have hk : ({ stripLocal v with original := v.publicStr } : Version).key
      = (stripLocal v).key := rfl
  rw [hk, keyCmp_strip_left hv hs hsl]

theorem code_greaterThan_decide {v s : Version} (hv : WfV v) (hs : WfV s)
    (hsl : s.localSeg = []) :
    v.greaterThan s = decide ((cmpHead5 v.key s.key).then
      (cmpKLoc v.key.localKey KLoc.negInf) = .gt) := by
  rw [greaterThan_eq_decide hv hs, keyCmp_decomp, key_localKey hs, if_pos hsl]

theorem head5_eq_parts {k o : Key} (h : cmpHead5 k o = .eq) :
    cmpN k.epoch o.epoch = .eq ∧ cmpRel k.release o.release = .eq
      ∧ cmpKLN k.pre o.pre = .eq ∧ cmpKLN k.post o.post = .eq
      ∧ cmpKLN k.dev o.dev = .eq := by
  unfold cmpHead5 at h
  simp only [Ordering.then_eq_eq] at h
  exact ⟨h.1, h.2.1, h.2.2.1, h.2.2.2.1, h.2.2.2.2⟩

theorem isPost_eq_of_slot {v s : Version} (hv : WfV v) (hs : WfV s)
    (h : cmpKLN v.key.post s.key.post = .eq) :
    v.isPostRelease = s.isPostRelease := by
  rw [key_post hv, key_post hs] at h
  unfold Version.isPostRelease
  cases hb1 : v.post.isNull <;> cases hb2 : s.post.isNull <;>
    simp_all [cmpKLN]

theorem baseEq_of_slots {v s : Version} (hv : WfV v) (hs : WfV s)
    (h1 : cmpN v.key.epoch s.key.epoch = .eq)
    (h2 : cmpRel v.key.release s.key.release = .eq) :
    (mustParse v.baseVersion).equal (mustParse s.baseVersion) = true := by
  rw [key_epoch hv, key_epoch hs] at h1
  rw [key_release hv, key_release hs] at h2
  rw [mustParse_baseVersion hv, mustParse_baseVersion hs]
  rw [equal_eq_decide (wfV_withOriginal (wfV_baseOf hv) _)
    (wfV_withOriginal (wfV_baseOf hs) _)]
  rw [decide_eq_true_eq]
  show (cmpN v.epoch s.epoch).then
    ((cmpRel (dropTrailingZeros v.release) (dropTrailingZeros s.release)).then
      ((cmpKLN .inf .inf).then
        ((cmpKLN .negInf .negInf).then
          ((cmpKLN .inf .inf).then (cmpKLoc .negInf .negInf))))) = .eq
  rw [h1, h2]
  rfl

/-- C7: when the clause's version parses (to a local-free spec, as validation
guarantees), the `<` and `>` clauses behave exactly as strict comparisons on
the public (local-stripped) candidate with the described exclusions: `<`
rejects a pre-release candidate sharing the base of a non-pre-release spec,
`>` rejects a post-release candidate sharing the base of a non-post-release
spec and any locally-tagged candidate sharing the spec's base. -/
theorem claim_C7 (sv ss : List Char) (v s : Version)
    (hv : parse sv = some v) (hs : parse ss = some s)
    (hsl : s.localSeg = []) :
    specifierLessThan v ss = specLessThanSpecC7 v ss
    ∧ specifierGreaterThan v ss = specGreaterThanSpecC7 v ss := by
  have wv := parse_wf hv
  have ws := parse_wf hs
  have hmp : mustParse ss = s := mustParse_of_parse hs
  constructor
  · simp only [specifierLessThan, specLessThanSpecC7, hmp]
    rw [strip_lessThan wv ws hsl]
  · simp only [specifierGreaterThan, specGreaterThanSpecC7, hmp]
    rw [strip_greaterThan_decide wv ws hsl, code_greaterThan_decide wv ws hsl]
    cases hH : cmpHead5 v.key s.key
    · rfl
    · by_cases hvl : v.localSeg = []
      · have hlk : v.key.localKey = KLoc.negInf := by
          rw [key_localKey wv, if_pos hvl]
        rw [hlk]
        rfl
      · have hlk : v.key.localKey
            = KLoc.val ((splitOnDot v.localSeg).map locTokOf) := by
          rw [key_localKey wv, if_neg hvl]
        rw [hlk]
        obtain ⟨he, hr, hpre, hpost, hdev⟩ := head5_eq_parts hH
        have hpostEq := isPost_eq_of_slot wv ws hpost
        have hbase := baseEq_of_slots wv ws he hr
        rw [hpostEq, hbase]
        cases hsp : s.isPostRelease <;> simp [hvl]
    · rfl

theorem claim_C7_witness :
    specifierLessThan (mustParse "3.1.dev0".data) "3.1".data
      = specLessThanSpecC7 (mustParse "3.1.dev0".data) "3.1".data :=
  (claim_C7 "3.1.dev0".data "3.1".data (mustParse "3.1.dev0".data)
    (mustParse "3.1".data) rfl rfl rfl).1

/-! ### Instrumented evaluation (C10)

Every panic site of `Check` — the `MustParse` calls, the `padVersion` slice
of `left` at the right release's length, and the `~=` prefix slice — is
instrumented: `none` marks a panic, `some b` the value returned. -/

theorem parse_publicStr {v : Version} (h : WfV v) :
    parse v.publicStr = some { stripLocal v with original := v.publicStr } := by
  rw [publicStr_strip h]
  exact parse_render _ (wfV_stripLocal h)

theorem parse_baseVersion {v : Version} (h : WfV v) :
    parse v.baseVersion = some { baseOf v with original := v.baseVersion } := by
  rw [← baseVersion_render]
  exact parse_render _ (wfV_baseOf h)

theorem baseEqOpt_some {v s : Version} (hv : WfV v) (hs : WfV s) :
    baseEqOpt v s
      = some ((mustParse v.baseVersion).equal (mustParse s.baseVersion)) := by
  unfold baseEqOpt
  rw [parse_baseVersion hv, parse_baseVersion hs, mustParse_baseVersion hv,
    mustParse_baseVersion hs]
  rfl

theorem endsWithDotStar_append (l : List Char) :
    endsWithDotStar (l ++ ".*".data) = true := by
  unfold endsWithDotStar
  rw [List.reverse_append, show (".*".data : List Char).reverse = ['*', '.'] from by decide]
  simp [startsWith]

theorem geOpt_agree {v s : Version} {ver : List Char} (hv : WfV v)
    (hw : parse ver = some s) :
    specifierGreaterThanEqualOpt v ver
      = some (specifierGreaterThanEqual v ver) := by
  unfold specifierGreaterThanEqualOpt specifierGreaterThanEqual
  rw [parse_publicStr hv, hw, mustParse_of_parse hw, mustParse_publicStr hv]
  rfl

theorem leOpt_agree {v s : Version} {ver : List Char} (hv : WfV v)
    (hw : parse ver = some s) :
    specifierLessThanEqualOpt v ver = some (specifierLessThanEqual v ver) := by
  unfold specifierLessThanEqualOpt specifierLessThanEqual
  rw [parse_publicStr hv, hw, mustParse_of_parse hw, mustParse_publicStr hv]
  rfl

theorem ltOpt_agree {v s : Version} {ver : List Char} (hv : WfV v)
    (hw : parse ver = some s) :
    specifierLessThanOpt v ver = some (specifierLessThan v ver) := by
  have hws := parse_wf hw
  unfold specifierLessThanOpt specifierLessThan
  rw [hw, mustParse_of_parse hw]
  show (if !v.lessThan s then some false
    else if !s.isPreRelease && v.isPreRelease then
      (baseEqOpt v s).map (fun be => if be then false else true)
    else some true) = _
  rw [baseEqOpt_some hv hws]
  cases hc1 : v.lessThan s <;>
    cases hc2 : (!s.isPreRelease && v.isPreRelease) <;>
      simp [hc1, hc2]

theorem gtOpt_agree {v s : Version} {ver : List Char} (hv : WfV v)
    (hw : parse ver = some s) :
    specifierGreaterThanOpt v ver = some (specifierGreaterThan v ver) := by
  have hws := parse_wf hw
  unfold specifierGreaterThanOpt specifierGreaterThan
  rw [hw, mustParse_of_parse hw]
  show (if !v.greaterThan s then some false
    else
      (if !s.isPostRelease && v.isPostRelease then baseEqOpt v s
       else some false).bind (fun e1 =>
        if e1 then some false
        else
          (if v.localSeg ≠ [] then baseEqOpt v s
           else some false).map (fun e2 => if e2 then false else true))) = _
  rw [baseEqOpt_some hv hws]
  by_cases hl : v.localSeg = [] <;>
    cases hc1 : v.greaterThan s <;>
      cases hc2 : (!s.isPostRelease && v.isPostRelease) <;>
        cases hc3 : (mustParse v.baseVersion).equal (mustParse s.baseVersion) <;>
          simp [hc1, hc2, hc3, hl]

theorem padVersionOpt_trunc (A B0 : List (List Char)) :
    padVersionOpt A (if B0.length > A.length then B0.take A.length else B0)
      = some (padVersion A (if B0.length > A.length then B0.take A.length
          else B0)) := by
  have hlen : ((if B0.length > A.length then B0.take A.length else B0).filter
      (fun t => isDigist t)).length ≤ A.length := by
    have h1 := List.length_filter_le (fun t => isDigist t)
      (if B0.length > A.length then B0.take A.length else B0)
    by_cases hab : B0.length > A.length
    · rw [if_pos hab] at h1 ⊢
      simp only [List.length_take] at h1
      omega
    · rw [if_neg hab] at h1 ⊢
      omega
  unfold padVersionOpt
  rw [if_pos hlen]

theorem eqOpt_agree {v : Version} {ver : List Char} (hv : WfV v)
    (hcond : endsWithDotStar ver = true ∨ ∃ w, parse ver = some w) :
    specifierEqualOpt v ver = some (specifierEqual v ver) := by
  unfold specifierEqualOpt specifierEqual
  by_cases hwild : endsWithDotStar ver = true
  · rw [if_pos hwild, if_pos hwild, parse_publicStr hv, mustParse_publicStr hv]
    simp only [Option.some_bind, padVersionOpt_trunc, Option.map_some']
  · rcases hcond with hcond | hcond
    · exact absurd hcond hwild
    obtain ⟨w, hpw⟩ := hcond
    rw [if_neg hwild, if_neg hwild, hpw, mustParse_of_parse hpw]
    show (if w.localSeg = [] then parse v.publicStr else some v).map
        (fun p2 => w.equal p2)
      = some (w.equal (if w.localSeg = [] then mustParse v.publicStr else v))
    by_cases hl : w.localSeg = []
    · rw [if_pos hl, if_pos hl, parse_publicStr hv, mustParse_publicStr hv]
      rfl
    · rw [if_neg hl, if_neg hl]
      rfl

theorem neOpt_agree {v : Version} {ver : List Char} (hv : WfV v)
    (hcond : endsWithDotStar ver = true ∨ ∃ w, parse ver = some w) :
    specifierNotEqualOpt v ver = some (specifierNotEqual v ver) := by
  unfold specifierNotEqualOpt specifierNotEqual
  rw [eqOpt_agree hv hcond]
  rfl

theorem takeWhile_self_all {p : Char → Bool} :
    ∀ l : List Char, (l.takeWhile p).all p = true := by
  intro l
  induction l with
  | nil => rfl
  | cons c cs ih =>
    rw [List.takeWhile_cons]
    by_cases hc : p c = true
    · rw [if_pos hc, List.all_cons, hc, ih]
      rfl
    · rw [if_neg hc]
      rfl

theorem matchSpecifier_spacefree {c : List Char} {o : Op} {ver : List Char}
    (h : matchSpecifier c = some (o, ver)) :
    ver.all (fun ch => !isSpaceCh ch) = true := by
  unfold matchSpecifier at h
  dsimp only at h
  cases hf : findOpIn opList (c.dropWhile isSpaceCh) with
  | none =>
    rw [hf] at h
    cases h
  | some orest =>
    obtain ⟨o2, rest⟩ := orest
    rw [hf] at h
    dsimp only at h
    split at h
    · injection h with h
      injection h with h1 h2
      rw [← h2]
      exact takeWhile_self_all _
    · cases h

theorem parse_first_char {ver : List Char} {w : Version}
    (hw : parse ver = some w)
    (hsp : ver.all (fun ch => !isSpaceCh ch) = true) :
    ∃ c rest, ver = c :: rest ∧ (lowerCh c = 'v' ∨ isDigitCh c = true) := by
  unfold parse at hw
  cases hp : pipe ver.length ver with
  | nil =>
    rw [hp] at hw
    cases hw
  | cons head t =>
    obtain ⟨raw0, r0⟩ := head
    have hmem : (raw0, r0) ∈ pipe ver.length ver := by
      rw [hp]
      exact List.mem_cons_self _ _
    unfold pipe at hmem
    obtain ⟨ws, r1, hws, hmem⟩ := mem_pbind hmem
    obtain ⟨vo, r2, hvo, hmem⟩ := mem_pbind hmem
    obtain ⟨e, r3, he, hmem⟩ := mem_pbind hmem
    obtain ⟨rel, r4, hrel, _⟩ := mem_pbind hmem
    obtain ⟨hsplit, hall⟩ := manyCh_members ver (ws, r1) hws
    have hwsnil : ws = [] := by
      cases hws2 : ws with
      | nil => rfl
      | cons a as =>
        exfalso
        have ha : isSpaceCh a = true := by
          rw [hws2, List.all_cons, Bool.and_eq_true] at hall
          exact hall.1
        have hmem3 : a ∈ ver := by
          rw [← hsplit, hws2]
          exact List.mem_append.mpr (Or.inl (List.mem_cons_self _ _))
        have hb := List.all_eq_true.mp hsp a hmem3
        rw [ha] at hb
        cases hb
    have hr1 : r1 = ver := by
      rw [hwsnil] at hsplit
      simpa using hsplit
    rcases mem_popt hvo with ⟨a, hao, hamem⟩ | ⟨hno, hr2⟩
    · obtain ⟨hach, hshape⟩ := mem_pchar hamem
      exact ⟨a, r2, by rw [← hr1, hshape], Or.inl (of_decide_eq_true hach)⟩
    · rcases mem_popt he with ⟨a2, hao2, ham2⟩ | ⟨hno2, hr3⟩
      · obtain ⟨d, rr, hd, _⟩ := mem_pbind ham2
        obtain ⟨hdne, hdall, hdsplit⟩ := digits1_members hd
        cases hdd : d with
        | nil => exact absurd hdd hdne
        | cons c0 ds =>
          refine ⟨c0, ds ++ rr, ?_, Or.inr ?_⟩
          · rw [← hr1, ← hr2, ← hdsplit, hdd]
            rfl
          · rw [hdd, List.all_cons, Bool.and_eq_true] at hdall
            exact hdall.1
      · unfold releaseStage at hrel
        obtain ⟨d, rr, hd, _⟩ := mem_pbind hrel
        obtain ⟨hdne, hdall, hdsplit⟩ := digits1_members hd
        cases hdd : d with
        | nil => exact absurd hdd hdne
        | cons c0 ds =>
          refine ⟨c0, ds ++ rr, ?_, Or.inr ?_⟩
          · rw [← hr1, ← hr2, ← hr3, ← hdsplit, hdd]
            rfl
          · rw [hdd, List.all_cons, Bool.and_eq_true] at hdall
            exact hdall.1

theorem splitOnDotAux_cons (c : Char) (cs acc : List Char) :
    splitOnDotAux (c :: cs) acc
      = if c = '.' then acc.reverse :: splitOnDotAux cs []
        else splitOnDotAux cs (c :: acc) := rfl

theorem splitOnDotAux_first : ∀ (rest acc : List Char),
    ∃ t ts, splitOnDotAux rest acc = (acc.reverse ++ t) :: ts := by
  intro rest
  induction rest with
  | nil =>
    intro acc
    exact ⟨[], [], by simp [splitOnDotAux]⟩
  | cons c cs ih =>
    intro acc
    by_cases hc : c = '.'
    · refine ⟨[], splitOnDotAux cs [], ?_⟩
      rw [splitOnDotAux_cons, if_pos hc]
      simp
    · obtain ⟨t, ts, hts⟩ := ih (c :: acc)
      refine ⟨c :: t, ts, ?_⟩
      rw [splitOnDotAux_cons, if_neg hc, hts]
      simp

theorem splitOnDot_head {c : Char} (rest : List Char) (hc : ¬(c = '.')) :
    ∃ t ts, splitOnDot (c :: rest) = (c :: t) :: ts := by
  unfold splitOnDot
  rw [splitOnDotAux_cons, if_neg hc]
  obtain ⟨t, ts, hts⟩ := splitOnDotAux_first rest [c]
  exact ⟨t, ts, by rw [hts]; simp⟩

theorem preSplitChunk_head (c : Char) (t0 : List Char) :
    ∃ t ts, preSplitChunk (c :: t0) = (c :: t) :: ts := by
  by_cases hd : isDigitCh c = true
  · have h1 : (c :: t0).takeWhile isDigitCh = c :: t0.takeWhile isDigitCh := by
      rw [List.takeWhile_cons, if_pos hd]
    simp only [preSplitChunk, h1, List.isEmpty_cons, Bool.false_eq_true, if_false]
    split
    · split_ifs
      · exact ⟨t0.takeWhile isDigitCh, _, rfl⟩
      · exact ⟨t0, [], rfl⟩
    · split_ifs
      · exact ⟨t0.takeWhile isDigitCh, _, rfl⟩
      · exact ⟨t0, [], rfl⟩
    · exact ⟨t0, [], rfl⟩
  · have h1 : (c :: t0).takeWhile isDigitCh = [] := by
      rw [List.takeWhile_cons, if_neg hd]
    simp only [preSplitChunk, h1]
    exact ⟨t0, [], by simp⟩

theorem versionSplit_head {c : Char} (rest : List Char) (hc : ¬(c = '.')) :
    ∃ t ts, versionSplit (c :: rest) = (c :: t) :: ts := by
  unfold versionSplit
  obtain ⟨t1, ts1, h1⟩ := splitOnDot_head rest hc
  rw [h1]
  obtain ⟨t2, ts2, h2⟩ := preSplitChunk_head c t1
  rw [List.flatMap_cons, h2]
  exact ⟨t2, ts2 ++ ts1.flatMap preSplitChunk, by simp⟩

theorem compat_prefix_ne {ver : List Char} {w : Version}
    (hw : parse ver = some w)
    (hsp : ver.all (fun ch => !isSpaceCh ch) = true) :
    ((versionSplit ver).takeWhile
      (fun s => !(startsWith s "post".data || startsWith s "dev".data))) ≠ [] := by
  obtain ⟨c, rest, hver, hc⟩ := parse_first_char hw hsp
  have hcdot : ¬(c = '.') := by
    intro he
    subst he
    rcases hc with hc | hc
    · exact absurd hc (by decide)
    · exact absurd hc (by decide)
  subst hver
  obtain ⟨t, ts, hvs⟩ := versionSplit_head rest hcdot
  rw [hvs, List.takeWhile_cons]
  have hcp : ¬(c = 'p') := by
    intro he
    subst he
    rcases hc with hc | hc
    · exact absurd hc (by decide)
    · exact absurd hc (by decide)
  have hcd2 : ¬(c = 'd') := by
    intro he
    subst he
    rcases hc with hc | hc
    · exact absurd hc (by decide)
    · exact absurd hc (by decide)
  have e1 : startsWith (c :: t) "post".data = false := by
    show (decide (c = 'p') && startsWith t "ost".data) = false
    rw [decide_eq_false hcp]
    rfl
  have e2 : startsWith (c :: t) "dev".data = false := by
    show (decide (c = 'd') && startsWith t "ev".data) = false
    rw [decide_eq_false hcd2]
    rfl
  rw [if_pos (by rw [e1, e2]; rfl)]
  simp

theorem compatOpt_agree {v s : Version} {ver : List Char} (hv : WfV v)
    (hw : parse ver = some s)
    (hsp : ver.all (fun ch => !isSpaceCh ch) = true) :
    specifierCompatibleOpt v ver = some (specifierCompatible v ver) := by
  have hne := compat_prefix_ne hw hsp
  have hie : ((versionSplit ver).takeWhile
      (fun s => !(startsWith s "post".data || startsWith s "dev".data))).isEmpty
        = false := by
    cases hx : (versionSplit ver).takeWhile
        (fun s => !(startsWith s "post".data || startsWith s "dev".data)) with
    | nil => exact absurd hx hne
    | cons a as => rfl
  simp only [specifierCompatibleOpt, specifierCompatible, hie,
    Bool.false_eq_true, if_false]
  rw [geOpt_agree hv hw, eqOpt_agree hv (Or.inl (endsWithDotStar_append _))]
  rfl

theorem bool_eq_false {b : Bool} (h : ¬(b = true)) : b = false := by
  cases b
  · rfl
  · exact absurd rfl h

theorem except_bind_error {e a b : Type} (x : e) (k : a → Except e b) :
    (Except.error x >>= k) = Except.error x := rfl

theorem except_bind_ok {e a b : Type} (x : a) (k : a → Except e b) :
    (Except.ok x >>= k) = k x := rfl

theorem except_pure {e a : Type} (x : a) : (pure x : Except e a) = Except.ok x := rfl

theorem mapM_ok_members {a b : Type} (f : a → Except (List Char) b) :
    ∀ (l : List a) (out : List b), l.mapM f = Except.ok out →
      ∀ y ∈ out, ∃ x, f x = Except.ok y := by
  intro l
  induction l with
  | nil =>
    intro out h y hy
    rw [List.mapM_nil] at h
    injection h with h
    rw [← h] at hy
    cases hy
  | cons z zs ih =>
    intro out h y hy
    rw [List.mapM_cons] at h
    cases hfa : f z with
    | error e2 =>
      rw [hfa, except_bind_error] at h
      cases h
    | ok w =>
      rw [hfa, except_bind_ok] at h
      cases hrest : zs.mapM f with
      | error e2 =>
        rw [hrest, except_bind_error] at h
        cases h
      | ok ws =>
        rw [hrest, except_bind_ok, except_pure] at h
        injection h with h
        rw [← h] at hy
        rcases List.mem_cons.mp hy with rfl | hmem
        · exact ⟨z, hfa⟩
        · exact ih ws hrest y hmem

theorem newConstraint_ok_facts {str : List Char} {c : Constraint}
    (h : newConstraint str = Except.ok c) :
    c.op = Op.opArb
    ∨ (validate c.op c.version = Except.ok ()
        ∧ c.version.all (fun ch => !isSpaceCh ch) = true) := by
  unfold newConstraint at h
  cases hm : matchSpecifier str with
  | none =>
    rw [hm] at h
    cases h
  | some ov =>
    obtain ⟨o, ver⟩ := ov
    rw [hm] at h
    dsimp only at h
    have hvsp := matchSpecifier_spacefree hm
    by_cases ho : o = Op.opArb
    · rw [if_pos ho] at h
      injection h with h
      left
      rw [← h]
      exact ho
    · rw [if_neg ho] at h
      cases hval : validate o ver with
      | error e =>
        rw [hval] at h
        cases h
      | ok u =>
        rw [hval] at h
        injection h with h
        right
        cases u
        rw [← h]
        exact ⟨hval, hvsp⟩

theorem validate_ok_facts {op : Op} {ver : List Char}
    (hval : validate op ver = Except.ok ()) :
    ∃ w, parse (if endsWithDotStar ver then ver.take (ver.length - 2) else ver)
        = some w
      ∧ (op = Op.opEq ∨ op = Op.opNe ∨ endsWithDotStar ver = false) := by
  unfold validate at hval
  dsimp only at hval
  cases hp : parse (if endsWithDotStar ver then ver.take (ver.length - 2)
      else ver) with
  | none =>
    rw [hp] at hval
    cases hval
  | some w =>
    rw [hp] at hval
    refine ⟨w, rfl, ?_⟩
    cases op with
    | opEq => exact Or.inl rfl
    | opNe => exact Or.inr (Or.inl rfl)
    | opCompat =>
      refine Or.inr (Or.inr ?_)
      by_cases hwild : endsWithDotStar ver = true
      · dsimp only at hval
        rw [if_pos hwild] at hval
        cases hval
      · exact bool_eq_false hwild
    | opGt =>
      refine Or.inr (Or.inr ?_)
      by_cases hwild : endsWithDotStar ver = true
      · dsimp only at hval
        rw [if_pos hwild] at hval
        cases hval
      · exact bool_eq_false hwild
    | opLt =>
      refine Or.inr (Or.inr ?_)
      by_cases hwild : endsWithDotStar ver = true
      · dsimp only at hval
        rw [if_pos hwild] at hval
        cases hval
      · exact bool_eq_false hwild
    | opGe =>
      refine Or.inr (Or.inr ?_)
      by_cases hwild : endsWithDotStar ver = true
      · dsimp only at hval
        rw [if_pos hwild] at hval
        cases hval
      · exact bool_eq_false hwild
    | opLe =>
      refine Or.inr (Or.inr ?_)
      by_cases hwild : endsWithDotStar ver = true
      · dsimp only at hval
        rw [if_pos hwild] at hval
        cases hval
      · exact bool_eq_false hwild
    | opArb =>
      refine Or.inr (Or.inr ?_)
      by_cases hwild : endsWithDotStar ver = true
      · dsimp only at hval
        rw [if_pos hwild] at hval
        cases hval
      · exact bool_eq_false hwild

theorem newConstraints_members {cstr : List Char} {cs : Constraints}
    (h : newConstraints cstr = Except.ok cs) :
    ∀ g ∈ cs.constraints, ∀ c ∈ g, ∃ str, newConstraint str = Except.ok c := by
  unfold newConstraints at h
  cases hm : (splitSub "||".data cstr).mapM
      (fun vv => (splitSub ",".data vv).mapM newConstraint) with
  | error e =>
    rw [hm] at h
    cases h
  | ok css =>
    rw [hm] at h
    injection h with h
    intro g hg c hc
    obtain ⟨x, hx⟩ := mapM_ok_members _ _ _ hm g (by rw [← h] at hg; exact hg)
    exact mapM_ok_members _ _ _ hx c hc

theorem checkCOpt_agree {c : Constraint} {v : Version} (hv : WfV v)
    (hok : ∃ str, newConstraint str = Except.ok c) :
    c.checkCOpt v = some (c.checkC v) := by
  obtain ⟨str, hstr⟩ := hok
  unfold Constraint.checkCOpt Constraint.checkC
  rcases newConstraint_ok_facts hstr with harb | ⟨hval, hsp⟩
  · rw [harb]
    rfl
  · obtain ⟨w, hw, hwild3⟩ := validate_ok_facts hval
    cases hop : c.op with
    | opArb => rfl
    | opEq =>
      by_cases hwild : endsWithDotStar c.version = true
      · exact eqOpt_agree hv (Or.inl hwild)
      · rw [if_neg hwild] at hw
        exact eqOpt_agree hv (Or.inr ⟨w, hw⟩)
    | opNe =>
      by_cases hwild : endsWithDotStar c.version = true
      · exact neOpt_agree hv (Or.inl hwild)
      · rw [if_neg hwild] at hw
        exact neOpt_agree hv (Or.inr ⟨w, hw⟩)
    | opGt =>
      rw [hop] at hwild3
      have hnw : endsWithDotStar c.version = false := by
        rcases hwild3 with h1 | h1 | h1
        · cases h1
        · cases h1
        · exact h1
      rw [if_neg (by simp [hnw])] at hw
      exact gtOpt_agree hv hw
    | opLt =>
      rw [hop] at hwild3
      have hnw : endsWithDotStar c.version = false := by
        rcases hwild3 with h1 | h1 | h1
        · cases h1
        · cases h1
        · exact h1
      rw [if_neg (by simp [hnw])] at hw
      exact ltOpt_agree hv hw
    | opGe =>
      rw [hop] at hwild3
      have hnw : endsWithDotStar c.version = false := by
        rcases hwild3 with h1 | h1 | h1
        · cases h1
        · cases h1
        · exact h1
      rw [if_neg (by simp [hnw])] at hw
      exact geOpt_agree hv hw
    | opLe =>
      rw [hop] at hwild3
      have hnw : endsWithDotStar c.version = false := by
        rcases hwild3 with h1 | h1 | h1
        · cases h1
        · cases h1
        · exact h1
      rw [if_neg (by simp [hnw])] at hw
      exact leOpt_agree hv hw
    | opCompat =>
      rw [hop] at hwild3
      have hnw : endsWithDotStar c.version = false := by
        rcases hwild3 with h1 | h1 | h1
        · cases h1
        · cases h1
        · exact h1
      rw [if_neg (by simp [hnw])] at hw
      exact compatOpt_agree hv hw hsp

theorem andCheckOpt_agree {v : Version} :
    ∀ (g : List Constraint),
      (∀ c ∈ g, c.checkCOpt v = some (c.checkC v)) →
      andCheckOpt v g = some (andCheck v g) := by
  intro g
  induction g with
  | nil => intro _; rfl
  | cons c g' ih =>
    intro hall
    show (c.checkCOpt v).bind (fun b => if b then andCheckOpt v g' else some false)
      = some (andCheck v (c :: g'))
    rw [hall c (List.mem_cons_self _ _)]
    have hrest := ih (fun c2 hc2 => hall c2 (List.mem_cons_of_mem _ hc2))
    cases hc : c.checkC v <;>
      simp [andCheck, List.all_cons, hc, hrest]

theorem orCheckOpt_agree {v : Version} :
    ∀ (gs : List (List Constraint)),
      (∀ g ∈ gs, andCheckOpt v g = some (andCheck v g)) →
      orCheckOpt v gs = some (gs.any (fun g => andCheck v g)) := by
  intro gs
  induction gs with
  | nil => intro _; rfl
  | cons g gs' ih =>
    intro hall
    show (andCheckOpt v g).bind (fun b => if b then some true else orCheckOpt v gs')
      = _
    rw [hall g (List.mem_cons_self _ _)]
    have hrest := ih (fun g2 hg2 => hall g2 (List.mem_cons_of_mem _ hg2))
    cases hg : andCheck v g <;>
      simp [List.any_cons, hg, hrest]

/-- C10: for a `Constraints` value built by a successful `NewConstraints` and
a version from a successful `Parse`, `Check` never panics: the instrumented
evaluation (where every internal `MustParse`, the `padVersion` slice and the
`~=` prefix slice return `none` on failure) completes and agrees with the
modelled total semantics. -/
theorem claim_C10 (cstr sv : List Char) (cs : Constraints) (v : Version)
    (hcs : newConstraints cstr = Except.ok cs) (hv : parse sv = some v) :
    checkOpt cs v = some (check cs v) := by
  have hwv := parse_wf hv
  have hmem := newConstraints_members hcs
  unfold checkOpt check
  exact orCheckOpt_agree _ (fun g hg =>
    andCheckOpt_agree g (fun c hc => checkCOpt_agree hwv (hmem g hg c hc)))

theorem claim_C10_witness :
    checkOpt ⟨[[⟨"3.1".data, Op.opLt, "<3.1".data⟩]]⟩ (mustParse "3.0".data)
      = some (check ⟨[[⟨"3.1".data, Op.opLt, "<3.1".data⟩]]⟩
          (mustParse "3.0".data)) :=
  claim_C10 "<3.1".data "3.0".data _ _ (ok_of_toOption (by decide)) rfl

end Pep440
